import Mathlib

/-!
Verification of the RARC archive codec (`src/rarc.py`).

Shallow embedding conventions:
* Byte buffers are `List Nat` with each entry intended `< 256`; multi-byte writes use
  explicit `% 256` / `% 2 ^ 16` / `% 2 ^ 32` reductions where Python's `struct.pack`
  would otherwise range-check.
* Names (Python `str`) are modelled as `List Nat` of character codes.  The archive's
  legacy 8-bit text encoding (`shift-jis` in the source) is the identity on the
  single-byte range `1..127`; the well-formedness predicates used by the round-trip
  theorems restrict names to that range, where `str.encode`/`bytes.decode` are the
  identity and `ord letter` is the byte value.
* Python `dict`s (`Directory.files`, `Directory.subdirs`) are modelled as lists in
  insertion order, with the source invariant that the dict key equals the stored
  `.name` of the entry (true for every tree the program builds: `from_node`,
  `from_dir`, and `from_fileentry` all key the dicts by the entry's own name).
  Re-inserting an existing key replaces the value in place (`dictInsertFile`).
* Fallible code returns `Except`; the error constructors record which Python
  exception is raised (`struct.error`, `KeyError`/`IndexError`, `RuntimeError`…).
  `DecodeErr.scanDiverge` marks the one genuinely non-terminating path of the
  source: `stringtable_get_name`'s `while f.read(1) != b"\x00"` loop never exits
  once the read position is at end-of-file, because `f.read(1)` then returns the
  empty bytes object forever.
-/

namespace Rarc

/-! ## Byte-level primitives (`write_uint32`, `write_uint16`, `write_uint8`, `write_pad32`) -/

/-- Big-endian two-byte encoding of a value, as written by `write_uint16`
(`pack(">H", val)`); the value is reduced mod 2^16. -/
def u16b (v : Nat) : List Nat :=
  [v % 65536 / 256, v % 256]

/-- Big-endian four-byte encoding of a value, as written by `write_uint32`
(`pack(">I", val)`); the value is reduced mod 2^32. -/
def u32b (v : Nat) : List Nat :=
  [v % 4294967296 / 16777216, v % 16777216 / 65536, v % 65536 / 256, v % 256]

/-- Big-endian read of two bytes at absolute offset `i` (decoder's `unpack(">H", …)`). -/
def ru16 (buf : List Nat) (i : Nat) : Nat :=
  buf.getD i 0 * 256 + buf.getD (i + 1) 0

/-- Big-endian read of four bytes at absolute offset `i` (decoder's `unpack(">I", …)`). -/
def ru32 (buf : List Nat) (i : Nat) : Nat :=
  buf.getD i 0 * 16777216 + buf.getD (i + 1) 0 * 65536 +
    buf.getD (i + 2) 0 * 256 + buf.getD (i + 3) 0

/-- Next multiple of 0x20 at or after `n`: `(n + 0x1F) & ~0x1F` in `write_pad32`. -/
def align32 (n : Nat) : Nat :=
  (n + 31) / 32 * 32

/-- Zero padding bytes appended by `write_pad32` when the cursor is at `n`. -/
def pad32bytes (n : Nat) : List Nat :=
  List.replicate (align32 n - n) 0

/-! ## Flag bits and `FileListing` -/

def FILE : Nat := 0x01
def DIRECTORY : Nat := 0x02
def COMPRESSED : Nat := 0x04
def DATA_FILE : Nat := 0x10
def REL_FILE : Nat := 0x20
def YAZ0 : Nat := 0x80

structure FileListing where
  is_file : Bool
  is_dir : Bool
  is_compressed : Bool
  is_data : Bool
  is_rel : Bool
  is_yaz0 : Bool
deriving DecidableEq, Repr

namespace FileListing

/-- Source `FileListing.from_flags`: each recognized bit is tested; the unrecognized
bits 0x40 and 0x08 only produce a log notice and are dropped. -/
def from_flags (flags : Nat) : FileListing :=
  ⟨flags &&& FILE != 0, flags &&& DIRECTORY != 0, flags &&& COMPRESSED != 0,
   flags &&& DATA_FILE != 0, flags &&& REL_FILE != 0, flags &&& YAZ0 != 0⟩

/-- Source `FileListing.to_flags`: rebuild the byte from the six recognized bits. -/
def to_flags (l : FileListing) : Nat :=
  (if l.is_file then FILE else 0) |||
  (if l.is_dir then DIRECTORY else 0) |||
  (if l.is_compressed then COMPRESSED else 0) |||
  (if l.is_data then DATA_FILE else 0) |||
  (if l.is_rel then REL_FILE else 0) |||
  (if l.is_yaz0 then YAZ0 else 0)

/-- Source `FileListing.default()`: an uncompressed data file. -/
def default : FileListing :=
  ⟨true, false, false, true, false, false⟩

end FileListing

/-! ## `hash_name` -/

/-- The name hash from the source (`hash_name`): multiplier decided by `len(name)+1`,
then per character `hash = (hash*multiplier) & 0xFFFF; hash = (hash + ord(letter)) & 0xFFFF`. -/
def hash_name (name : List Nat) : Nat :=
  let multiplier := if name.length + 1 = 2 then 2 else if 3 ≤ name.length + 1 then 3 else 1
  name.foldl (fun h c => ((h * multiplier &&& 0xFFFF) + c) &&& 0xFFFF) 0

/-- Modelled from the spec (§4.1 NameHash), for the refinement claim C9: multiplier 1
when `len(name)+1` is exactly 1, 2 when exactly 2, 3 when 3 or more; starting from 0,
for each character `h = (h * multiplier) mod 65536` then `h = (h + codepoint) mod 65536`. -/
def hash_name_spec (name : List Nat) : Nat :=
  let multiplier :=
    if name.length + 1 = 1 then 1 else if name.length + 1 = 2 then 2 else 3
  name.foldl (fun h c => (h * multiplier % 65536 + c) % 65536) 0

/-! ## `StringTable` -/

/-- Association-list lookup with decidable equality on keys (models Python dict
membership and indexing for string-keyed dicts). -/
def alookup {α : Type} : List (List Nat × α) → List Nat → Option α
  | [], _ => none
  | (k, v) :: r, s => if k = s then some v else alookup r s

structure StringTable where
  blob : List Nat
  map : List (List Nat × Nat)
deriving DecidableEq, Repr

namespace StringTable

def empty : StringTable := ⟨[], []⟩

/-- Source `StringTable.write_string`: no-op when the string is already interned, otherwise
append its bytes plus a terminating zero at the current blob length and record that
offset.  (The legacy 8-bit encoding is the identity on the modelled byte range.) -/
def write_string (t : StringTable) (s : List Nat) : StringTable :=
  match alookup t.map s with
  | some _ => t
  | none => ⟨t.blob ++ s ++ [0], t.map ++ [(s, t.blob.length)]⟩

/-- Source `StringTable.get_string_offset`: `none` models the `KeyError` on a
never-interned string. -/
def get_string_offset (t : StringTable) (s : List Nat) : Option Nat :=
  alookup t.map s

/-- Source `StringTable.size`: the current blob length (`self._strings.tell()`). -/
def size (t : StringTable) : Nat := t.blob.length

end StringTable

/-! ## The tree model (`Directory`, `File`) -/

structure AFile where
  name : List Nat
  fileid : Option Nat
  hashcode : Option Nat
  flags : Option Nat
  content : List Nat
deriving DecidableEq, Repr

inductive ADir where
  | node (name : List Nat) (files : List AFile) (subdirs : List ADir)

namespace ADir

def name : ADir → List Nat
  | node n _ _ => n

def files : ADir → List AFile
  | node _ fs _ => fs

def subdirs : ADir → List ADir
  | node _ _ ds => ds

end ADir

/-- Python dict assignment `files[file.name] = file`: replace in place when the key
exists (keeping its position), otherwise append. -/
def dictInsertFile (l : List AFile) (f : AFile) : List AFile :=
  if l.any (fun g => g.name = f.name) then
    l.map (fun g => if g.name = f.name then f else g)
  else l ++ [f]

/-- Python dict assignment `subdirs[subdir.name] = subdir`. -/
def dictInsertDir (l : List ADir) (d : ADir) : List ADir :=
  if l.any (fun g => g.name = d.name) then
    l.map (fun g => if g.name = d.name then d else g)
  else l ++ [d]

/-! ## `split_path` and path lookup / insertion -/

/-- Whitespace test for a character code, matching Python `str.strip` (space and the
five ASCII control whitespace characters). -/
def isSpaceChar (c : Nat) : Bool := c = 32 || (9 ≤ c && c ≤ 13)

/-- Python `rest.strip() == ""`: every character is whitespace. -/
def isBlank (s : List Nat) : Bool := s.all isSpaceChar

/-- Source `split_path`: split at the first `/` (47) or `\` (92); a trailing
separator yields `none` as the remainder, as does the absence of any separator. -/
def split_path (p : List Nat) : List Nat × Option (List Nat) :=
  match p.findIdx? (fun c => c = 47 || c = 92) with
  | none => (p, none)
  | some i => if p.length = i + 1 then (p.take i, none) else (p.take i, some (p.drop (i + 1)))

inductive TreeErr where
  | fileNotFound   -- FileNotFoundError
  | runtimeError   -- RuntimeError ("… is a directory in path …")
  | typeError      -- TypeError ("Entry should be of type File or Directory …")
  | keyError       -- KeyError on a missing dict key
deriving DecidableEq, Repr

inductive Entry where
  | file (f : AFile)
  | dir (d : ADir)

/-- Source `Directory.__getitem__`: descend the path, preferring subdirectories over
files at the terminal segment. -/
def getItem : ADir → List Nat → Except TreeErr Entry
  | .node _ fs ds, path =>
    let p := split_path path
    if p.2 = none ∨ isBlank (p.2.getD []) then
      match ds.find? (fun s => s.name = p.1) with
      | some s => .ok (.dir s)
      | none =>
        match fs.find? (fun f => f.name = p.1) with
        | some f => .ok (.file f)
        | none => .error .fileNotFound
    else if fs.any (fun f => f.name = p.1) then .error .runtimeError
    else
      match h : ds.find? (fun s => s.name = p.1) with
      | some s => getItem s (p.2.getD [])
      | none => .error .keyError
termination_by d _ => sizeOf d
decreasing_by
  have hmem := List.mem_of_find?_eq_some h
  have h1 := List.sizeOf_lt_of_mem hmem
  simp only [ADir.node.sizeOf_spec]
  omega

/-- Source `Directory.__setitem__`, embedded faithfully.  The source tests
`isinstance(name, File)` and `isinstance(name, Directory)` where `name` is the first
path segment — a string — so both tests are `False` for every call and the terminal
case always raises `TypeError`; the two `FileExistsError` collision checks are
unreachable.  In the multi-segment case the source executes
`return self.subdirs[name][rest]`, i.e. a `__getitem__` lookup that modifies
nothing; the returned tree is therefore `d` unchanged when the lookup succeeds. -/
def setItem (d : ADir) (path : List Nat) (_entry : Entry) : Except TreeErr ADir :=
  match split_path path with
  | (nm, rest) =>
    if rest = none ∨ isBlank (rest.getD []) then
      -- isinstance(name, File) = False and isinstance(name, Directory) = False:
      -- `name` is a string, so this is always the TypeError branch.
      .error .typeError
    else if d.files.any (fun f => f.name = nm) then .error .runtimeError
    else
      match d.subdirs.find? (fun s => s.name = nm) with
      | some s => (getItem s (rest.getD [])).map (fun _ => d)
      | none => .error .keyError

/-! ## `File.dump` -/

/-- Truthiness of the unparenthesised bound-method reference
`self.is_yaz0_compressed` in `File.dump`: a bound method object is always truthy. -/
def methodReferenceTruthy : Bool := true

/-- Source `File.dump`: the source reads `if self.is_yaz0_compressed:` — the bound
method object itself, not a call — and a bound method is always truthy, so the
decompress branch is taken for every file regardless of its flags.  (Calling the
method would itself raise `AttributeError`: it reads
`self.filetype.compressed`/`.yaz0`, fields `FileListing` does not have.)  The yaz0
decompressor lives outside `src/` and is passed in as a function. -/
def dump (decompress : List Nat → List Nat) (f : AFile) : List Nat :=
  if methodReferenceTruthy then decompress f.content else f.content

/-! ## The encoder (`Archive.write_arc`)

The source makes two passes over `self.root.walk()` (a pre-order traversal: a
directory first, then each subdirectory's subtree in order).  The first pass interns
every name into the string table and counts nodes; the second pass assigns each
directory its `_nodeindex` (its position in the pre-order enumeration), writes the
node table, and then writes the file-entry table per directory in the same order,
reading each subdirectory's previously assigned `_nodeindex` and `dir.parent`.
The mutation-free embedding precomputes those indices with `annotate`: each
directory is paired with its pre-order index, its parent's index, its absolute path
(`Directory.absolute_path`), and its children's pre-order indices.  The
write-placeholders-then-backpatch strategy of the source is collapsed: `mkHeader`
directly holds the backpatched values, which is what the finished buffer contains. -/

def dotName : List Nat := [46]

def dotdotName : List Nat := [46, 46]

mutual

/-- Pre-order list of directories, in the order `Directory.walk` yields them. -/
def preorder (d : ADir) : List ADir :=
  match d with
  | .node n fs ds => .node n fs ds :: preorderList ds

def preorderList (ds : List ADir) : List ADir :=
  match ds with
  | [] => []
  | d :: rest => preorder d ++ preorderList rest

end

/-- Number of directories in a subtree. -/
def ndirs (d : ADir) : Nat := (preorder d).length

/-- Pre-order node indices assigned to a list of sibling subtrees when the first
sibling's root receives index `s`. -/
def childIndices (s : Nat) : List ADir → List Nat
  | [] => []
  | d :: ds => s :: childIndices (s + ndirs d) ds

/-- One directory of the encoder's walk together with the transient state the source
stores on the object (`_nodeindex`, `parent._nodeindex`, `absolute_path()`) and the
`_nodeindex` values of its children. -/
structure Ann where
  dir : ADir
  idx : Nat
  parentIdx : Option Nat
  path : List Nat
  childIdxs : List Nat

mutual

/-- Annotate a subtree whose root receives pre-order index `i`, parent index `p` and
whose parent's absolute path is `pp` (`none` for the root). -/
def annotate (d : ADir) (i : Nat) (p : Option Nat) (pp : Option (List Nat)) : List Ann :=
  match d with
  | .node n fs ds =>
    let mypath := match pp with | none => n | some q => q ++ [47] ++ n
    ⟨.node n fs ds, i, p, mypath, childIndices (i + 1) ds⟩ ::
      annotateList ds (i + 1) (some i) (some mypath)

def annotateList (ds : List ADir) (i : Nat) (p : Option Nat) (pp : Option (List Nat)) : List Ann :=
  match ds with
  | [] => []
  | d :: rest => annotate d i p pp ++ annotateList rest (i + ndirs d) p pp

end

structure CompressionSetting where
  yaz0_fast : Bool
  wszst : Bool

/-- Python `CompressionSetting()` with its default arguments. -/
def cs0 : CompressionSetting := ⟨false, false⟩

inductive EncodeErr where
  | keyError    -- KeyError from StringTable.get_string_offset
  | nameError   -- NameError: the wszst per-file branch reads the undefined global
                -- `compression_setting` (line 715) instead of `compression_settings`
deriving DecidableEq, Repr

/-- Interpret an optional value as the result of a dict/table access that raises
`KeyError` when missing. -/
def req {α : Type} : Option α → Except EncodeErr α
  | some x => .ok x
  | none => .error .keyError

/-- First-pass interning for one walked directory: subdirectory names first, then
file names (the walk yields `subdirs.keys()` before `files.keys()`). -/
def internDir (st : StringTable) (d : ADir) : StringTable :=
  match d with
  | .node _ fs ds =>
    let st1 := ds.foldl (fun a c => a.write_string c.name) st
    fs.foldl (fun a f => a.write_string f.name) st1

/-- String table produced by the encoder's first pass: `"."`, `".."`, the root name,
then every subdirectory and file name in walk order. -/
def buildStringTable (root : ADir) : StringTable :=
  let st := ((StringTable.empty.write_string dotName).write_string dotdotName).write_string root.name
  (preorder root).foldl internDir st

/-- Node type tag of a non-root node: the directory name upper-cased, truncated or
zero-padded to exactly four bytes.  (On the modelled ASCII range Python's
`str.upper` is the byte-wise map below.) -/
def nodeTypeTag (nm : List Nat) : List Nat :=
  let t := (nm.map (fun c => if 97 ≤ c && c ≤ 122 then c - 32 else c)).take 4
  t ++ List.replicate (4 - t.length) 0

/-- Node-table bytes for the annotated directories, threading the running
`first_file_entry_index`; returns the bytes and the final counter (the
`total_file_entries` value backpatched at offset 40). -/
def nodeTableBytes (st : StringTable) : List Ann → Nat → Except EncodeErr (List Nat × Nat)
  | [], e => .ok ([], e)
  | a :: rest, e => do
    let off ← req (st.get_string_offset a.dir.name)
    let ec := a.dir.subdirs.length + a.dir.files.length
    let tag := if a.idx = 0 then [82, 79, 79, 84] else nodeTypeTag a.dir.name
    let bytes := tag ++ u32b off ++ u16b (hash_name a.dir.name) ++ u16b (ec + 2) ++ u32b e
    let (restB, e') ← nodeTableBytes st rest (e + ec + 2)
    .ok (bytes ++ restB, e')

/-- Python `files.sort(key=key_compare)` where `key_compare` returns the constant
`maxindex + 1` (its id-lookup body is commented out in the source): a stable sort by
a constant key is the identity permutation, so the files keep the insertion order of
the `files` dict. -/
def sortFilesByKeyCompare (_maxindex : Nat) (files : List AFile) : List AFile :=
  files

/-- File-entry records of one directory, threading the id counter and the shared
data buffer.  `dirpath` is `dir.absolute_path()`; the override table is consulted at
`dirpath + "/" + filename`.  Note the override rebinds the running `fileid`, so the
counter continues from `used id + 1` in every case. -/
def fileEntriesBytes (st : StringTable)
    (filelisting : Option (List (List Nat × Nat × FileListing)))
    (cs : CompressionSetting) (dirpath : List Nat) :
    List AFile → Nat → List Nat → Except EncodeErr (List Nat × Nat × List Nat)
  | [], fid, dataB => .ok ([], fid, dataB)
  | f :: rest, fid, dataB => do
    let filepath := dirpath ++ [47] ++ f.name
    let (usedId, meta) :=
      match filelisting with
      | none => (fid, FileListing.default)
      | some fl =>
        match alookup fl filepath with
        | some (i, m) => (i, m)
        | none => (fid, FileListing.default)
    let nameOff ← req (st.get_string_offset f.name)
    let payload ←
      if meta.is_yaz0 && meta.is_compressed then
        -- the wszst sub-branch references the undefined name `compression_setting`;
        -- otherwise the raw stored bytes are written unchanged
        if cs.wszst then .error .nameError else .ok f.content
      else .ok f.content
    let rec1 := u16b usedId ++ u16b (hash_name f.name) ++ [meta.to_flags, 0] ++
      u16b nameOff ++ u32b dataB.length ++ u32b payload.length ++ u32b 0
    let dataB1 := dataB ++ payload ++ pad32bytes (dataB.length + payload.length)
    let (restB, fid1, dataB2) ← fileEntriesBytes st filelisting cs dirpath rest (usedId + 1) dataB1
    .ok (rec1 ++ restB, fid1, dataB2)

/-- One 20-byte directory reference entry (used for `"."`, `".."` and each real
subdirectory): id `0xFFFF`, name hash, flag byte `0x02`, pad, string offset, child
node index, `0x10`, padding. -/
def dirEntryBytes (st : StringTable) (nm : List Nat) (childIdx : Nat) :
    Except EncodeErr (List Nat) := do
  let off ← req (st.get_string_offset nm)
  .ok (u16b 0xFFFF ++ u16b (hash_name nm) ++ [2, 0] ++ u16b off ++
    u32b childIdx ++ u32b 0x10 ++ u32b 0)

def dirEntriesBytes (st : StringTable) : List (List Nat × Nat) → Except EncodeErr (List Nat)
  | [] => .ok []
  | (nm, ci) :: rest => do
    let b ← dirEntryBytes st nm ci
    let restB ← dirEntriesBytes st rest
    .ok (b ++ restB)

/-- Entry-table bytes for the annotated directories in walk order: per directory the
file entries first (sorted by the constant comparator), then `"."` (own index),
`".."` (parent index, or `0xFFFFFFFF` for the root), then the subdirectories. -/
def entryTableBytes (st : StringTable)
    (filelisting : Option (List (List Nat × Nat × FileListing)))
    (cs : CompressionSetting) (maxindex : Nat) :
    List Ann → Nat → List Nat → Except EncodeErr (List Nat × Nat × List Nat)
  | [], fid, dataB => .ok ([], fid, dataB)
  | a :: rest, fid, dataB => do
    let files := sortFilesByKeyCompare maxindex a.dir.files
    let (fB, fid1, dataB1) ← fileEntriesBytes st filelisting cs a.path files fid dataB
    let dotdotIdx := match a.parentIdx with | some p => p | none => 0xFFFFFFFF
    let dirRefs := [(dotName, a.idx), (dotdotName, dotdotIdx)] ++
      (a.dir.subdirs.map ADir.name).zip a.childIdxs
    let dB ← dirEntriesBytes st dirRefs
    let (restB, fid2, dataB2) ← entryTableBytes st filelisting cs maxindex rest fid1 dataB1
    .ok (fB ++ dB ++ restB, fid2, dataB2)

/-- Final 0x40-byte header, with all backpatched values filled in: magic, total
size, 0x20, data offset − 0x20, data size (twice), zeros, node count, 0x20, total
file entries, entry-table offset − 0x20, string-table size, string-table offset −
0x20, zeros. -/
def mkHeader (total N M E0 S0 D0 : Nat) : List Nat :=
  [82, 65, 82, 67] ++ u32b total ++ u32b 0x20 ++ u32b (D0 - 0x20) ++
  u32b (total - D0) ++ u32b (total - D0) ++ u32b 0 ++ u32b 0 ++
  u32b N ++ u32b 0x20 ++ u32b M ++ u32b (E0 - 0x20) ++ u32b (D0 - S0) ++
  u32b (S0 - 0x20) ++ u32b 0 ++ u32b 0

/-- Source `Archive.write_arc`: build the string table, node table, entry table and
data buffer, assemble them with 0x20-alignment padding between sections, and fill
the header fields the source backpatches.  Errors model the `KeyError` of an
uninterned string and the `NameError` in the wszst branch. -/
def write_arc (root : ADir)
    (filelisting : Option (List (List Nat × Nat × FileListing)))
    (maxindex : Nat) (cs : CompressionSetting) : Except EncodeErr (List Nat) := do
  let st := buildStringTable root
  let nodecount := (preorder root).foldl (fun acc d => acc + d.subdirs.length) 1
  let anns := annotate root 0 none none
  let (nodeT, totalEntries) ← nodeTableBytes st anns 0
  let (entryT, _fid, dataB) ← entryTableBytes st filelisting cs maxindex anns maxindex []
  let nodeEnd := 0x40 + nodeT.length
  let E0 := align32 nodeEnd
  let entryEnd := E0 + entryT.length
  let S0 := align32 entryEnd
  let stEnd := S0 + st.size
  let D0 := align32 stEnd
  let total := D0 + dataB.length
  .ok (mkHeader total nodecount totalEntries E0 S0 D0 ++
    nodeT ++ pad32bytes nodeEnd ++
    entryT ++ pad32bytes entryEnd ++
    st.blob ++ pad32bytes stEnd ++
    dataB)

/-! ## The decoder (`Archive.from_file`, `Directory.from_node`)

Termination of `from_node` is exactly the cycle guard of the source: a recursion
into a child node index happens only when that index is not among the ancestor node
indices on the current path (`newparents`), so the number of node indices not yet on
the path strictly decreases (`parentsMeasure`).  The source's `nodelist[nodeindex]`
raises `IndexError` for an out-of-range child, modelled before the recursion. -/

inductive DecodeErr where
  | badMagic      -- RuntimeError("Unknown file header: … should be Yaz0 or RARC")
  | structError   -- struct.error raised by unpack on a short read
  | indexError    -- IndexError: nodes[0] of an empty node list, or nodelist[child]
  | scanDiverge   -- marks the non-terminating name scan: at end-of-file the loop
                  -- `while f.read(1) != b"\x00"` never exits, because f.read(1)
                  -- returns b"" forever
deriving DecidableEq, Repr

def yaz0Magic : List Nat := [89, 97, 122, 48]

def rarcMagic : List Nat := [82, 65, 82, 67]

/-- Source `stringtable_get_name`: scan from `stringtable_offset + offset` for the
terminating zero byte and return the bytes before it (the legacy text decoding is
the identity on the modelled range).  When no zero byte exists before end-of-file
the source loops forever; `scanDiverge` marks that path. -/
def stringtable_get_name (buf : List Nat) (stOff off : Nat) : Except DecodeErr (List Nat) :=
  let rest := buf.drop (stOff + off)
  if 0 ∈ rest then .ok (rest.takeWhile (fun c => c != 0)) else .error .scanDiverge

/-- Read exactly `n` bytes at absolute position `pos`; `none` models the
`struct.error` that `unpack` raises on a short read. -/
def readExact (buf : List Nat) (pos n : Nat) : Option (List Nat) :=
  if pos + n ≤ buf.length then some ((buf.drop pos).take n) else none

/-- One parsed node record: resolved name (node 0 only), unknown u16, entry count,
entry offset. -/
abbrev NodeRec := Option (List Nat) × Nat × Nat × Nat

/-- Node-table parse loop of `Archive.from_file`: `remaining` records starting at
record index `i` (record `i` sits at absolute offset `0x40 + 16*i`); the name is
resolved for node 0 only. -/
def parseNodes (buf : List Nat) (stOff : Nat) : Nat → Nat → Except DecodeErr (List NodeRec)
  | _, 0 => .ok []
  | i, remaining + 1 =>
    match readExact buf (0x40 + 16 * i + 4) 12 with
    | none => .error .structError
    | some r => do
      let nameoff := ru32 r 0
      let unk := ru16 r 4
      let ec := ru16 r 6
      let eoff := ru32 r 8
      let nm? ←
        if i = 0 then do
          let n ← stringtable_get_name buf stOff nameoff
          Except.ok (some n)
        else Except.ok none
      let rest ← parseNodes buf stOff (i + 1) remaining
      .ok ((nm?, unk, ec, eoff) :: rest)

/-- Count of node indices below `n` that are not yet on the recursion path
`idx :: parents`; the decreasing measure of `from_node`'s cycle guard. -/
def parentsMeasure (n idx : Nat) (parents : List Nat) : Nat :=
  ((List.range n).filter (fun j => decide (j ∉ idx :: parents))).length

theorem length_filter_mono {α : Type} (l : List α) (p q : α → Bool)
    (himp : ∀ x, q x = true → p x = true) :
    (l.filter q).length ≤ (l.filter p).length := by
  induction l with
  | nil => simp
  | cons b t ih =>
    by_cases hqb : q b = true
    · have hpb := himp b hqb
      simp [List.filter_cons, hqb, hpb]
      omega
    · simp only [Bool.not_eq_true] at hqb
      by_cases hpb : p b = true <;>
        simp [List.filter_cons, hqb, hpb] <;> omega

theorem length_filter_lt {α : Type} (l : List α) (p q : α → Bool)
    (himp : ∀ x, q x = true → p x = true)
    (a : α) (ha : a ∈ l) (hpa : p a = true) (hqa : q a = false) :
    (l.filter q).length < (l.filter p).length := by
  induction l with
  | nil => cases ha
  | cons b t ih =>
    rcases List.mem_cons.mp ha with hab | hat
    · subst hab
      simp only [List.filter_cons, hpa, hqa]
      have := length_filter_mono t p q himp
      simp
      omega
    · have hlt := ih hat
      by_cases hqb : q b = true
      · have hpb := himp b hqb
        simp [List.filter_cons, hqb, hpb]
        omega
      · simp only [Bool.not_eq_true] at hqb
        by_cases hpb : p b = true <;>
          simp [List.filter_cons, hqb, hpb] <;> omega

theorem parentsMeasure_lt (n child idx : Nat) (parents : List Nat)
    (hc : child < n) (hni : child ∉ idx :: parents) :
    parentsMeasure n child (idx :: parents) < parentsMeasure n idx parents := by
  apply length_filter_lt (List.range n)
    (fun j => decide (j ∉ idx :: parents)) (fun j => decide (j ∉ child :: idx :: parents))
  · intro x hx
    simp only [decide_eq_true_eq] at hx ⊢
    intro hmem
    exact hx (List.mem_cons_of_mem _ hmem)
  · exact List.mem_range.mpr hc
  · simpa using hni
  · simp

theorem lexStepAux {a b c d : Nat} (h : a < c) (hbd : b < d) :
    Prod.Lex (· < ·) (· < ·) (a + 1, b) (c, d) := by
  rcases Nat.lt_or_ge (a + 1) c with h1 | h1
  · exact Prod.Lex.left _ _ h1
  · have h2 : a + 1 = c := by omega
    subst h2
    exact Prod.Lex.right _ hbd

mutual

/-- Source `Directory.from_node`: look up the node record (an out-of-range index is
the caller's `IndexError`, checked by the caller before recursing), take the stored
name for node 0 or the name of the referencing entry otherwise, and process the
node's entries. -/
def from_node (buf : List Nat) (stOff entryOff dataOff : Nat) (nodes : List NodeRec)
    (idx : Nat) (parents : List Nat) (fallback : List Nat) : Except DecodeErr ADir :=
  match nodes[idx]? with
  | none => .error .indexError
  | some (nm?, _unk, ec, eoff) =>
    let name := nm?.getD fallback
    match procEntries buf stOff entryOff dataOff nodes idx parents eoff 0 ec [] [] with
    | .error e => .error e
    | .ok (fs, ds) => .ok (.node name fs ds)
termination_by (parentsMeasure nodes.length idx parents + 1, 0)
decreasing_by
  simp_wf
  apply Prod.Lex.left
  omega

/-- Entry loop of `from_node`: entry `cur` of the node sits at
`entryOff + (eoff + cur) * 20`.  Entries named `"."`, `".."` or `""` are skipped; an
entry whose flags mark a directory and not a file recurses into
`child-node-index` unless that index is already on the current path (recursive
directory: warn and skip) or out of range (`IndexError`); other entries become
files whose content is `datasize` bytes at `dataOff + data-offset` (a short read
truncates silently, as `f.read` does). -/
def procEntries (buf : List Nat) (stOff entryOff dataOff : Nat) (nodes : List NodeRec)
    (idx : Nat) (parents : List Nat) (eoff cur remaining : Nat)
    (files : List AFile) (subdirs : List ADir) : Except DecodeErr (List AFile × List ADir) :=
  match remaining with
  | 0 => .ok (files, subdirs)
  | r + 1 =>
    match readExact buf (entryOff + (eoff + cur) * 20) 20 with
    | none => .error .structError
    | some e =>
      let fileid := ru16 e 0
      let hashcode := ru16 e 2
      let flags := e.getD 4 0
      let nameoff := ru16 e 6
      let fdo := ru32 e 8
      let dsize := ru32 e 12
      match stringtable_get_name buf stOff nameoff with
      | .error err => .error err
      | .ok ename =>
        if ename = dotName ∨ ename = dotdotName ∨ ename = [] then
          procEntries buf stOff entryOff dataOff nodes idx parents eoff (cur + 1) r files subdirs
        else if flags &&& DIRECTORY ≠ 0 ∧ flags &&& FILE = 0 then
          if hmem : fdo ∈ idx :: parents then
            -- "Detected recursive directory … Skipping"
            procEntries buf stOff entryOff dataOff nodes idx parents eoff (cur + 1) r files subdirs
          else if hc : fdo < nodes.length then
            match from_node buf stOff entryOff dataOff nodes fdo (idx :: parents) ename with
            | .error err => .error err
            | .ok sub =>
              procEntries buf stOff entryOff dataOff nodes idx parents eoff (cur + 1) r
                files (dictInsertDir subdirs sub)
          else .error .indexError
        else
          let content := (buf.drop (dataOff + fdo)).take dsize
          let f : AFile := ⟨ename, some fileid, some hashcode, some flags, content⟩
          procEntries buf stOff entryOff dataOff nodes idx parents eoff (cur + 1) r
            (dictInsertFile files f) subdirs
termination_by (parentsMeasure nodes.length idx parents, remaining)
decreasing_by
  all_goals simp_wf
  all_goals first
    | (apply Prod.Lex.right; omega)
    | (exact lexStepAux (parentsMeasure_lt nodes.length (ru32 e 8) idx parents hc hmem)
        (Nat.succ_pos r))

end

/-- Body of `Archive.from_file` on the (possibly decompressed) buffer: require the
container magic, read the header fields at their fixed offsets (any buffer shorter
than 0x38 bytes makes one of the header `unpack` calls fail), parse the node table,
and materialize the tree from node 0.  `nodes[0]` of an empty node list is the
source's `IndexError`. -/
def decodeRarcBody (buf : List Nat) : Except DecodeErr ADir :=
  if buf.take 4 = rarcMagic then
    if buf.length < 56 then .error .structError
    else
      let dataOff := ru32 buf 12 + 0x20
      let nodeCount := ru32 buf 32
      let entryOff := ru32 buf 44 + 0x20
      let stOff := ru32 buf 52 + 0x20
      match parseNodes buf stOff 0 nodeCount with
      | .error e => .error e
      | .ok nodes =>
        match nodes with
        | [] => .error .indexError
        | (nm?, _, _, _) :: _ =>
          from_node buf stOff entryOff dataOff nodes 0 [] (nm?.getD [])
  else .error .badMagic

/-- Source `Archive.from_file`: when the buffer starts with the compression magic it
is first fully decompressed (the yaz0 decompressor lives outside `src/` and is
passed in as a function), then the container body is decoded. -/
def from_file (decompress : List Nat → List Nat) (buf : List Nat) : Except DecodeErr ADir :=
  if buf.take 4 = yaz0Magic then decodeRarcBody (decompress buf) else decodeRarcBody buf

/-! ## Expected decode of an encoded tree, and well-formedness

Encoding with no override table discards each file's own id and flags: the entry
gets the next fallback id and the default flag byte; decoding then restores files
with those values and with the stored hash.  `assignIdsD` is that transform. -/

/-- Replace each file's transient fields with what an encode(no override)/decode
round trip produces: sequential ids from `fid`, the name hash, the default flag
byte; content and name unchanged. -/
def assignFiles (fid : Nat) : List AFile → List AFile × Nat
  | [] => ([], fid)
  | f :: r =>
    let rec1 : AFile :=
      ⟨f.name, some fid, some (hash_name f.name), some FileListing.default.to_flags, f.content⟩
    let (r', fid') := assignFiles (fid + 1) r
    (rec1 :: r', fid')

mutual

def assignIdsD (d : ADir) (fid : Nat) : ADir × Nat :=
  match d with
  | .node n fs ds =>
    let (fs', fid1) := assignFiles fid fs
    let (ds', fid2) := assignIdsL ds fid1
    (.node n fs' ds', fid2)

def assignIdsL (ds : List ADir) (fid : Nat) : List ADir × Nat :=
  match ds with
  | [] => ([], fid)
  | d :: rest =>
    let (d', fid1) := assignIdsD d fid
    let (rest', fid2) := assignIdsL rest fid1
    (d' :: rest', fid2)

end

/-- Valid entry name for the round trip: nonempty, not one of the synthetic names
`"."`/`".."` (the decoder skips those), printable ASCII without the path
separators `/` and `\` (so `split_path`, `strip` and the legacy single-byte text
encoding are all transparent). -/
def validNameB (n : List Nat) : Bool :=
  n != [] && n != dotName && n != dotdotName &&
  n.all (fun c => 33 ≤ c && c ≤ 126 && c != 47 && c != 92)

mutual

/-- Structural well-formedness: every name valid, sibling file names distinct,
sibling directory names distinct (Python dict keys are unique). -/
def wfDirB (d : ADir) : Bool :=
  match d with
  | .node n fs ds =>
    validNameB n && fs.all (fun f => validNameB f.name) &&
    decide ((fs.map AFile.name).Nodup) && decide ((ds.map ADir.name).Nodup) &&
    wfDirLB ds

def wfDirLB : List ADir → Bool
  | [] => true
  | d :: ds => wfDirB d && wfDirLB ds

end

mutual

/-- Total number of files in the tree. -/
def nfiles : ADir → Nat
  | .node _ fs ds => fs.length + nfilesL ds

def nfilesL : List ADir → Nat
  | [] => 0
  | d :: r => nfiles d + nfilesL r

end

mutual

/-- Length of the encoder's data section for a subtree: each file's content padded
to 0x20, in walk order. -/
def dataLenOf : ADir → Nat
  | .node _ fs ds => fs.foldl (fun b f => b + align32 f.content.length) 0 + dataLenL ds

def dataLenL : List ADir → Nat
  | [] => 0
  | d :: r => dataLenOf d + dataLenL r

end

/-- Entry count of one directory's node: subdirectories plus files (the two
synthetic entries are added separately). -/
def ecOf (d : ADir) : Nat := d.subdirs.length + d.files.length

mutual

/-- Total number of 20-byte entry records a subtree contributes (each directory
contributes its entry count plus the two synthetic entries). -/
def subEnt : ADir → Nat
  | .node _ fs ds => ds.length + fs.length + 2 + subEntL ds

def subEntL : List ADir → Nat
  | [] => 0
  | d :: r => subEnt d + subEntL r

end

mutual

/-- All names in a subtree: the directory's own name, its file names, and the
names in its subtrees. -/
def namesD : ADir → List (List Nat)
  | .node n fs ds => n :: (fs.map AFile.name ++ namesL ds)

def namesL : List ADir → List (List Nat)
  | [] => []
  | d :: r => namesD d ++ namesL r

end

/-- Number of directories in a sibling forest. -/
def ndirsL (ds : List ADir) : Nat := (preorderList ds).length

/-- Sum of `entry count + 2` over a list of annotated directories. -/
def entsum : List Ann → Nat
  | [] => 0
  | a :: r => ecOf a.dir + 2 + entsum r

/-- Expected `(unknown, entrycount, entryoffset)` node-record values for a run of
annotated directories whose first entry slot is `e` (the name is resolved by the
decoder only for node index 0; see `nodeRecsOf`). -/
def nodeValsAnns : List Ann → Nat → List (Nat × Nat × Nat)
  | [], _ => []
  | a :: r, e => (hash_name a.dir.name, ecOf a.dir + 2, e) :: nodeValsAnns r (e + (ecOf a.dir + 2))

/-- Expected parsed node records: the record at loop index `i0` carries the resolved
name exactly when `i0 = 0`. -/
def nodeRecsOf : List Ann → Nat → Nat → List NodeRec
  | [], _, _ => []
  | a :: r, e, i0 =>
    ((if i0 = 0 then some a.dir.name else none), hash_name a.dir.name, ecOf a.dir + 2, e) ::
      nodeRecsOf r (e + (ecOf a.dir + 2)) (i0 + 1)

/-- Size bounds under which every value the encoder packs fits its field width
(ids and string offsets are 16-bit, data offsets 32-bit). -/
def boundsOkB (root : ADir) (mi : Nat) : Bool :=
  nfiles root + ndirs root ≤ 65533 &&
  mi + nfiles root ≤ 65535 &&
  (buildStringTable root).size ≤ 65535 &&
  dataLenOf root ≤ 2147483648

/-- Well-formed encoder input: structure plus size bounds. -/
def wfArc (root : ADir) (mi : Nat) : Prop :=
  wfDirB root = true ∧ boundsOkB root mi = true

instance (root : ADir) (mi : Nat) : Decidable (wfArc root mi) := by
  unfold wfArc
  infer_instance

/-! ## Concrete instances used by counterexamples and witnesses -/

/-- Composition `from_file ∘ write_arc` with no override table, no compression and
the identity decompressor (unused: the encoded buffer starts with the container
magic); `none` on an encode error. -/
def roundtripNC (t : ADir) : Option ADir :=
  match write_arc t none 0 cs0 with
  | .ok buf => (from_file (fun b => b) buf).toOption
  | .error _ => none

/-- A tree whose single file carries a non-default flag byte 0x15
(file+compressed+data) and id 7. -/
def c1tree : ADir := .node [114] [⟨[97], some 7, some 97, some 21, [1, 2]⟩] []

/-- What decoding the encoding of `c1tree` actually yields: fallback id 0 and the
default flag byte 0x11. -/
def c1dec : ADir := .node [114] [⟨[97], some 0, some 97, some 17, [1, 2]⟩] []

/-- Two-directory well-formed tree for witnesses: root `r` with file `a` and
subdirectory `s` holding file `b`. -/
def w1tree : ADir :=
  .node [114] [⟨[97], none, none, none, [1, 2, 3]⟩]
    [.node [115] [⟨[98], none, none, none, []⟩] []]

/-- Root `r` with files `b` then `a` in insertion order. -/
def c3tree : ADir :=
  .node [114] [⟨[98], none, none, none, []⟩, ⟨[97], none, none, none, []⟩] []

/-- Override table giving `r/b` id 5 and `r/a` id 3. -/
def c3fl : List (List Nat × Nat × FileListing) :=
  [([114, 47, 98], 5, FileListing.default), ([114, 47, 97], 3, FileListing.default)]

/-- The bytes `write_arc` produces for `c3tree` with the override table `c3fl`. -/
def c3bytes : List Nat :=
  (write_arc c3tree (some c3fl) 5 cs0).toOption.getD []

/-- An 80-byte buffer with a valid container magic, one node, and a string-table
offset pointing past end-of-file, so the name scan for node 0 starts at EOF and
never sees a zero byte. -/
def c4buf : List Nat :=
  rarcMagic ++ u32b 80 ++ u32b 0 ++ u32b 0 ++ List.replicate 16 0 ++
  u32b 1 ++ List.replicate 8 0 ++ u32b 0 ++ u32b 0 ++ u32b 65536 ++
  List.replicate 8 0 ++ List.replicate 16 0

/-- A file whose flag byte 0x11 does not mark it compressed, with content
`[1, 2, 3]`. -/
def c5file : AFile := ⟨[97], some 0, some 97, some 17, [1, 2, 3]⟩

/-- Directory `r` that already contains a subdirectory named `a` and a file named
`b`. -/
def c7dir : ADir :=
  .node [114] [⟨[98], none, none, none, []⟩] [.node [97] [] []]

/-- Predicate: `seg` occupies `buf` starting at byte offset `off`. -/
def listSeg (buf : List Nat) (off : Nat) (seg : List Nat) : Prop :=
  ∃ pre post, buf = pre ++ seg ++ post ∧ pre.length = off

/-! ## Helper lemmas -/

theorem preorderList_cons (d : ADir) (r : List ADir) :
    preorderList (d :: r) = preorder d ++ preorderList r := by
  simp [preorderList]

theorem ndirs_node (n : List Nat) (fs : List AFile) (ds : List ADir) :
    ndirs (.node n fs ds) = 1 + ndirsL ds := by
  simp [ndirs, ndirsL, preorder]
  omega

theorem ndirsL_cons (d : ADir) (r : List ADir) :
    ndirsL (d :: r) = ndirs d + ndirsL r := by
  simp [ndirsL, ndirs, preorderList_cons]

theorem ndirs_pos (d : ADir) : 1 ≤ ndirs d := by
  rcases d with ⟨n, fs, ds⟩
  rw [ndirs_node]
  omega

theorem entsum_append (l1 l2 : List Ann) : entsum (l1 ++ l2) = entsum l1 + entsum l2 := by
  induction l1 with
  | nil => simp [entsum]
  | cons a r ih => simp [entsum, ih]; omega

theorem nodeValsAnns_length (l : List Ann) (e : Nat) : (nodeValsAnns l e).length = l.length := by
  induction l generalizing e with
  | nil => rfl
  | cons a r ih => simp [nodeValsAnns, ih]

theorem nodeValsAnns_append (l1 l2 : List Ann) (e : Nat) :
    nodeValsAnns (l1 ++ l2) e = nodeValsAnns l1 e ++ nodeValsAnns l2 (e + entsum l1) := by
  induction l1 generalizing e with
  | nil => simp [nodeValsAnns, entsum]
  | cons a r ih =>
    simp only [List.cons_append, nodeValsAnns, entsum, List.append_eq]
    rw [ih, Nat.add_assoc]

theorem childIndices_length (s : Nat) (ds : List ADir) :
    (childIndices s ds).length = ds.length := by
  induction ds generalizing s with
  | nil => rfl
  | cons d r ih => simp [childIndices, ih]

/-- Pair induction: the annotation of a subtree has one entry per directory. -/
theorem annotate_length_pair :
    (∀ d, ∀ i p pp, (annotate d i p pp : List Ann).length = ndirs d) ∧
    (∀ ds, ∀ i p pp, (annotateList ds i p pp : List Ann).length = ndirsL ds) := by
  have c1 : ∀ (n : List Nat) (fs : List AFile) (ds : List ADir),
      (∀ i p pp, (annotateList ds i p pp).length = ndirsL ds) →
      ∀ i p pp, (annotate (.node n fs ds) i p pp).length = ndirs (.node n fs ds) := by
    intro n fs ds ih i p pp
    simp [annotate, ih, ndirs_node]
    omega
  have c2 : ∀ i p pp, (annotateList ([] : List ADir) i p pp).length = ndirsL [] := by
    intro i p pp
    simp [annotateList, ndirsL, preorderList]
  have c3 : ∀ (d : ADir) (rest : List ADir),
      (∀ i p pp, (annotate d i p pp).length = ndirs d) →
      (∀ i p pp, (annotateList rest i p pp).length = ndirsL rest) →
      ∀ i p pp, (annotateList (d :: rest) i p pp).length = ndirsL (d :: rest) := by
    intro d rest ihd ihr i p pp
    simp [annotateList, ihd, ihr, ndirsL_cons]
  exact ⟨preorder.induct _ _ c1 c2 c3, preorderList.induct _ _ c1 c2 c3⟩

/-- Pair induction: total entry slots of an annotated subtree. -/
theorem annotate_entsum_pair :
    (∀ d, ∀ i p pp, entsum (annotate d i p pp) = subEnt d) ∧
    (∀ ds, ∀ i p pp, entsum (annotateList ds i p pp) = subEntL ds) := by
  have c1 : ∀ (n : List Nat) (fs : List AFile) (ds : List ADir),
      (∀ i p pp, entsum (annotateList ds i p pp) = subEntL ds) →
      ∀ i p pp, entsum (annotate (.node n fs ds) i p pp) = subEnt (.node n fs ds) := by
    intro n fs ds ih i p pp
    simp [annotate, entsum, ih, subEnt, ecOf, ADir.subdirs, ADir.files]
  have c2 : ∀ i p pp, entsum (annotateList ([] : List ADir) i p pp) = subEntL [] := by
    intro i p pp
    simp [annotateList, entsum, subEntL]
  have c3 : ∀ (d : ADir) (rest : List ADir),
      (∀ i p pp, entsum (annotate d i p pp) = subEnt d) →
      (∀ i p pp, entsum (annotateList rest i p pp) = subEntL rest) →
      ∀ i p pp, entsum (annotateList (d :: rest) i p pp) = subEntL (d :: rest) := by
    intro d rest ihd ihr i p pp
    simp [annotateList, entsum_append, ihd, ihr, subEntL]
  exact ⟨preorder.induct _ _ c1 c2 c3, preorderList.induct _ _ c1 c2 c3⟩

theorem assignFiles_snd (fid : Nat) (fs : List AFile) :
    (assignFiles fid fs).2 = fid + fs.length := by
  induction fs generalizing fid with
  | nil => simp [assignFiles]
  | cons f r ih => simp [assignFiles, ih]; omega

theorem assignFiles_fst_length (fid : Nat) (fs : List AFile) :
    (assignFiles fid fs).1.length = fs.length := by
  induction fs generalizing fid with
  | nil => simp [assignFiles]
  | cons f r ih => simp [assignFiles, ih]

/-- Pair induction: the id counter after assigning a subtree. -/
theorem assignIds_snd_pair :
    (∀ d, ∀ fid, (assignIdsD d fid).2 = fid + nfiles d) ∧
    (∀ ds, ∀ fid, (assignIdsL ds fid).2 = fid + nfilesL ds) := by
  have c1 : ∀ (n : List Nat) (fs : List AFile) (ds : List ADir),
      (∀ fid, (assignIdsL ds fid).2 = fid + nfilesL ds) →
      ∀ fid, (assignIdsD (.node n fs ds) fid).2 = fid + nfiles (.node n fs ds) := by
    intro n fs ds ih fid
    simp [assignIdsD, ih, assignFiles_snd, nfiles]
    omega
  have c2 : ∀ fid, (assignIdsL ([] : List ADir) fid).2 = fid + nfilesL [] := by
    intro fid
    simp [assignIdsL, nfilesL]
  have c3 : ∀ (d : ADir) (rest : List ADir),
      (∀ fid, (assignIdsD d fid).2 = fid + nfiles d) →
      (∀ fid, (assignIdsL rest fid).2 = fid + nfilesL rest) →
      ∀ fid, (assignIdsL (d :: rest) fid).2 = fid + nfilesL (d :: rest) := by
    intro d rest ihd ihr fid
    simp [assignIdsL, ihd, ihr, nfilesL]
    omega
  exact ⟨preorder.induct _ _ c1 c2 c3, preorderList.induct _ _ c1 c2 c3⟩

/-- Pair induction: the node-count computed by the encoder's first walk equals the
number of directories. -/
theorem nodecount_pair :
    (∀ d, ∀ k : Nat, (preorder d).foldl (fun acc x => acc + x.subdirs.length) k + 1 =
      k + ndirs d) ∧
    (∀ ds, ∀ k : Nat, (preorderList ds).foldl (fun acc x => acc + x.subdirs.length) k +
      ds.length = k + ndirsL ds) := by
  have c1 : ∀ (n : List Nat) (fs : List AFile) (ds : List ADir),
      (∀ k : Nat, (preorderList ds).foldl (fun acc x => acc + x.subdirs.length) k +
        ds.length = k + ndirsL ds) →
      ∀ k : Nat, (preorder (.node n fs ds)).foldl (fun acc x => acc + x.subdirs.length) k + 1 =
        k + ndirs (.node n fs ds) := by
    intro n fs ds ih k
    show ((ADir.node n fs ds :: preorderList ds).foldl _ k) + 1 = _
    rw [List.foldl_cons]
    have h := ih (k + ds.length)
    simp only [ADir.subdirs] at *
    rw [ndirs_node]
    omega
  have c2 : ∀ k : Nat, (preorderList ([] : List ADir)).foldl
      (fun acc x => acc + x.subdirs.length) k + ([] : List ADir).length = k + ndirsL [] := by
    intro k
    simp [preorderList, ndirsL]
  have c3 : ∀ (d : ADir) (rest : List ADir),
      (∀ k : Nat, (preorder d).foldl (fun acc x => acc + x.subdirs.length) k + 1 = k + ndirs d) →
      (∀ k : Nat, (preorderList rest).foldl (fun acc x => acc + x.subdirs.length) k +
        rest.length = k + ndirsL rest) →
      ∀ k : Nat, (preorderList (d :: rest)).foldl (fun acc x => acc + x.subdirs.length) k +
        (d :: rest).length = k + ndirsL (d :: rest) := by
    intro d rest ihd ihr k
    rw [preorderList_cons, List.foldl_append]
    have h1 := ihd k
    have h2 := ihr ((preorder d).foldl (fun acc x => acc + x.subdirs.length) k)
    rw [ndirsL_cons]
    simp only [List.length_cons]
    omega
  exact ⟨preorder.induct _ _ c1 c2 c3, preorderList.induct _ _ c1 c2 c3⟩

/-- Pair induction: the annotated directories are exactly the walked directories. -/
theorem annotate_dirs_pair :
    (∀ d, ∀ i p pp, (annotate d i p pp).map Ann.dir = preorder d) ∧
    (∀ ds, ∀ i p pp, (annotateList ds i p pp).map Ann.dir = preorderList ds) := by
  have c1 : ∀ (n : List Nat) (fs : List AFile) (ds : List ADir),
      (∀ i p pp, (annotateList ds i p pp).map Ann.dir = preorderList ds) →
      ∀ i p pp, (annotate (.node n fs ds) i p pp).map Ann.dir = preorder (.node n fs ds) := by
    intro n fs ds ih i p pp
    simp [annotate, preorder, ih]
  have c2 : ∀ i p pp, (annotateList ([] : List ADir) i p pp).map Ann.dir =
      preorderList ([] : List ADir) := by
    intro i p pp
    simp [annotateList, preorderList]
  have c3 : ∀ (d : ADir) (rest : List ADir),
      (∀ i p pp, (annotate d i p pp).map Ann.dir = preorder d) →
      (∀ i p pp, (annotateList rest i p pp).map Ann.dir = preorderList rest) →
      ∀ i p pp, (annotateList (d :: rest) i p pp).map Ann.dir = preorderList (d :: rest) := by
    intro d rest ihd ihr i p pp
    simp [annotateList, preorderList_cons, ihd, ihr]
  exact ⟨preorder.induct _ _ c1 c2 c3, preorderList.induct _ _ c1 c2 c3⟩

/-- Pair induction: per-directory size bounds within a subtree. -/
theorem member_bounds_pair :
    (∀ d, ∀ x, x ∈ preorder d → x.files.length ≤ nfiles d ∧ x.subdirs.length < ndirs d) ∧
    (∀ ds, ∀ x, x ∈ preorderList ds → x.files.length ≤ nfilesL ds ∧
      x.subdirs.length < ndirsL ds + 1) := by
  have c1 : ∀ (n : List Nat) (fs : List AFile) (ds : List ADir),
      (∀ x, x ∈ preorderList ds → x.files.length ≤ nfilesL ds ∧
        x.subdirs.length < ndirsL ds + 1) →
      ∀ x, x ∈ preorder (.node n fs ds) →
        x.files.length ≤ nfiles (.node n fs ds) ∧ x.subdirs.length < ndirs (.node n fs ds) := by
    intro n fs ds ih x hx
    rw [show preorder (.node n fs ds) = .node n fs ds :: preorderList ds from by
      simp [preorder]] at hx
    rw [ndirs_node]
    rcases List.mem_cons.mp hx with h | h
    · subst h
      simp only [ADir.files, ADir.subdirs, nfiles]
      constructor
      · omega
      · have : ds.length ≤ ndirsL ds := by
          clear ih hx
          induction ds with
          | nil => simp [ndirsL, preorderList]
          | cons a r iha =>
            rw [ndirsL_cons]
            have := ndirs_pos a
            simp only [List.length_cons]
            omega
        omega
    · obtain ⟨h1, h2⟩ := ih x h
      simp only [nfiles]
      omega
  have c2 : ∀ x, x ∈ preorderList ([] : List ADir) →
      x.files.length ≤ nfilesL [] ∧ x.subdirs.length < ndirsL [] + 1 := by
    intro x hx
    simp [preorderList] at hx
  have c3 : ∀ (d : ADir) (rest : List ADir),
      (∀ x, x ∈ preorder d → x.files.length ≤ nfiles d ∧ x.subdirs.length < ndirs d) →
      (∀ x, x ∈ preorderList rest → x.files.length ≤ nfilesL rest ∧
        x.subdirs.length < ndirsL rest + 1) →
      ∀ x, x ∈ preorderList (d :: rest) → x.files.length ≤ nfilesL (d :: rest) ∧
        x.subdirs.length < ndirsL (d :: rest) + 1 := by
    intro d rest ihd ihr x hx
    rw [preorderList_cons] at hx
    rw [ndirsL_cons, nfilesL]
    rcases List.mem_append.mp hx with h | h
    · obtain ⟨h1, h2⟩ := ihd x h
      have := ndirs_pos d
      omega
    · obtain ⟨h1, h2⟩ := ihr x h
      omega
  exact ⟨preorder.induct _ _ c1 c2 c3, preorderList.induct _ _ c1 c2 c3⟩

/-- Pair induction: where each name of a subtree comes from — the root's own name,
or a file or subdirectory name of some walked directory. -/
theorem names_origin_pair :
    (∀ d, ∀ s, s ∈ namesD d → s = d.name ∨
      ∃ x ∈ preorder d, s ∈ x.files.map AFile.name ∨ s ∈ x.subdirs.map ADir.name) ∧
    (∀ ds, ∀ s, s ∈ namesL ds → (∃ c ∈ ds, s = c.name) ∨
      ∃ x ∈ preorderList ds, s ∈ x.files.map AFile.name ∨ s ∈ x.subdirs.map ADir.name) := by
  have c1 : ∀ (n : List Nat) (fs : List AFile) (ds : List ADir),
      (∀ s, s ∈ namesL ds → (∃ c ∈ ds, s = c.name) ∨
        ∃ x ∈ preorderList ds, s ∈ x.files.map AFile.name ∨ s ∈ x.subdirs.map ADir.name) →
      ∀ s, s ∈ namesD (.node n fs ds) → s = (ADir.node n fs ds).name ∨
        ∃ x ∈ preorder (.node n fs ds),
          s ∈ x.files.map AFile.name ∨ s ∈ x.subdirs.map ADir.name := by
    intro n fs ds ih s hs
    have hpre : preorder (.node n fs ds) = .node n fs ds :: preorderList ds := by
      simp [preorder]
    simp only [namesD, List.mem_cons, List.mem_append] at hs
    rcases hs with h | h | h
    · exact Or.inl h
    · refine Or.inr ⟨.node n fs ds, ?_, Or.inl h⟩
      rw [hpre]
      exact List.mem_cons_self _ _
    · rcases ih s h with ⟨c, hc, hcn⟩ | ⟨x, hx, hor⟩
      · refine Or.inr ⟨.node n fs ds, ?_, Or.inr ?_⟩
        · rw [hpre]
          exact List.mem_cons_self _ _
        · subst hcn
          simp only [ADir.subdirs]
          exact List.mem_map_of_mem ADir.name hc
      · refine Or.inr ⟨x, ?_, hor⟩
        rw [hpre]
        exact List.mem_cons_of_mem _ hx
  have c2 : ∀ s, s ∈ namesL ([] : List ADir) → (∃ c ∈ ([] : List ADir), s = c.name) ∨
      ∃ x ∈ preorderList ([] : List ADir),
        s ∈ x.files.map AFile.name ∨ s ∈ x.subdirs.map ADir.name := by
    intro s hs
    simp [namesL] at hs
  have c3 : ∀ (d : ADir) (rest : List ADir),
      (∀ s, s ∈ namesD d → s = d.name ∨
        ∃ x ∈ preorder d, s ∈ x.files.map AFile.name ∨ s ∈ x.subdirs.map ADir.name) →
      (∀ s, s ∈ namesL rest → (∃ c ∈ rest, s = c.name) ∨
        ∃ x ∈ preorderList rest, s ∈ x.files.map AFile.name ∨ s ∈ x.subdirs.map ADir.name) →
      ∀ s, s ∈ namesL (d :: rest) → (∃ c ∈ d :: rest, s = c.name) ∨
        ∃ x ∈ preorderList (d :: rest),
          s ∈ x.files.map AFile.name ∨ s ∈ x.subdirs.map ADir.name := by
    intro d rest ihd ihr s hs
    simp only [namesL, List.mem_append] at hs
    rcases hs with h | h
    · rcases ihd s h with h1 | ⟨x, hx, hor⟩
      · exact Or.inl ⟨d, List.mem_cons_self _ _, h1⟩
      · refine Or.inr ⟨x, ?_, hor⟩
        rw [preorderList_cons]
        exact List.mem_append.mpr (Or.inl hx)
    · rcases ihr s h with ⟨c, hc, hcn⟩ | ⟨x, hx, hor⟩
      · exact Or.inl ⟨c, List.mem_cons_of_mem _ hc, hcn⟩
      · refine Or.inr ⟨x, ?_, hor⟩
        rw [preorderList_cons]
        exact List.mem_append.mpr (Or.inr hx)
  exact ⟨preorder.induct _ _ c1 c2 c3, preorderList.induct _ _ c1 c2 c3⟩

theorem listSeg_split {buf : List Nat} {off : Nat} {x y : List Nat}
    (h : listSeg buf off (x ++ y)) :
    listSeg buf off x ∧ listSeg buf (off + x.length) y := by
  obtain ⟨pre, post, hb, hl⟩ := h
  constructor
  · exact ⟨pre, y ++ post, by simp [hb], hl⟩
  · exact ⟨pre ++ x, post, by simp [hb], by simp [hl]⟩

theorem listSeg_drop (buf : List Nat) (off : Nat) (seg : List Nat)
    (h : listSeg buf off seg) :
    ∃ post, buf.drop off = seg ++ post := by
  obtain ⟨pre, post, hb, hl⟩ := h
  refine ⟨post, ?_⟩
  subst hl
  rw [hb, List.append_assoc]
  have h0 : (pre ++ (seg ++ post)).drop (pre.length + 0) = (seg ++ post).drop 0 :=
    List.drop_append 0
  simpa using h0

theorem listSeg_take (buf : List Nat) (off : Nat) (seg : List Nat)
    (h : listSeg buf off seg) (n : Nat) (hn : n ≤ seg.length) :
    (buf.drop off).take n = seg.take n := by
  obtain ⟨post, hd⟩ := listSeg_drop buf off seg h
  rw [hd, List.take_append_of_le_length hn]

theorem listSeg_length_le (buf : List Nat) (off : Nat) (seg : List Nat)
    (h : listSeg buf off seg) : off + seg.length ≤ buf.length := by
  obtain ⟨pre, post, hb, hl⟩ := h
  rw [hb]
  simp only [List.length_append, hl]
  omega

theorem readExact_of_seg (buf : List Nat) (off : Nat) (seg : List Nat)
    (h : listSeg buf off seg) (n : Nat) (hn : n ≤ seg.length) :
    readExact buf off n = some (seg.take n) := by
  unfold readExact
  have hle := listSeg_length_le buf off seg h
  rw [if_pos (by omega)]
  rw [listSeg_take buf off seg h n hn]

theorem getD_of_seg (buf : List Nat) (off : Nat) (seg : List Nat)
    (h : listSeg buf off seg) (k : Nat) (hk : k < seg.length) :
    buf.getD (off + k) 0 = seg.getD k 0 := by
  obtain ⟨pre, post, hb, hl⟩ := h
  subst hl
  rw [hb, List.append_assoc]
  rw [show pre.length + k = pre.length + k from rfl]
  rw [List.getD_append_right _ _ _ _ (by omega)]
  simp only [Nat.add_sub_cancel_left]
  rw [List.getD_append _ _ _ _ (by omega)]

theorem ru16_of_seg (buf : List Nat) (off : Nat) (seg : List Nat)
    (h : listSeg buf off seg) (k : Nat) (hk : k + 2 ≤ seg.length) :
    ru16 buf (off + k) = ru16 seg k := by
  unfold ru16
  rw [getD_of_seg buf off seg h k (by omega)]
  rw [show off + k + 1 = off + (k + 1) by omega]
  rw [getD_of_seg buf off seg h (k + 1) (by omega)]

theorem ru32_of_seg (buf : List Nat) (off : Nat) (seg : List Nat)
    (h : listSeg buf off seg) (k : Nat) (hk : k + 4 ≤ seg.length) :
    ru32 buf (off + k) = ru32 seg k := by
  unfold ru32
  rw [getD_of_seg buf off seg h k (by omega)]
  rw [show off + k + 1 = off + (k + 1) by omega,
    getD_of_seg buf off seg h (k + 1) (by omega)]
  rw [show off + k + 2 = off + (k + 2) by omega,
    getD_of_seg buf off seg h (k + 2) (by omega)]
  rw [show off + k + 3 = off + (k + 3) by omega,
    getD_of_seg buf off seg h (k + 3) (by omega)]

theorem u16b_length (v : Nat) : (u16b v).length = 2 := rfl

theorem u32b_length (v : Nat) : (u32b v).length = 4 := rfl

theorem ru16_u16b (v : Nat) (l : List Nat) (hv : v < 65536) :
    ru16 (u16b v ++ l) 0 = v := by
  simp only [u16b, ru16, List.cons_append, List.getD_cons_zero, List.getD_cons_succ]
  omega

theorem ru32_u32b (v : Nat) (l : List Nat) (hv : v < 4294967296) :
    ru32 (u32b v ++ l) 0 = v := by
  simp only [u32b, ru32, List.cons_append, List.getD_cons_zero, List.getD_cons_succ]
  omega

theorem u16b_lt (v : Nat) (k : Nat) (hk : k < 2) : (u16b v).getD k 0 < 256 := by
  interval_cases k <;> simp [u16b] <;> omega

/-- Parse of one 20-byte file/directory entry record as the encoder lays it out. -/
theorem entryRec_parse (a b fl c x y z : Nat)
    (ha : a < 65536) (hb : b < 65536) (hc : c < 65536)
    (hx : x < 4294967296) (hy : y < 4294967296) :
    ru16 (u16b a ++ u16b b ++ [fl, 0] ++ u16b c ++ u32b x ++ u32b y ++ u32b z) 0 = a ∧
    (u16b a ++ u16b b ++ [fl, 0] ++ u16b c ++ u32b x ++ u32b y ++ u32b z).getD 4 0 = fl ∧
    ru16 (u16b a ++ u16b b ++ [fl, 0] ++ u16b c ++ u32b x ++ u32b y ++ u32b z) 6 = c ∧
    ru32 (u16b a ++ u16b b ++ [fl, 0] ++ u16b c ++ u32b x ++ u32b y ++ u32b z) 8 = x ∧
    ru32 (u16b a ++ u16b b ++ [fl, 0] ++ u16b c ++ u32b x ++ u32b y ++ u32b z) 12 = y ∧
    ru16 (u16b a ++ u16b b ++ [fl, 0] ++ u16b c ++ u32b x ++ u32b y ++ u32b z) 2 = b := by
  refine ⟨?_, ?_, ?_, ?_, ?_, ?_⟩ <;>
    simp only [u16b, u32b, ru16, ru32, List.cons_append, List.getD_cons_zero,
      List.getD_cons_succ, List.nil_append] <;>
    omega

theorem entryRec_length (a b fl c x y z : Nat) :
    (u16b a ++ u16b b ++ [fl, 0] ++ u16b c ++ u32b x ++ u32b y ++ u32b z).length = 20 := by
  simp [u16b, u32b]

/-- Parse of the 12 bytes of one node record after its 4-byte type tag. -/
theorem nodeRec_parse (o hsh e2 e : Nat)
    (ho : o < 4294967296) (hh : hsh < 65536) (he2 : e2 < 65536) (he : e < 4294967296) :
    ru32 (u32b o ++ u16b hsh ++ u16b e2 ++ u32b e) 0 = o ∧
    ru16 (u32b o ++ u16b hsh ++ u16b e2 ++ u32b e) 4 = hsh ∧
    ru16 (u32b o ++ u16b hsh ++ u16b e2 ++ u32b e) 6 = e2 ∧
    ru32 (u32b o ++ u16b hsh ++ u16b e2 ++ u32b e) 8 = e := by
  refine ⟨?_, ?_, ?_, ?_⟩ <;>
    simp only [u16b, u32b, ru16, ru32, List.cons_append, List.getD_cons_zero,
      List.getD_cons_succ, List.nil_append] <;>
    omega

theorem alookup_append {α : Type} (l1 l2 : List (List Nat × α)) (s : List Nat) :
    alookup (l1 ++ l2) s =
      match alookup l1 s with
      | some v => some v
      | none => alookup l2 s := by
  induction l1 with
  | nil => simp [alookup]
  | cons kv r ih =>
    rcases kv with ⟨k, v⟩
    by_cases h : k = s <;> simp [alookup, h, ih]

theorem write_string_of_mem (t : StringTable) (s : List Nat) (o : Nat)
    (h : alookup t.map s = some o) : t.write_string s = t := by
  unfold StringTable.write_string
  rw [h]

theorem write_string_of_not_mem (t : StringTable) (s : List Nat)
    (h : alookup t.map s = none) :
    t.write_string s = ⟨t.blob ++ s ++ [0], t.map ++ [(s, t.blob.length)]⟩ := by
  unfold StringTable.write_string
  rw [h]

theorem alookup_mem {α : Type} (l : List (List Nat × α)) (s : List Nat) (v : α)
    (h : alookup l s = some v) : (s, v) ∈ l := by
  induction l with
  | nil => simp [alookup] at h
  | cons kv r ih =>
    rcases kv with ⟨k, w⟩
    by_cases hk : k = s
    · subst hk
      simp [alookup] at h
      simp [h]
    · simp [alookup, hk] at h
      exact List.mem_cons_of_mem _ (ih h)

/-- Layout invariant of the string table: the blob at each recorded offset holds the
interned string followed by its zero terminator. -/
def stOk (t : StringTable) : Prop :=
  ∀ p ∈ t.map, ∃ rest, t.blob.drop p.2 = p.1 ++ 0 :: rest

theorem stOk_empty : stOk StringTable.empty := by
  intro p hp
  simp [StringTable.empty] at hp

theorem stOk_offset_lt (t : StringTable) (h : stOk t) (s : List Nat) (o : Nat)
    (hm : alookup t.map s = some o) : o < t.blob.length := by
  obtain ⟨rest, hdrop⟩ := h (s, o) (alookup_mem _ _ _ hm)
  by_contra hlt
  have : t.blob.drop o = [] := List.drop_eq_nil_of_le (by omega)
  rw [this] at hdrop
  exact absurd hdrop.symm (by simp)

theorem stOk_write (t : StringTable) (s : List Nat) (h : stOk t) :
    stOk (t.write_string s) := by
  cases hl : alookup t.map s with
  | some o => rw [write_string_of_mem t s o hl]; exact h
  | none =>
    rw [write_string_of_not_mem t s hl]
    intro p hp
    rcases List.mem_append.mp hp with hold | hnew
    · obtain ⟨rest, hdrop⟩ := h p hold
      have hlt : p.2 < t.blob.length := by
        by_contra hge
        have hnil : t.blob.drop p.2 = [] := List.drop_eq_nil_of_le (by omega)
        rw [hnil] at hdrop
        exact absurd hdrop.symm (by simp)
      refine ⟨rest ++ (s ++ [0]), ?_⟩
      show List.drop p.2 (t.blob ++ s ++ [0]) = p.1 ++ 0 :: (rest ++ (s ++ [0]))
      rw [List.append_assoc, List.drop_append_of_le_length (by omega), hdrop]
      simp
    · simp only [List.mem_singleton] at hnew
      subst hnew
      refine ⟨[], ?_⟩
      show List.drop t.blob.length (t.blob ++ s ++ [0]) = s ++ 0 :: []
      rw [List.append_assoc]
      rw [show t.blob.length = t.blob.length + 0 by omega, List.drop_append]
      simp

theorem stOk_foldl_write (ss : List (List Nat)) (t : StringTable) (h : stOk t) :
    stOk (ss.foldl StringTable.write_string t) := by
  induction ss generalizing t with
  | nil => exact h
  | cons u r ih => exact ih _ (stOk_write t u h)

theorem stOk_foldl_write_name {α : Type} (f : α → List Nat) (l : List α)
    (t : StringTable) (h : stOk t) :
    stOk (l.foldl (fun a c => a.write_string (f c)) t) := by
  induction l generalizing t with
  | nil => exact h
  | cons u r ih => exact ih _ (stOk_write t (f u) h)

theorem stOk_internDir (t : StringTable) (d : ADir) (h : stOk t) :
    stOk (internDir t d) := by
  rcases d with ⟨n, fs, ds⟩
  unfold internDir
  exact stOk_foldl_write_name AFile.name fs _
    (stOk_foldl_write_name ADir.name ds t h)

theorem stOk_buildStringTable (root : ADir) : stOk (buildStringTable root) := by
  unfold buildStringTable
  have h0 : stOk (((StringTable.empty.write_string dotName).write_string
      dotdotName).write_string root.name) :=
    stOk_write _ _ (stOk_write _ _ (stOk_write _ _ stOk_empty))
  generalize ((StringTable.empty.write_string dotName).write_string
      dotdotName).write_string root.name = t0 at h0
  induction preorder root generalizing t0 with
  | nil => exact h0
  | cons d r ih => exact ih _ (stOk_internDir t0 d h0)

theorem takeWhile_append_zero (s w : List Nat) (hs : ∀ c ∈ s, c ≠ 0) :
    (s ++ 0 :: w).takeWhile (fun c => c != 0) = s := by
  induction s with
  | nil => simp [List.takeWhile]
  | cons a r ih =>
    have ha : a ≠ 0 := hs a (by simp)
    simp only [List.cons_append, List.takeWhile_cons]
    rw [if_pos (by simpa using ha)]
    rw [ih (fun c hc => hs c (by simp [hc]))]

/-- Resolving an interned name from the final buffer: the blob sits at offset
`S0 = pre.length`, the recorded offset points at the string, and the scan stops at
its zero terminator. -/
theorem getName_of_lookup (t : StringTable) (hok : stOk t) (pre post s : List Nat)
    (o : Nat) (hm : alookup t.map s = some o) (hs : ∀ c ∈ s, c ≠ 0) :
    stringtable_get_name (pre ++ t.blob ++ post) pre.length o = .ok s := by
  obtain ⟨rest, hdrop⟩ := hok (s, o) (alookup_mem _ _ _ hm)
  have holt : o ≤ t.blob.length := Nat.le_of_lt (stOk_offset_lt t hok s o hm)
  unfold stringtable_get_name
  have hd : (pre ++ t.blob ++ post).drop (pre.length + o) = s ++ 0 :: (rest ++ post) := by
    rw [List.append_assoc, List.drop_append, List.drop_append_of_le_length holt, hdrop]
    simp
  rw [hd]
  rw [if_pos (by simp)]
  rw [takeWhile_append_zero s _ hs]

theorem write_string_preserves (t : StringTable) (s u : List Nat) (o : Nat)
    (h : alookup t.map s = some o) :
    alookup (t.write_string u).map s = some o := by
  cases hu : alookup t.map u with
  | some v => rw [write_string_of_mem t u v hu]; exact h
  | none =>
    rw [write_string_of_not_mem t u hu]
    show alookup (t.map ++ [(u, t.blob.length)]) s = some o
    rw [alookup_append, h]

theorem write_string_lookup_self (t : StringTable) (s : List Nat) :
    ∃ o, alookup (t.write_string s).map s = some o := by
  cases h : alookup t.map s with
  | some o =>
    refine ⟨o, ?_⟩
    rw [write_string_of_mem t s o h]
    exact h
  | none =>
    refine ⟨t.blob.length, ?_⟩
    rw [write_string_of_not_mem t s h]
    show alookup (t.map ++ [(s, t.blob.length)]) s = some t.blob.length
    rw [alookup_append, h]
    simp [alookup]

theorem foldl_write_preserves (ss : List (List Nat)) (t : StringTable) (s : List Nat) (o : Nat)
    (h : alookup t.map s = some o) :
    alookup (ss.foldl StringTable.write_string t).map s = some o := by
  induction ss generalizing t with
  | nil => exact h
  | cons u r ih => exact ih _ (write_string_preserves t s u o h)

/-! ## String-table completeness: every needed name is interned by the first pass -/

theorem write_isSome_preserve (t : StringTable) (u s : List Nat)
    (h : (alookup t.map s).isSome) : (alookup (t.write_string u).map s).isSome := by
  obtain ⟨o, ho⟩ := Option.isSome_iff_exists.mp h
  rw [write_string_preserves t s u o ho]
  rfl

theorem write_self_isSome (t : StringTable) (s : List Nat) :
    (alookup (t.write_string s).map s).isSome := by
  obtain ⟨o, ho⟩ := write_string_lookup_self t s
  rw [ho]
  rfl

theorem foldl_write_name_preserve {α : Type} (f : α → List Nat) (l : List α)
    (t : StringTable) (s : List Nat) (h : (alookup t.map s).isSome) :
    (alookup ((l.foldl (fun a c => a.write_string (f c)) t)).map s).isSome := by
  induction l generalizing t with
  | nil => exact h
  | cons u r ih => exact ih _ (write_isSome_preserve t (f u) s h)

theorem foldl_write_name_mem {α : Type} (f : α → List Nat) (l : List α)
    (t : StringTable) (x : α) (hx : x ∈ l) :
    (alookup ((l.foldl (fun a c => a.write_string (f c)) t)).map (f x)).isSome := by
  induction l generalizing t with
  | nil => cases hx
  | cons u r ih =>
    rcases List.mem_cons.mp hx with h | h
    · subst h
      exact foldl_write_name_preserve f r _ (f x) (write_self_isSome t (f x))
    · exact ih _ h

theorem internDir_preserve (t : StringTable) (d : ADir) (s : List Nat)
    (h : (alookup t.map s).isSome) : (alookup (internDir t d).map s).isSome := by
  rcases d with ⟨n, fs, ds⟩
  unfold internDir
  exact foldl_write_name_preserve AFile.name fs _ s
    (foldl_write_name_preserve ADir.name ds t s h)

theorem foldl_internDir_preserve (l : List ADir) (t : StringTable) (s : List Nat)
    (h : (alookup t.map s).isSome) :
    (alookup (l.foldl internDir t).map s).isSome := by
  induction l generalizing t with
  | nil => exact h
  | cons d r ih => exact ih _ (internDir_preserve t d s h)

theorem internDir_has_own (t : StringTable) (x : ADir) :
    (∀ f ∈ x.files, (alookup (internDir t x).map f.name).isSome) ∧
    (∀ c ∈ x.subdirs, (alookup (internDir t x).map c.name).isSome) := by
  rcases x with ⟨n, fs, ds⟩
  unfold internDir
  constructor
  · intro f hf
    exact foldl_write_name_mem AFile.name fs _ f hf
  · intro c hc
    exact foldl_write_name_preserve AFile.name fs _ c.name
      (foldl_write_name_mem ADir.name ds t c hc)

theorem foldl_internDir_mem (l : List ADir) (t : StringTable) (x : ADir) (hx : x ∈ l) :
    (∀ f ∈ x.files, (alookup (l.foldl internDir t).map f.name).isSome) ∧
    (∀ c ∈ x.subdirs, (alookup (l.foldl internDir t).map c.name).isSome) := by
  induction l generalizing t with
  | nil => cases hx
  | cons u r ih =>
    rcases List.mem_cons.mp hx with h | h
    · subst h
      obtain ⟨h1, h2⟩ := internDir_has_own t x
      exact ⟨fun f hf => foldl_internDir_preserve r _ _ (h1 f hf),
        fun c hc => foldl_internDir_preserve r _ _ (h2 c hc)⟩
    · exact ih _ h

theorem buildStringTable_complete (T : ADir) :
    (alookup (buildStringTable T).map dotName).isSome ∧
    (alookup (buildStringTable T).map dotdotName).isSome ∧
    (alookup (buildStringTable T).map T.name).isSome ∧
    (∀ s, s ∈ namesD T → (alookup (buildStringTable T).map s).isSome) := by
  unfold buildStringTable
  set t0 := ((StringTable.empty.write_string dotName).write_string
    dotdotName).write_string T.name with ht0
  have hdot : (alookup t0.map dotName).isSome := by
    rw [ht0]
    exact write_isSome_preserve _ _ _ (write_isSome_preserve _ _ _ (write_self_isSome _ _))
  have hdotdot : (alookup t0.map dotdotName).isSome := by
    rw [ht0]
    exact write_isSome_preserve _ _ _ (write_self_isSome _ _)
  have hroot : (alookup t0.map T.name).isSome := by
    rw [ht0]
    exact write_self_isSome _ _
  refine ⟨foldl_internDir_preserve _ _ _ hdot, foldl_internDir_preserve _ _ _ hdotdot,
    foldl_internDir_preserve _ _ _ hroot, ?_⟩
  intro s hs
  rcases names_origin_pair.1 T s hs with h | ⟨x, hx, hor⟩
  · subst h
    exact foldl_internDir_preserve _ _ _ hroot
  · obtain ⟨h1, h2⟩ := foldl_internDir_mem (preorder T) t0 x hx
    rcases hor with hf | hd
    · obtain ⟨f, hfm, hfn⟩ := List.mem_map.mp hf
      subst hfn
      exact h1 f hfm
    · obtain ⟨c, hcm, hcn⟩ := List.mem_map.mp hd
      subst hcn
      exact h2 c hcm

/-! ## The node-record premise and its decomposition -/

/-- The decoder's node list holds, from node index `i` on, the records of the
annotated run `l` whose first entry slot is `e`; a record's resolved name, when
present, is the corresponding directory's own name. -/
def NP (nodes : List NodeRec) (i : Nat) (l : List Ann) (e : Nat) : Prop :=
  ∀ k v, (nodeValsAnns l e)[k]? = some v →
    ∃ nm, nodes[i + k]? = some (nm, v) ∧
      (nm = none ∨ ∃ a, l[k]? = some a ∧ nm = some a.dir.name)

theorem NP_head (nodes : List NodeRec) (i : Nat) (a : Ann) (r : List Ann) (e : Nat)
    (h : NP nodes i (a :: r) e) :
    ∃ nm, nodes[i]? = some (nm, hash_name a.dir.name, ecOf a.dir + 2, e) ∧
      (nm = none ∨ nm = some a.dir.name) := by
  obtain ⟨nm, h1, h2⟩ := h 0 (hash_name a.dir.name, ecOf a.dir + 2, e) (by simp [nodeValsAnns])
  refine ⟨nm, by simpa using h1, ?_⟩
  rcases h2 with h2 | ⟨a', ha', hnm⟩
  · exact Or.inl h2
  · simp at ha'
    subst ha'
    exact Or.inr hnm

theorem NP_tail (nodes : List NodeRec) (i : Nat) (a : Ann) (r : List Ann) (e : Nat)
    (h : NP nodes i (a :: r) e) :
    NP nodes (i + 1) r (e + (ecOf a.dir + 2)) := by
  intro k v hv
  obtain ⟨nm, h1, h2⟩ := h (k + 1) v (by simpa [nodeValsAnns] using hv)
  refine ⟨nm, by rw [show i + 1 + k = i + (k + 1) by omega]; exact h1, ?_⟩
  rcases h2 with h2 | ⟨a', ha', hnm⟩
  · exact Or.inl h2
  · exact Or.inr ⟨a', by simpa using ha', hnm⟩

theorem NP_append_left (nodes : List NodeRec) (i : Nat) (l1 l2 : List Ann) (e : Nat)
    (h : NP nodes i (l1 ++ l2) e) : NP nodes i l1 e := by
  intro k v hv
  have hk : k < l1.length := by
    by_contra hge
    rw [List.getElem?_eq_none] at hv
    · cases hv
    · rw [nodeValsAnns_length]
      omega
  obtain ⟨nm, h1, h2⟩ := h k v (by
    rw [nodeValsAnns_append, List.getElem?_append_left (by rw [nodeValsAnns_length]; exact hk)]
    exact hv)
  refine ⟨nm, h1, ?_⟩
  rcases h2 with h2 | ⟨a', ha', hnm⟩
  · exact Or.inl h2
  · refine Or.inr ⟨a', ?_, hnm⟩
    rw [List.getElem?_append_left hk] at ha'
    exact ha'

theorem NP_append_right (nodes : List NodeRec) (i : Nat) (l1 l2 : List Ann) (e : Nat)
    (h : NP nodes i (l1 ++ l2) e) :
    NP nodes (i + l1.length) l2 (e + entsum l1) := by
  intro k v hv
  obtain ⟨nm, h1, h2⟩ := h (l1.length + k) v (by
    rw [nodeValsAnns_append, List.getElem?_append_right]
    · rw [nodeValsAnns_length]
      simpa [Nat.add_sub_cancel_left] using hv
    · rw [nodeValsAnns_length]; omega)
  refine ⟨nm, by rw [show i + l1.length + k = i + (l1.length + k) by omega]; exact h1, ?_⟩
  rcases h2 with h2 | ⟨a', ha', hnm⟩
  · exact Or.inl h2
  · refine Or.inr ⟨a', ?_, hnm⟩
    rw [List.getElem?_append_right (by omega)] at ha'
    simpa [Nat.add_sub_cancel_left] using ha'

/-! ## Encoder run lemmas -/

theorem ebind_ok {ε α β : Type} (a : α) (f : α → Except ε β) :
    (Except.ok a : Except ε α) >>= f = f a := rfl

theorem ebind_err {ε α β : Type} (e : ε) (f : α → Except ε β) :
    (Except.error e : Except ε α) >>= f = Except.error e := rfl

theorem default_to_flags : FileListing.default.to_flags = 17 := rfl

theorem default_not_yaz0 : FileListing.default.is_yaz0 = false := rfl

theorem pad32bytes_length (n : Nat) : (pad32bytes n).length = align32 n - n := by
  simp [pad32bytes]

theorem align32_ge (n : Nat) : n ≤ align32 n := by
  unfold align32
  omega

theorem align32_mod (n : Nat) : align32 n % 32 = 0 := by
  unfold align32
  omega

theorem align32_add_aligned (a b : Nat) (h : a % 32 = 0) :
    align32 (a + b) = a + align32 b := by
  unfold align32
  omega

theorem align32_of_mod (n : Nat) (h : n % 32 = 0) : align32 n = n := by
  unfold align32
  omega

theorem foldl_add_init {α : Type} (g : α → Nat) (l : List α) (k : Nat) :
    l.foldl (fun b x => b + g x) k = k + l.foldl (fun b x => b + g x) 0 := by
  induction l generalizing k with
  | nil => simp
  | cons a t ih =>
    simp only [List.foldl_cons]
    rw [ih, ih (0 + g a)]
    omega

theorem nodeTypeTag_length (nm : List Nat) : (nodeTypeTag nm).length = 4 := by
  unfold nodeTypeTag
  simp only [List.length_append, List.length_take, List.length_map, List.length_replicate]
  omega

/-- One step of the file-entry writer with no override table and default
compression settings, when the name's offset is interned. -/
theorem fileEntriesBytes_cons_none (st : StringTable) (dp : List Nat) (f : AFile)
    (rest : List AFile) (fid : Nat) (dataB : List Nat) (o : Nat)
    (ho : alookup st.map f.name = some o) :
    fileEntriesBytes st none cs0 dp (f :: rest) fid dataB =
      match fileEntriesBytes st none cs0 dp rest (fid + 1)
          (dataB ++ f.content ++ pad32bytes (dataB.length + f.content.length)) with
      | .error e => .error e
      | .ok (restB, fid1, dataB2) =>
        .ok ((u16b fid ++ u16b (hash_name f.name) ++ [17, 0] ++ u16b o ++
          u32b dataB.length ++ u32b f.content.length ++ u32b 0) ++ restB, fid1, dataB2) := by
  cases hrest : fileEntriesBytes st none cs0 dp rest (fid + 1)
      (dataB ++ f.content ++ pad32bytes (dataB.length + f.content.length)) with
  | error e =>
    rw [List.append_assoc] at hrest
    simp [fileEntriesBytes, req, StringTable.get_string_offset, ho,
      default_not_yaz0, default_to_flags, hrest, ebind_ok, ebind_err]
  | ok out =>
    rcases out with ⟨restB, fid1, dataB2⟩
    rw [List.append_assoc] at hrest
    simp [fileEntriesBytes, req, StringTable.get_string_offset, ho,
      default_not_yaz0, default_to_flags, hrest, ebind_ok, ebind_err]

/-- Shape of a file-entry run with no override table: it succeeds, advances the id
counter by one per file, appends only to the data buffer (keeping it 32-byte
aligned), and emits 20 bytes per file. -/
theorem fileEntriesBytes_shape (st : StringTable) (dp : List Nat) :
    ∀ (fs : List AFile) (fid : Nat) (dataB : List Nat),
    (∀ f ∈ fs, (alookup st.map f.name).isSome) →
    dataB.length % 32 = 0 →
    ∃ FB dataB2,
      fileEntriesBytes st none cs0 dp fs fid dataB = .ok (FB, fid + fs.length, dataB2) ∧
      FB.length = 20 * fs.length ∧
      (∃ ext, dataB2 = dataB ++ ext) ∧
      dataB2.length = dataB.length + fs.foldl (fun b f => b + align32 f.content.length) 0 ∧
      dataB2.length % 32 = 0 := by
  intro fs
  induction fs with
  | nil =>
    intro fid dataB _ hal
    refine ⟨[], dataB, rfl, by simp, ⟨[], by simp⟩, by simp, hal⟩
  | cons f rest ih =>
    intro fid dataB hnames hal
    obtain ⟨o, ho⟩ := Option.isSome_iff_exists.mp (hnames f (List.mem_cons_self _ _))
    set dataB1 := dataB ++ f.content ++ pad32bytes (dataB.length + f.content.length) with hd1
    have hd1len : dataB1.length = dataB.length + align32 f.content.length := by
      rw [hd1]
      simp only [List.length_append, pad32bytes_length]
      have h1 := align32_ge (dataB.length + f.content.length)
      have h2 := align32_add_aligned dataB.length f.content.length hal
      omega
    have hd1al : dataB1.length % 32 = 0 := by
      rw [hd1len]
      have := align32_mod f.content.length
      omega
    obtain ⟨FB, dataB2, hrun, hlen, ⟨ext, hext⟩, hdlen, hdal⟩ :=
      ih (fid + 1) dataB1 (fun g hg => hnames g (List.mem_cons_of_mem _ hg)) hd1al
    refine ⟨(u16b fid ++ u16b (hash_name f.name) ++ [17, 0] ++ u16b o ++
      u32b dataB.length ++ u32b f.content.length ++ u32b 0) ++ FB, dataB2, ?_, ?_, ?_, ?_, hdal⟩
    · rw [fileEntriesBytes_cons_none st dp f rest fid dataB o ho, hrun]
      show Except.ok (_, fid + 1 + rest.length, dataB2) = Except.ok (_, fid + (rest.length + 1), dataB2)
      rw [show fid + 1 + rest.length = fid + (rest.length + 1) by omega]
    · simp only [List.length_append, hlen, u16b_length, u32b_length, List.length_cons,
        List.length_nil]
      omega
    · refine ⟨f.content ++ pad32bytes (dataB.length + f.content.length) ++ ext, ?_⟩
      rw [hext, hd1]
      simp [List.append_assoc]
    · rw [hdlen, hd1len, List.foldl_cons]
      rw [foldl_add_init (fun g => align32 g.content.length) rest (0 + align32 f.content.length)]
      omega

theorem dirEntryBytes_eq (st : StringTable) (nm : List Nat) (ci : Nat) (o : Nat)
    (ho : alookup st.map nm = some o) :
    dirEntryBytes st nm ci = .ok (u16b 0xFFFF ++ u16b (hash_name nm) ++ [2, 0] ++
      u16b o ++ u32b ci ++ u32b 0x10 ++ u32b 0) := by
  show (req (st.get_string_offset nm) >>= fun o =>
    Except.ok (u16b 0xFFFF ++ u16b (hash_name nm) ++ [2, 0] ++ u16b o ++
      u32b ci ++ u32b 0x10 ++ u32b 0)) = _
  rw [show req (st.get_string_offset nm) = .ok o by
    simp [req, StringTable.get_string_offset, ho]]
  rw [ebind_ok]

theorem dirEntriesBytes_shape (st : StringTable) :
    ∀ refs : List (List Nat × Nat),
    (∀ r ∈ refs, (alookup st.map r.1).isSome) →
    ∃ B, dirEntriesBytes st refs = .ok B ∧ B.length = 20 * refs.length := by
  intro refs
  induction refs with
  | nil => exact fun _ => ⟨[], rfl, by simp⟩
  | cons r rest ih =>
    intro hnames
    obtain ⟨o, ho⟩ := Option.isSome_iff_exists.mp (hnames r (List.mem_cons_self _ _))
    obtain ⟨B, hrun, hlen⟩ := ih (fun q hq => hnames q (List.mem_cons_of_mem _ hq))
    rcases r with ⟨nm, ci⟩
    refine ⟨(u16b 0xFFFF ++ u16b (hash_name nm) ++ [2, 0] ++ u16b o ++
      u32b ci ++ u32b 0x10 ++ u32b 0) ++ B, ?_, ?_⟩
    · show (do
        let b ← dirEntryBytes st nm ci
        let restB ← dirEntriesBytes st rest
        (.ok (b ++ restB) : Except EncodeErr (List Nat))) = _
      rw [dirEntryBytes_eq st nm ci o ho, ebind_ok, hrun, ebind_ok]
    · simp only [List.length_append, hlen, u16b_length, u32b_length, List.length_cons,
        List.length_nil]
      omega

theorem entryTableBytes_append (st : StringTable)
    (fl : Option (List (List Nat × Nat × FileListing))) (cs : CompressionSetting) (mi : Nat) :
    ∀ (l1 l2 : List Ann) (fid : Nat) (dataB : List Nat),
    entryTableBytes st fl cs mi (l1 ++ l2) fid dataB =
      match entryTableBytes st fl cs mi l1 fid dataB with
      | .error e => .error e
      | .ok (b1, f1, d1) =>
        match entryTableBytes st fl cs mi l2 f1 d1 with
        | .error e => .error e
        | .ok (b2, f2, d2) => .ok (b1 ++ b2, f2, d2) := by
  have hstep : ∀ (a : Ann) (l : List Ann) (fid : Nat) (dataB : List Nat),
      entryTableBytes st fl cs mi (a :: l) fid dataB =
      match fileEntriesBytes st fl cs a.path (sortFilesByKeyCompare mi a.dir.files)
          fid dataB with
      | .error e => .error e
      | .ok (fB, fid1, dataB1) =>
        match dirEntriesBytes st ((dotName, a.idx) ::
            (dotdotName, match a.parentIdx with | some p => p | none => 0xFFFFFFFF) ::
            (a.dir.subdirs.map ADir.name).zip a.childIdxs) with
        | .error e => .error e
        | .ok dB =>
          match entryTableBytes st fl cs mi l fid1 dataB1 with
          | .error e => .error e
          | .ok (restB, fid2, dataB2) => .ok (fB ++ dB ++ restB, fid2, dataB2) := by
    intro a l fid dataB
    cases hf : fileEntriesBytes st fl cs a.path (sortFilesByKeyCompare mi a.dir.files)
        fid dataB with
    | error e => simp [entryTableBytes, hf, ebind_err]
    | ok out1 =>
      rcases out1 with ⟨fB, fid1, dataB1⟩
      cases hd : dirEntriesBytes st ((dotName, a.idx) ::
          (dotdotName, match a.parentIdx with | some p => p | none => 0xFFFFFFFF) ::
          (a.dir.subdirs.map ADir.name).zip a.childIdxs) with
      | error e => simp [entryTableBytes, hf, hd, ebind_ok, ebind_err]
      | ok dB =>
        cases hr : entryTableBytes st fl cs mi l fid1 dataB1 with
        | error e => simp [entryTableBytes, hf, hd, hr, ebind_ok, ebind_err]
        | ok out2 =>
          rcases out2 with ⟨restB, fid2, dataB2⟩
          simp [entryTableBytes, hf, hd, hr, ebind_ok, ebind_err]
  intro l1
  induction l1 with
  | nil =>
    intro l2 fid dataB
    rw [List.nil_append]
    cases h : entryTableBytes st fl cs mi l2 fid dataB with
    | error e => simp [entryTableBytes, h]
    | ok out => rcases out with ⟨b2, f2, d2⟩; simp [entryTableBytes, h]
  | cons a rest ih =>
    intro l2 fid dataB
    rw [List.cons_append]
    cases hf : fileEntriesBytes st fl cs a.path (sortFilesByKeyCompare mi a.dir.files)
        fid dataB with
    | error e => simp [hstep, hf]
    | ok out1 =>
      rcases out1 with ⟨fB, fid1, dataB1⟩
      cases hd : dirEntriesBytes st ((dotName, a.idx) ::
          (dotdotName, match a.parentIdx with | some p => p | none => 0xFFFFFFFF) ::
          (a.dir.subdirs.map ADir.name).zip a.childIdxs) with
      | error e => simp [hstep, hf, hd]
      | ok dB =>
        cases h1 : entryTableBytes st fl cs mi rest fid1 dataB1 with
        | error e => simp [hstep, hf, hd, ih, h1]
        | ok out2 =>
          rcases out2 with ⟨rb1, rf1, rd1⟩
          cases h2 : entryTableBytes st fl cs mi l2 rf1 rd1 with
          | error e => simp [hstep, hf, hd, ih, h1, h2]
          | ok out3 =>
            rcases out3 with ⟨rb2, rf2, rd2⟩
            simp [hstep, hf, hd, ih, h1, h2, List.append_assoc]

theorem name_mem_namesL (ds : List ADir) (c : ADir) (hc : c ∈ ds) :
    c.name ∈ namesL ds := by
  induction ds with
  | nil => cases hc
  | cons d r ih =>
    rcases List.mem_cons.mp hc with h | h
    · subst h
      rcases c with ⟨n, fs, sub⟩
      simp [namesL, namesD, ADir.name]
    · simp only [namesL, List.mem_append]
      exact Or.inr (ih h)

/-- Shape of an entry-table run over one annotated node row followed by its
annotated subdirectories, for an arbitrary resolved path string. -/
theorem entryConsShape (st : StringTable) (mi : Nat)
    (hdot : (alookup st.map dotName).isSome)
    (hdotdot : (alookup st.map dotdotName).isSome)
    (n mypath : List Nat) (fs : List AFile) (ds : List ADir) (i : Nat) (p : Option Nat)
    (fid : Nat) (dataB : List Nat)
    (ih : ∀ i p pp (fid : Nat) (dataB : List Nat),
      (∀ s ∈ namesL ds, (alookup st.map s).isSome) → dataB.length % 32 = 0 →
      ∃ ET dataB2, entryTableBytes st none cs0 mi (annotateList ds i p pp) fid dataB =
          .ok (ET, fid + nfilesL ds, dataB2) ∧ ET.length = 20 * subEntL ds ∧
        (∃ ext, dataB2 = dataB ++ ext) ∧ dataB2.length = dataB.length + dataLenL ds ∧
        dataB2.length % 32 = 0)
    (hnames : ∀ s ∈ namesD (.node n fs ds), (alookup st.map s).isSome)
    (hal : dataB.length % 32 = 0) :
    ∃ ET dataB2, entryTableBytes st none cs0 mi
        (⟨.node n fs ds, i, p, mypath, childIndices (i + 1) ds⟩ ::
          annotateList ds (i + 1) (some i) (some mypath)) fid dataB =
        .ok (ET, fid + nfiles (.node n fs ds), dataB2) ∧
      ET.length = 20 * subEnt (.node n fs ds) ∧
      (∃ ext, dataB2 = dataB ++ ext) ∧
      dataB2.length = dataB.length + dataLenOf (.node n fs ds) ∧
      dataB2.length % 32 = 0 := by
  have hfsn : ∀ f ∈ fs, (alookup st.map f.name).isSome := by
    intro f hf
    apply hnames
    simp only [namesD, List.mem_cons, List.mem_append]
    exact Or.inr (Or.inl (List.mem_map_of_mem AFile.name hf))
  have hdsn : ∀ s ∈ namesL ds, (alookup st.map s).isSome := by
    intro s hs
    apply hnames
    simp only [namesD, List.mem_cons, List.mem_append]
    exact Or.inr (Or.inr hs)
  obtain ⟨FB, dataB1, hfrun, hflen, ⟨ext1, hext1⟩, hfdlen, hfal⟩ :=
    fileEntriesBytes_shape st mypath fs fid dataB hfsn hal
  have hrefs : ∀ r ∈ ([(dotName, i), (dotdotName,
      match (p : Option Nat) with | some q => q | none => 0xFFFFFFFF)] ++
      (ds.map ADir.name).zip (childIndices (i + 1) ds)),
      (alookup st.map r.1).isSome := by
    intro r hr
    rcases List.mem_append.mp hr with h | h
    · rcases List.mem_cons.mp h with h1 | h1
      · subst h1; exact hdot
      · rcases List.mem_cons.mp h1 with h2 | h2
        · subst h2; exact hdotdot
        · cases h2
    · rcases r with ⟨nm, ci⟩
      obtain ⟨hnm, _⟩ := List.of_mem_zip h
      obtain ⟨c, hcm, hcn⟩ := List.mem_map.mp hnm
      subst hcn
      exact hdsn c.name (name_mem_namesL ds c hcm)
  obtain ⟨DB, hdrun, hdblen⟩ := dirEntriesBytes_shape st _ hrefs
  obtain ⟨RB, dataB2, hrrun, hrlen, ⟨ext2, hext2⟩, hrdlen, hral⟩ :=
    ih (i + 1) (some i) (some mypath) (fid + fs.length) dataB1 hdsn hfal
  refine ⟨FB ++ DB ++ RB, dataB2, ?_, ?_, ?_, ?_, hral⟩
  · simp only [entryTableBytes, sortFilesByKeyCompare, ADir.files, ADir.subdirs,
      hfrun, ebind_ok, hdrun, hrrun]
    show Except.ok (FB ++ DB ++ RB, fid + fs.length + nfilesL ds, dataB2) = _
    rw [show fid + fs.length + nfilesL ds = fid + nfiles (.node n fs ds) by
      simp [nfiles]; omega]
  · simp only [List.length_append, hflen, hdblen, hrlen, subEnt]
    simp only [List.length_append, List.length_cons, List.length_nil, List.length_zip,
      List.length_map, childIndices_length]
    omega
  · exact ⟨ext1 ++ ext2, by rw [hext2, hext1, List.append_assoc]⟩
  · rw [hrdlen, hfdlen]
    simp only [dataLenOf]
    omega

/-- Pair induction: shape of an entry-table run over an annotated subtree with no
override table — it succeeds, emits 20 bytes per entry slot, advances the id
counter by the subtree's file count, and appends the subtree's data. -/
theorem entryShape_pair (st : StringTable) (mi : Nat)
    (hdot : (alookup st.map dotName).isSome)
    (hdotdot : (alookup st.map dotdotName).isSome) :
    (∀ d, ∀ i p pp (fid : Nat) (dataB : List Nat),
      (∀ s ∈ namesD d, (alookup st.map s).isSome) →
      dataB.length % 32 = 0 →
      ∃ ET dataB2,
        entryTableBytes st none cs0 mi (annotate d i p pp) fid dataB =
          .ok (ET, fid + nfiles d, dataB2) ∧
        ET.length = 20 * subEnt d ∧
        (∃ ext, dataB2 = dataB ++ ext) ∧
        dataB2.length = dataB.length + dataLenOf d ∧
        dataB2.length % 32 = 0) ∧
    (∀ ds, ∀ i p pp (fid : Nat) (dataB : List Nat),
      (∀ s ∈ namesL ds, (alookup st.map s).isSome) →
      dataB.length % 32 = 0 →
      ∃ ET dataB2,
        entryTableBytes st none cs0 mi (annotateList ds i p pp) fid dataB =
          .ok (ET, fid + nfilesL ds, dataB2) ∧
        ET.length = 20 * subEntL ds ∧
        (∃ ext, dataB2 = dataB ++ ext) ∧
        dataB2.length = dataB.length + dataLenL ds ∧
        dataB2.length % 32 = 0) := by
  have c1 : ∀ (n : List Nat) (fs : List AFile) (ds : List ADir),
      (∀ i p pp (fid : Nat) (dataB : List Nat),
        (∀ s ∈ namesL ds, (alookup st.map s).isSome) → dataB.length % 32 = 0 →
        ∃ ET dataB2, entryTableBytes st none cs0 mi (annotateList ds i p pp) fid dataB =
            .ok (ET, fid + nfilesL ds, dataB2) ∧ ET.length = 20 * subEntL ds ∧
          (∃ ext, dataB2 = dataB ++ ext) ∧ dataB2.length = dataB.length + dataLenL ds ∧
          dataB2.length % 32 = 0) →
      ∀ i p pp (fid : Nat) (dataB : List Nat),
        (∀ s ∈ namesD (.node n fs ds), (alookup st.map s).isSome) → dataB.length % 32 = 0 →
        ∃ ET dataB2, entryTableBytes st none cs0 mi (annotate (.node n fs ds) i p pp) fid dataB =
            .ok (ET, fid + nfiles (.node n fs ds), dataB2) ∧
          ET.length = 20 * subEnt (.node n fs ds) ∧
          (∃ ext, dataB2 = dataB ++ ext) ∧
          dataB2.length = dataB.length + dataLenOf (.node n fs ds) ∧
          dataB2.length % 32 = 0 := by
    intro n fs ds ih i p pp fid dataB hnames hal
    cases pp with
    | none =>
      exact entryConsShape st mi hdot hdotdot n n fs ds i p fid dataB ih hnames hal
    | some q =>
      exact entryConsShape st mi hdot hdotdot n (q ++ [47] ++ n) fs ds i p fid dataB ih
        hnames hal
  have c2 : ∀ i p pp (fid : Nat) (dataB : List Nat),
      (∀ s ∈ namesL ([] : List ADir), (alookup st.map s).isSome) → dataB.length % 32 = 0 →
      ∃ ET dataB2, entryTableBytes st none cs0 mi (annotateList [] i p pp) fid dataB =
          .ok (ET, fid + nfilesL [], dataB2) ∧ ET.length = 20 * subEntL [] ∧
        (∃ ext, dataB2 = dataB ++ ext) ∧ dataB2.length = dataB.length + dataLenL [] ∧
        dataB2.length % 32 = 0 := by
    intro i p pp fid dataB _ hal
    refine ⟨[], dataB, ?_, by simp [subEntL], ⟨[], by simp⟩, by simp [dataLenL], hal⟩
    show Except.ok (([] : List Nat), fid, dataB) = _
    simp [nfilesL]
  have c3 : ∀ (d : ADir) (rest : List ADir),
      (∀ i p pp (fid : Nat) (dataB : List Nat),
        (∀ s ∈ namesD d, (alookup st.map s).isSome) → dataB.length % 32 = 0 →
        ∃ ET dataB2, entryTableBytes st none cs0 mi (annotate d i p pp) fid dataB =
            .ok (ET, fid + nfiles d, dataB2) ∧ ET.length = 20 * subEnt d ∧
          (∃ ext, dataB2 = dataB ++ ext) ∧ dataB2.length = dataB.length + dataLenOf d ∧
          dataB2.length % 32 = 0) →
      (∀ i p pp (fid : Nat) (dataB : List Nat),
        (∀ s ∈ namesL rest, (alookup st.map s).isSome) → dataB.length % 32 = 0 →
        ∃ ET dataB2, entryTableBytes st none cs0 mi (annotateList rest i p pp) fid dataB =
            .ok (ET, fid + nfilesL rest, dataB2) ∧ ET.length = 20 * subEntL rest ∧
          (∃ ext, dataB2 = dataB ++ ext) ∧ dataB2.length = dataB.length + dataLenL rest ∧
          dataB2.length % 32 = 0) →
      ∀ i p pp (fid : Nat) (dataB : List Nat),
        (∀ s ∈ namesL (d :: rest), (alookup st.map s).isSome) → dataB.length % 32 = 0 →
        ∃ ET dataB2, entryTableBytes st none cs0 mi (annotateList (d :: rest) i p pp) fid dataB =
            .ok (ET, fid + nfilesL (d :: rest), dataB2) ∧ ET.length = 20 * subEntL (d :: rest) ∧
          (∃ ext, dataB2 = dataB ++ ext) ∧ dataB2.length = dataB.length + dataLenL (d :: rest) ∧
          dataB2.length % 32 = 0 := by
    intro d rest ihd ihr i p pp fid dataB hnames hal
    have hd : ∀ s ∈ namesD d, (alookup st.map s).isSome := by
      intro s hs
      exact hnames s (by simp only [namesL, List.mem_append]; exact Or.inl hs)
    have hr : ∀ s ∈ namesL rest, (alookup st.map s).isSome := by
      intro s hs
      exact hnames s (by simp only [namesL, List.mem_append]; exact Or.inr hs)
    obtain ⟨ET1, dataB1, hrun1, hlen1, ⟨ext1, hext1⟩, hdlen1, hal1⟩ :=
      ihd i p pp fid dataB hd hal
    obtain ⟨ET2, dataB2, hrun2, hlen2, ⟨ext2, hext2⟩, hdlen2, hal2⟩ :=
      ihr (i + ndirs d) p pp (fid + nfiles d) dataB1 hr hal1
    refine ⟨ET1 ++ ET2, dataB2, ?_, ?_, ?_, ?_, hal2⟩
    · show entryTableBytes st none cs0 mi
        (annotate d i p pp ++ annotateList rest (i + ndirs d) p pp) fid dataB = _
      rw [entryTableBytes_append]
      simp only [hrun1, hrun2]
      rw [show fid + nfiles d + nfilesL rest = fid + nfilesL (d :: rest) by
        simp [nfilesL]; omega]
    · simp only [List.length_append, hlen1, hlen2, subEntL]
      omega
    · exact ⟨ext1 ++ ext2, by rw [hext2, hext1, List.append_assoc]⟩
    · rw [hdlen2, hdlen1]
      simp only [dataLenL]
      omega
  exact ⟨preorder.induct _ _ c1 c2 c3, preorderList.induct _ _ c1 c2 c3⟩

theorem and_ffff_eq_mod (x : Nat) : x &&& 65535 = x % 65536 := by
  have h65 : (65535 : Nat) = 2 ^ 16 - 1 := by norm_num
  rw [h65, Nat.and_pow_two_sub_one_eq_mod]

theorem foldl_hash_eq (m : Nat) (l : List Nat) (h0 : Nat) :
    l.foldl (fun h c => ((h * m &&& 0xFFFF) + c) &&& 0xFFFF) h0 =
      l.foldl (fun h c => ((h * m % 65536) + c) % 65536) h0 := by
  induction l generalizing h0 with
  | nil => rfl
  | cons a t ih =>
    simp only [List.foldl_cons]
    rw [and_ffff_eq_mod, and_ffff_eq_mod]
    exact ih _

theorem foldl_hash_bound (m : Nat) (l : List Nat) (h0 : Nat) (hh : h0 < 65536) :
    l.foldl (fun h c => ((h * m &&& 0xFFFF) + c) &&& 0xFFFF) h0 < 65536 := by
  induction l generalizing h0 with
  | nil => simpa using hh
  | cons a t ih =>
    simp only [List.foldl_cons]
    apply ih
    show ((h0 * m &&& 65535) + a) &&& 65535 < 65536
    have hle : ((h0 * m &&& 65535) + a) &&& 65535 ≤ 65535 := Nat.and_le_right
    omega

theorem hash_name_eq_spec (name : List Nat) : hash_name name = hash_name_spec name := by
  unfold hash_name hash_name_spec
  rcases name with _ | ⟨a, _ | ⟨b, t⟩⟩
  · rfl
  · simp only [List.length_cons, List.length_nil]
    norm_num
    exact and_ffff_eq_mod a
  · simp only [List.length_cons]
    have h1 : ¬ (t.length + 1 + 1 + 1 = 2) := by omega
    have h2 : 3 ≤ t.length + 1 + 1 + 1 := by omega
    have h3 : ¬ (t.length + 1 + 1 + 1 = 1) := by omega
    simp only [if_neg h1, if_pos h2, if_neg h3]
    exact foldl_hash_eq 3 (a :: b :: t) 0

theorem hash_name_lt (name : List Nat) : hash_name name < 65536 := by
  unfold hash_name
  rcases name with _ | ⟨a, t⟩
  · exact Nat.zero_lt_succ _
  · exact foldl_hash_bound _ (a :: t) 0 (by omega)

/-! ## Small step lemmas for the decode induction -/

theorem dictInsertFile_append (l : List AFile) (f : AFile)
    (h : f.name ∉ l.map AFile.name) : dictInsertFile l f = l ++ [f] := by
  unfold dictInsertFile
  rw [if_neg]
  intro hc
  simp only [List.any_eq_true, decide_eq_true_eq] at hc
  obtain ⟨g, hg, heq⟩ := hc
  exact h (List.mem_map.mpr ⟨g, hg, heq⟩)

theorem dictInsertDir_append (l : List ADir) (d : ADir)
    (h : d.name ∉ l.map ADir.name) : dictInsertDir l d = l ++ [d] := by
  unfold dictInsertDir
  rw [if_neg]
  intro hc
  simp only [List.any_eq_true, decide_eq_true_eq] at hc
  obtain ⟨g, hg, heq⟩ := hc
  exact h (List.mem_map.mpr ⟨g, hg, heq⟩)

theorem assignIdsD_name (d : ADir) (fid : Nat) : (assignIdsD d fid).1.name = d.name := by
  rcases d with ⟨n, fs, ds⟩
  simp [assignIdsD, ADir.name]

theorem validNameB_ne (n : List Nat) (h : validNameB n = true) :
    ¬(n = dotName ∨ n = dotdotName ∨ n = []) ∧ ∀ c ∈ n, c ≠ 0 := by
  unfold validNameB at h
  simp only [Bool.and_eq_true, bne_iff_ne, ne_eq, List.all_eq_true] at h
  obtain ⟨⟨⟨h1, h2⟩, h3⟩, h4⟩ := h
  refine ⟨?_, ?_⟩
  · rintro (hh | hh | hh)
    · exact h2 hh
    · exact h3 hh
    · exact h1 hh
  · intro c hc
    have := h4 c hc
    simp only [Bool.and_eq_true, decide_eq_true_eq] at this
    omega

theorem dirEntriesBytes_cons (st : StringTable) (nm : List Nat) (ci : Nat) (o : Nat)
    (rest : List (List Nat × Nat)) (R : List Nat)
    (ho : alookup st.map nm = some o) (hrest : dirEntriesBytes st rest = .ok R) :
    dirEntriesBytes st ((nm, ci) :: rest) =
      .ok ((u16b 0xFFFF ++ u16b (hash_name nm) ++ [2, 0] ++ u16b o ++
        u32b ci ++ u32b 0x10 ++ u32b 0) ++ R) := by
  show (do
    let b ← dirEntryBytes st nm ci
    let restB ← dirEntriesBytes st rest
    (.ok (b ++ restB) : Except EncodeErr (List Nat))) = _
  rw [dirEntryBytes_eq st nm ci o ho, ebind_ok, hrest, ebind_ok]

theorem nodeTableBytes_cons (st : StringTable) (a : Ann) (rest : List Ann)
    (e o e2 : Nat) (R : List Nat)
    (ho : alookup st.map a.dir.name = some o)
    (hrest : nodeTableBytes st rest (e + (a.dir.subdirs.length + a.dir.files.length) + 2) =
      .ok (R, e2)) :
    nodeTableBytes st (a :: rest) e =
      .ok (((if a.idx = 0 then [82, 79, 79, 84] else nodeTypeTag a.dir.name) ++
        u32b o ++ u16b (hash_name a.dir.name) ++
        u16b (a.dir.subdirs.length + a.dir.files.length + 2) ++ u32b e) ++ R, e2) := by
  simp [nodeTableBytes, req, StringTable.get_string_offset, ho, hrest, ebind_ok]

/-- Shape of the node-table writer: with every directory name interned it
succeeds, its final counter is the initial counter plus the total entry count,
and it emits 16 bytes per node. -/
theorem nodeTableBytes_shape (st : StringTable) :
    ∀ (l : List Ann) (e : Nat),
    (∀ a ∈ l, (alookup st.map a.dir.name).isSome) →
    ∃ NT, nodeTableBytes st l e = .ok (NT, e + entsum l) ∧ NT.length = 16 * l.length := by
  intro l
  induction l with
  | nil =>
    intro e _
    exact ⟨[], by simp [nodeTableBytes, entsum], by simp⟩
  | cons a rest ih =>
    intro e hnames
    obtain ⟨o, ho⟩ := Option.isSome_iff_exists.mp (hnames a (List.mem_cons_self _ _))
    obtain ⟨NT, hrun, hlen⟩ := ih (e + (a.dir.subdirs.length + a.dir.files.length) + 2)
      (fun b hb => hnames b (List.mem_cons_of_mem _ hb))
    refine ⟨((if a.idx = 0 then [82, 79, 79, 84] else nodeTypeTag a.dir.name) ++
      u32b o ++ u16b (hash_name a.dir.name) ++
      u16b (a.dir.subdirs.length + a.dir.files.length + 2) ++ u32b e) ++ NT, ?_, ?_⟩
    · rw [nodeTableBytes_cons st a rest e o _ NT ho hrun]
      rw [show e + (a.dir.subdirs.length + a.dir.files.length) + 2 + entsum rest =
        e + entsum (a :: rest) by simp [entsum, ecOf]; omega]
    · simp only [List.length_append, hlen, u16b_length, u32b_length, List.length_cons]
      by_cases h0 : a.idx = 0 <;> simp [h0, nodeTypeTag_length] <;> omega

/-- The decoder's node-table loop recovers exactly the records the node-table
writer emitted: for the run starting at record index `i0` with first entry slot
`e`, it returns `nodeRecsOf`. -/
theorem parseNodes_of_nodeTable (buf : List Nat) (stOff : Nat) (st : StringTable)
    (hGN : ∀ s o, alookup st.map s = some o → stringtable_get_name buf stOff o = .ok s)
    (hst16 : ∀ s o, alookup st.map s = some o → o < 65536) :
    ∀ (l : List Ann) (e i0 : Nat) (NT : List Nat),
    nodeTableBytes st l e = .ok (NT, e + entsum l) →
    (∀ a ∈ l, (alookup st.map a.dir.name).isSome) →
    listSeg buf (0x40 + 16 * i0) NT →
    (∀ a ∈ l, ecOf a.dir + 2 < 65536) →
    e + entsum l < 4294967296 →
    parseNodes buf stOff i0 l.length = .ok (nodeRecsOf l e i0) := by
  intro l
  induction l with
  | nil =>
    intro e i0 NT _ _ _ _ _
    rfl
  | cons a rest ih =>
    intro e i0 NT hrun hnames hseg hec he2
    obtain ⟨o, ho⟩ := Option.isSome_iff_exists.mp (hnames a (List.mem_cons_self _ _))
    obtain ⟨NTr, hrrun, hrlen⟩ := nodeTableBytes_shape st rest
      (e + (a.dir.subdirs.length + a.dir.files.length) + 2)
      (fun b hb => hnames b (List.mem_cons_of_mem _ hb))
    have hstep : nodeTableBytes st (a :: rest) e =
        .ok (((if a.idx = 0 then [82, 79, 79, 84] else nodeTypeTag a.dir.name) ++
          u32b o ++ u16b (hash_name a.dir.name) ++
          u16b (a.dir.subdirs.length + a.dir.files.length + 2) ++ u32b e) ++ NTr,
          e + (a.dir.subdirs.length + a.dir.files.length) + 2 + entsum rest) :=
      nodeTableBytes_cons st a rest e o _ NTr ho hrrun
    rw [hstep] at hrun
    have hNT : NT = ((if a.idx = 0 then [82, 79, 79, 84] else nodeTypeTag a.dir.name) ++
        u32b o ++ u16b (hash_name a.dir.name) ++
        u16b (a.dir.subdirs.length + a.dir.files.length + 2) ++ u32b e) ++ NTr := by
      have := hrun
      simp only [Except.ok.injEq, Prod.mk.injEq] at this
      exact this.1.symm
    subst hNT
    have htag : (if a.idx = 0 then [82, 79, 79, 84] else nodeTypeTag a.dir.name).length = 4 := by
      by_cases h0 : a.idx = 0 <;> simp [h0, nodeTypeTag_length]
    have hseg2 : listSeg buf (0x40 + 16 * i0)
        ((if a.idx = 0 then [82, 79, 79, 84] else nodeTypeTag a.dir.name) ++
          ((u32b o ++ u16b (hash_name a.dir.name) ++
            u16b (a.dir.subdirs.length + a.dir.files.length + 2) ++ u32b e) ++ NTr)) := by
      rw [show ((if a.idx = 0 then [82, 79, 79, 84] else nodeTypeTag a.dir.name) ++
          ((u32b o ++ u16b (hash_name a.dir.name) ++
            u16b (a.dir.subdirs.length + a.dir.files.length + 2) ++ u32b e) ++ NTr)) =
          (((if a.idx = 0 then [82, 79, 79, 84] else nodeTypeTag a.dir.name) ++
            u32b o ++ u16b (hash_name a.dir.name) ++
            u16b (a.dir.subdirs.length + a.dir.files.length + 2) ++ u32b e) ++ NTr) by
        simp [List.append_assoc]]
      exact hseg
    obtain ⟨hsegTag, hsegRest0⟩ := listSeg_split hseg2
    rw [htag] at hsegRest0
    obtain ⟨hsegRec, hsegNTr⟩ := listSeg_split hsegRest0
    have hreclen : (u32b o ++ u16b (hash_name a.dir.name) ++
        u16b (a.dir.subdirs.length + a.dir.files.length + 2) ++ u32b e).length = 12 := by
      simp [u16b, u32b]
    have hre : readExact buf (0x40 + 16 * i0 + 4) 12 =
        some (u32b o ++ u16b (hash_name a.dir.name) ++
          u16b (a.dir.subdirs.length + a.dir.files.length + 2) ++ u32b e) := by
      rw [readExact_of_seg buf (0x40 + 16 * i0 + 4) _ hsegRec 12 (by rw [hreclen])]
      rw [show (12 : Nat) = (u32b o ++ u16b (hash_name a.dir.name) ++
        u16b (a.dir.subdirs.length + a.dir.files.length + 2) ++ u32b e).length from hreclen.symm]
      rw [List.take_length]
    have ho16 := hst16 _ _ ho
    have hh16 := hash_name_lt a.dir.name
    have hec2 : a.dir.subdirs.length + a.dir.files.length + 2 < 65536 := by
      have := hec a (List.mem_cons_self _ _)
      simpa [ecOf] using this
    have he32 : e < 4294967296 := by
      have : 0 ≤ entsum (a :: rest) := Nat.zero_le _
      omega
    obtain ⟨hp0, hp4, hp6, hp8⟩ := nodeRec_parse o (hash_name a.dir.name)
      (a.dir.subdirs.length + a.dir.files.length + 2) e (by omega) hh16 hec2 he32
    have hrest2 : parseNodes buf stOff (i0 + 1) rest.length =
        .ok (nodeRecsOf rest (e + (ecOf a.dir + 2)) (i0 + 1)) := by
      have heq : e + (a.dir.subdirs.length + a.dir.files.length) + 2 = e + (ecOf a.dir + 2) := by
        simp [ecOf]; omega
      rw [heq] at hrrun
      apply ih (e + (ecOf a.dir + 2)) (i0 + 1) NTr
      · exact hrrun
      · exact fun b hb => hnames b (List.mem_cons_of_mem _ hb)
      · rw [show 0x40 + 16 * (i0 + 1) = 0x40 + 16 * i0 + 4 + 12 from by omega]
        exact hsegNTr
      · exact fun b hb => hec b (List.mem_cons_of_mem _ hb)
      · rw [show e + (ecOf a.dir + 2) + entsum rest = e + entsum (a :: rest) by
          simp [entsum]; omega]
        exact he2
    rw [show (a :: rest).length = rest.length + 1 from rfl]
    by_cases h0 : i0 = 0
    · subst h0
      simp only [parseNodes, hre, hp0, hp4, hp6, hp8, if_pos, hGN _ _ ho, ebind_ok,
        hrest2]
      simp [nodeRecsOf, ecOf]
    · simp only [parseNodes, hre, hp0, hp4, hp6, hp8, if_neg h0, ebind_ok, hrest2]
      simp [nodeRecsOf, ecOf, h0]

theorem nodeRecsOf_get (l : List Ann) :
    ∀ (e i0 k : Nat) (v : Nat × Nat × Nat),
    (nodeValsAnns l e)[k]? = some v →
    ∃ a, l[k]? = some a ∧
      (nodeRecsOf l e i0)[k]? = some ((if i0 + k = 0 then some a.dir.name else none), v) := by
  induction l with
  | nil =>
    intro e i0 k v hv
    simp [nodeValsAnns] at hv
  | cons a r ih =>
    intro e i0 k v hv
    cases k with
    | zero =>
      simp only [nodeValsAnns, List.getElem?_cons_zero, Option.some.injEq] at hv
      subst hv
      exact ⟨a, by simp, by simp [nodeRecsOf]⟩
    | succ k2 =>
      obtain ⟨b, hb, hrec⟩ := ih (e + (ecOf a.dir + 2)) (i0 + 1) k2 v
        (by simpa [nodeValsAnns] using hv)
      refine ⟨b, by simpa using hb, ?_⟩
      simp only [nodeRecsOf, List.getElem?_cons_succ]
      rw [show i0 + (k2 + 1) = i0 + 1 + k2 by omega]
      exact hrec

/-- The node records produced by the writer satisfy the decoder-side node-record
premise from node index 0. -/
theorem NP_nodeRecsOf (l : List Ann) (e : Nat) : NP (nodeRecsOf l e 0) 0 l e := by
  intro k v hv
  obtain ⟨a, ha, hrec⟩ := nodeRecsOf_get l e 0 k v hv
  refine ⟨if 0 + k = 0 then some a.dir.name else none, by simpa using hrec, ?_⟩
  by_cases hk : k = 0
  · subst hk
    exact Or.inr ⟨a, ha, by simp⟩
  · rw [if_neg (by omega)]
    exact Or.inl rfl

/-! ## Decode-side record step lemmas -/

theorem wfDirB_node (n : List Nat) (fs : List AFile) (ds : List ADir)
    (h : wfDirB (.node n fs ds) = true) :
    validNameB n = true ∧ (∀ f ∈ fs, validNameB f.name = true) ∧
    (fs.map AFile.name).Nodup ∧ (ds.map ADir.name).Nodup ∧ wfDirLB ds = true := by
  unfold wfDirB at h
  simp only [Bool.and_eq_true, List.all_eq_true, decide_eq_true_eq] at h
  exact ⟨h.1.1.1.1, h.1.1.1.2, h.1.1.2, h.1.2, h.2⟩

theorem wfDirLB_cons (d : ADir) (rest : List ADir) (h : wfDirLB (d :: rest) = true) :
    wfDirB d = true ∧ wfDirLB rest = true := by
  unfold wfDirLB at h
  simp only [Bool.and_eq_true] at h
  exact h

theorem wfDirB_validName (d : ADir) (h : wfDirB d = true) : validNameB d.name = true := by
  rcases d with ⟨n, fs, ds⟩
  exact (wfDirB_node n fs ds h).1

/-- One entry-loop step on a file record as the encoder writes it: the entry
becomes a `File` with the stored id, hash, flag byte and the `datasize` bytes at
`data-offset`, inserted into the running file dict. -/
theorem procEntries_fileRec (buf : List Nat) (S0 E0 D0 : Nat) (nodes : List NodeRec)
    (idx : Nat) (parents : List Nat) (eoff cur r : Nat) (fl : List AFile) (sd : List ADir)
    (fid hsh o doff dsz : Nat) (nm : List Nat)
    (hrec : listSeg buf (E0 + (eoff + cur) * 20)
      (u16b fid ++ u16b hsh ++ [17, 0] ++ u16b o ++ u32b doff ++ u32b dsz ++ u32b 0))
    (hname : stringtable_get_name buf S0 o = .ok nm)
    (hfid : fid < 65536) (hh : hsh < 65536) (ho : o < 65536)
    (hdoff : doff < 4294967296) (hdsz : dsz < 4294967296)
    (hval : ¬(nm = dotName ∨ nm = dotdotName ∨ nm = [])) :
    procEntries buf S0 E0 D0 nodes idx parents eoff cur (r + 1) fl sd =
      procEntries buf S0 E0 D0 nodes idx parents eoff (cur + 1) r
        (dictInsertFile fl ⟨nm, some fid, some hsh, some 17,
          (buf.drop (D0 + doff)).take dsz⟩) sd := by
  have hre : readExact buf (E0 + (eoff + cur) * 20) 20 =
      some (u16b fid ++ u16b hsh ++ [17, 0] ++ u16b o ++ u32b doff ++ u32b dsz ++ u32b 0) := by
    rw [readExact_of_seg buf _ _ hrec 20 (by rw [entryRec_length])]
    rw [show (20 : Nat) = (u16b fid ++ u16b hsh ++ [17, 0] ++ u16b o ++ u32b doff ++
      u32b dsz ++ u32b 0).length from (entryRec_length fid hsh 17 o doff dsz 0).symm]
    rw [List.take_length]
  obtain ⟨e0, e4, e6, e8, e12, e2'⟩ := entryRec_parse fid hsh 17 o doff dsz 0
    hfid hh ho hdoff hdsz
  rw [procEntries]
  simp only [hre, e0, e4, e6, e8, e12, e2', hname]
  rw [if_neg hval]
  rw [if_neg (by decide : ¬((17 : Nat) &&& DIRECTORY ≠ 0 ∧ (17 : Nat) &&& FILE = 0))]

/-- One entry-loop step on a `"."` or `".."` entry: the decoder skips it. -/
theorem procEntries_skipRec (buf : List Nat) (S0 E0 D0 : Nat) (nodes : List NodeRec)
    (idx : Nat) (parents : List Nat) (eoff cur r : Nat) (fl : List AFile) (sd : List ADir)
    (hsh o ci : Nat) (nm : List Nat)
    (hrec : listSeg buf (E0 + (eoff + cur) * 20)
      (u16b 0xFFFF ++ u16b hsh ++ [2, 0] ++ u16b o ++ u32b ci ++ u32b 0x10 ++ u32b 0))
    (hname : stringtable_get_name buf S0 o = .ok nm)
    (hh : hsh < 65536) (ho : o < 65536) (hci : ci < 4294967296)
    (hspec : nm = dotName ∨ nm = dotdotName) :
    procEntries buf S0 E0 D0 nodes idx parents eoff cur (r + 1) fl sd =
      procEntries buf S0 E0 D0 nodes idx parents eoff (cur + 1) r fl sd := by
  have hre : readExact buf (E0 + (eoff + cur) * 20) 20 =
      some (u16b 0xFFFF ++ u16b hsh ++ [2, 0] ++ u16b o ++ u32b ci ++ u32b 0x10 ++ u32b 0) := by
    rw [readExact_of_seg buf _ _ hrec 20 (by rw [entryRec_length])]
    rw [show (20 : Nat) = (u16b 0xFFFF ++ u16b hsh ++ [2, 0] ++ u16b o ++ u32b ci ++
      u32b 0x10 ++ u32b 0).length from (entryRec_length 0xFFFF hsh 2 o ci 0x10 0).symm]
    rw [List.take_length]
  obtain ⟨e0, e4, e6, e8, e12, e2'⟩ := entryRec_parse 0xFFFF hsh 2 o ci 0x10 0
    (by omega) hh ho hci (by omega)
  rw [procEntries]
  simp only [hre, e0, e4, e6, e8, e12, e2', hname]
  rw [if_pos (by tauto)]

/-- One entry-loop step on a real subdirectory reference whose child node is
neither on the current path nor out of range: the decoder recurses into the
child node and inserts the resulting directory. -/
theorem procEntries_dirRec (buf : List Nat) (S0 E0 D0 : Nat) (nodes : List NodeRec)
    (idx : Nat) (parents : List Nat) (eoff cur r : Nat) (fl : List AFile) (sd : List ADir)
    (hsh o ci : Nat) (nm : List Nat) (sub : ADir)
    (hrec : listSeg buf (E0 + (eoff + cur) * 20)
      (u16b 0xFFFF ++ u16b hsh ++ [2, 0] ++ u16b o ++ u32b ci ++ u32b 0x10 ++ u32b 0))
    (hname : stringtable_get_name buf S0 o = .ok nm)
    (hh : hsh < 65536) (ho : o < 65536) (hci : ci < 4294967296)
    (hval : ¬(nm = dotName ∨ nm = dotdotName ∨ nm = []))
    (hnot : ci ∉ idx :: parents) (hlt : ci < nodes.length)
    (hsub : from_node buf S0 E0 D0 nodes ci (idx :: parents) nm = .ok sub) :
    procEntries buf S0 E0 D0 nodes idx parents eoff cur (r + 1) fl sd =
      procEntries buf S0 E0 D0 nodes idx parents eoff (cur + 1) r fl
        (dictInsertDir sd sub) := by
  have hre : readExact buf (E0 + (eoff + cur) * 20) 20 =
      some (u16b 0xFFFF ++ u16b hsh ++ [2, 0] ++ u16b o ++ u32b ci ++ u32b 0x10 ++ u32b 0) := by
    rw [readExact_of_seg buf _ _ hrec 20 (by rw [entryRec_length])]
    rw [show (20 : Nat) = (u16b 0xFFFF ++ u16b hsh ++ [2, 0] ++ u16b o ++ u32b ci ++
      u32b 0x10 ++ u32b 0).length from (entryRec_length 0xFFFF hsh 2 o ci 0x10 0).symm]
    rw [List.take_length]
  obtain ⟨e0, e4, e6, e8, e12, e2'⟩ := entryRec_parse 0xFFFF hsh 2 o ci 0x10 0
    (by omega) hh ho hci (by omega)
  rw [procEntries]
  simp only [hre, e0, e4, e6, e8, e12, e2', hname]
  rw [if_neg hval]
  rw [if_pos (by decide : ((2 : Nat) &&& DIRECTORY ≠ 0 ∧ (2 : Nat) &&& FILE = 0))]
  rw [dif_neg hnot, dif_pos hlt, hsub]

/-- The entry loop over the file records of one directory, as written by the
encoder with no override table: it consumes one record per file and accumulates
exactly the `assignFiles` transform of the directory's files. -/
theorem files_loop (buf : List Nat) (S0 E0 D0 : Nat) (nodes : List NodeRec)
    (st : StringTable) (dp : List Nat)
    (hGN : ∀ s o, alookup st.map s = some o → stringtable_get_name buf S0 o = .ok s)
    (hst16 : ∀ s o, alookup st.map s = some o → o < 65536) :
    ∀ (fs : List AFile) (fid : Nat) (dataPre FB data2 : List Nat)
      (idx : Nat) (parents : List Nat) (eoff cur restEnt : Nat)
      (fl : List AFile) (sd : List ADir),
    fileEntriesBytes st none cs0 dp fs fid dataPre = .ok (FB, fid + fs.length, data2) →
    listSeg buf (E0 + (eoff + cur) * 20) FB →
    (∃ w, listSeg buf D0 (data2 ++ w)) →
    (∀ f ∈ fs, validNameB f.name = true) →
    (∀ f ∈ fs, (alookup st.map f.name).isSome) →
    (fs.map AFile.name).Nodup →
    (∀ f ∈ fs, f.name ∉ fl.map AFile.name) →
    dataPre.length % 32 = 0 →
    fid + fs.length ≤ 65536 →
    data2.length < 4294967296 →
    procEntries buf S0 E0 D0 nodes idx parents eoff cur (fs.length + restEnt) fl sd =
      procEntries buf S0 E0 D0 nodes idx parents eoff (cur + fs.length) restEnt
        (fl ++ (assignFiles fid fs).1) sd := by
  intro fs
  induction fs with
  | nil =>
    intro fid dataPre FB data2 idx parents eoff cur restEnt fl sd
    intro _ _ _ _ _ _ _ _ _ _
    simp [assignFiles]
  | cons f rest ih =>
    intro fid dataPre FB data2 idx parents eoff cur restEnt fl sd
    intro hrun hFB hdata hvalid hnames hnodup hfl hal hfid hd32
    obtain ⟨o, ho⟩ := Option.isSome_iff_exists.mp (hnames f (List.mem_cons_self _ _))
    set data1 := dataPre ++ f.content ++ pad32bytes (dataPre.length + f.content.length)
      with hd1
    have hd1len : data1.length = dataPre.length + align32 f.content.length := by
      rw [hd1]
      simp only [List.length_append, pad32bytes_length]
      have h1 := align32_ge (dataPre.length + f.content.length)
      have h2 := align32_add_aligned dataPre.length f.content.length hal
      omega
    have hd1al : data1.length % 32 = 0 := by
      rw [hd1len]
      have := align32_mod f.content.length
      omega
    obtain ⟨FBr, data2', hrrun, hrlen, ⟨ext, hext⟩, hrdlen, hrdal⟩ :=
      fileEntriesBytes_shape st dp rest (fid + 1) data1
        (fun g hg => hnames g (List.mem_cons_of_mem _ hg)) hd1al
    have hstep := fileEntriesBytes_cons_none st dp f rest fid dataPre o ho
    rw [hrrun] at hstep
    rw [hstep] at hrun
    have hFBeq : FB = (u16b fid ++ u16b (hash_name f.name) ++ [17, 0] ++ u16b o ++
        u32b dataPre.length ++ u32b f.content.length ++ u32b 0) ++ FBr ∧
        data2 = data2' := by
      simp only [Except.ok.injEq, Prod.mk.injEq] at hrun
      exact ⟨hrun.1.symm, hrun.2.2.symm⟩
    obtain ⟨hFBe, hd2e⟩ := hFBeq
    subst hFBe
    subst hd2e
    obtain ⟨hsegRec, hsegFBr⟩ := listSeg_split hFB
    rw [entryRec_length] at hsegFBr
    obtain ⟨w, hw⟩ := hdata
    have hpre : dataPre.length + f.content.length ≤ data2.length := by
      rw [hrdlen, hd1len]
      have := align32_ge f.content.length
      omega
    have hcontent : (buf.drop (D0 + dataPre.length)).take f.content.length = f.content := by
      have hseq : data2 ++ w = dataPre ++ (f.content ++
          (pad32bytes (dataPre.length + f.content.length) ++ ext ++ w)) := by
        rw [hext, hd1]
        simp [List.append_assoc]
      rw [hseq] at hw
      obtain ⟨_, hw2⟩ := listSeg_split hw
      rw [listSeg_take buf _ _ hw2 f.content.length (by simp)]
      rw [List.take_append_of_le_length (le_refl _)]
      simp
    have hfnot : ¬(f.name = dotName ∨ f.name = dotdotName ∨ f.name = []) :=
      (validNameB_ne f.name (hvalid f (List.mem_cons_self _ _))).1
    have hins : dictInsertFile fl ⟨f.name, some fid, some (hash_name f.name), some 17,
        (buf.drop (D0 + dataPre.length)).take f.content.length⟩ =
        fl ++ [⟨f.name, some fid, some (hash_name f.name), some 17, f.content⟩] := by
      rw [hcontent]
      exact dictInsertFile_append fl _ (hfl f (List.mem_cons_self _ _))
    rw [show (f :: rest).length + restEnt = (rest.length + restEnt) + 1 by simp; omega]
    rw [procEntries_fileRec buf S0 E0 D0 nodes idx parents eoff cur (rest.length + restEnt)
      fl sd fid (hash_name f.name) o dataPre.length f.content.length f.name
      hsegRec (hGN _ _ ho) (by simp at hfid; omega) (hash_name_lt _) (hst16 _ _ ho)
      (by omega) (by omega) hfnot]
    rw [hins]
    have hnodup2 : (rest.map AFile.name).Nodup := (List.nodup_cons.mp hnodup).2
    have hfl2 : ∀ g ∈ rest, g.name ∉ (fl ++
        [(⟨f.name, some fid, some (hash_name f.name), some 17, f.content⟩ : AFile)]).map
          AFile.name := by
      intro g hg
      simp only [List.map_append, List.mem_append, List.map_cons, List.map_nil,
        List.mem_cons, List.not_mem_nil, or_false, not_or]
      refine ⟨hfl g (List.mem_cons_of_mem _ hg), ?_⟩
      intro hgn
      exact (List.nodup_cons.mp hnodup).1 (hgn ▸ List.mem_map_of_mem AFile.name hg)
    have hrec := ih (fid + 1) data1 FBr data2 idx parents eoff (cur + 1) restEnt
      (fl ++ [⟨f.name, some fid, some (hash_name f.name), some 17, f.content⟩]) sd
      hrrun
      (by rw [show E0 + (eoff + (cur + 1)) * 20 = E0 + (eoff + cur) * 20 + 20 by ring]
          exact hsegFBr)
      ⟨w, hw⟩
      (fun g hg => hvalid g (List.mem_cons_of_mem _ hg))
      (fun g hg => hnames g (List.mem_cons_of_mem _ hg))
      hnodup2 hfl2 hd1al (by simp at hfid; omega) hd32
    rw [hrec]
    rw [show cur + 1 + rest.length = cur + (f :: rest).length by simp; omega]
    rw [show (fl ++ [(⟨f.name, some fid, some (hash_name f.name), some 17, f.content⟩ :
        AFile)]) ++ (assignFiles (fid + 1) rest).1 = fl ++ (assignFiles fid (f :: rest)).1 by
      simp [assignFiles, default_to_flags, List.append_assoc]]

/-- Decoding one encoded node: given that the node records, the entry-table
segment and the data segment of the buffer describe the encoder's output for the
subtree rooted at this node, `from_node` rebuilds exactly the `assignIdsD`
transform of the subtree.  The hypothesis `ihL` is the corresponding statement
for the children loop, provided by the mutual induction; `pidx` is the value the
encoder writes as the `".."` entry's child index. -/
theorem fromNode_node (buf : List Nat) (S0 E0 D0 mi : Nat) (nodes : List NodeRec)
    (st : StringTable)
    (hGN : ∀ s o, alookup st.map s = some o → stringtable_get_name buf S0 o = .ok s)
    (hst16 : ∀ s o, alookup st.map s = some o → o < 65536)
    (hdot : (alookup st.map dotName).isSome)
    (hdotdot : (alookup st.map dotdotName).isSome)
    (hnlen : nodes.length < 4294967296)
    (n mypath : List Nat) (fs : List AFile) (ds : List ADir)
    (i : Nat) (p : Option Nat) (pidx : Nat)
    (hpv : (match p with | some q => q | none => 0xFFFFFFFF) = pidx)
    (hpl : pidx < 4294967296)
    (parents : List Nat) (fid : Nat)
    (dataPre ET dataFull : List Nat) (e : Nat)
    (ihL : ∀ (i2 : Nat) (p2 : Option Nat) (pp2 : Option (List Nat)) (pidx2 : Nat)
      (fid2 : Nat) (dataPre2 ET2 dataFull2 : List Nat) (e2 : Nat) (idx : Nat)
      (parents2 : List Nat) (eoff cur : Nat) (DB : List Nat) (fl : List AFile)
      (sd : List ADir),
      wfDirLB ds = true → (ds.map ADir.name).Nodup →
      (match p2 with | some q => q | none => 0xFFFFFFFF) = pidx2 →
      pidx2 < 4294967296 →
      entryTableBytes st none cs0 mi (annotateList ds i2 p2 pp2) fid2 dataPre2 =
        .ok (ET2, fid2 + nfilesL ds, dataFull2) →
      listSeg buf (E0 + e2 * 20) ET2 →
      NP nodes i2 (annotateList ds i2 p2 pp2) e2 →
      i2 + ndirsL ds ≤ nodes.length →
      idx < i2 →
      (∀ q ∈ parents2, q < idx) →
      (∃ w, listSeg buf D0 (dataFull2 ++ w)) →
      dataPre2.length % 32 = 0 →
      fid2 + nfilesL ds ≤ 65536 →
      (∀ s ∈ namesL ds, (alookup st.map s).isSome) →
      dataFull2.length < 4294967296 →
      dirEntriesBytes st ((ds.map ADir.name).zip (childIndices i2 ds)) = .ok DB →
      listSeg buf (E0 + (eoff + cur) * 20) DB →
      (∀ c ∈ ds, c.name ∉ sd.map ADir.name) →
      procEntries buf S0 E0 D0 nodes idx parents2 eoff cur ds.length fl sd =
        .ok (fl, sd ++ (assignIdsL ds fid2).1))
    (hwf : wfDirB (.node n fs ds) = true)
    (hrun : entryTableBytes st none cs0 mi
      (⟨.node n fs ds, i, p, mypath, childIndices (i + 1) ds⟩ ::
        annotateList ds (i + 1) (some i) (some mypath)) fid dataPre =
      .ok (ET, fid + nfiles (.node n fs ds), dataFull))
    (hseg : listSeg buf (E0 + e * 20) ET)
    (hNP : NP nodes i (⟨.node n fs ds, i, p, mypath, childIndices (i + 1) ds⟩ ::
      annotateList ds (i + 1) (some i) (some mypath)) e)
    (hbound : i + ndirs (.node n fs ds) ≤ nodes.length)
    (hpar : ∀ q ∈ parents, q < i)
    (hdata : ∃ w, listSeg buf D0 (dataFull ++ w))
    (hal : dataPre.length % 32 = 0)
    (hfid : fid + nfiles (.node n fs ds) ≤ 65536)
    (hnames : ∀ s ∈ namesD (.node n fs ds), (alookup st.map s).isSome)
    (hd32 : dataFull.length < 4294967296) :
    from_node buf S0 E0 D0 nodes i parents n = .ok (assignIdsD (.node n fs ds) fid).1 := by
  obtain ⟨hvn, hvfs, hfsnd, hdsnd, hwfds⟩ := wfDirB_node n fs ds hwf
  have hfsn : ∀ f ∈ fs, (alookup st.map f.name).isSome := by
    intro f hf
    apply hnames
    simp only [namesD, List.mem_cons, List.mem_append]
    exact Or.inr (Or.inl (List.mem_map_of_mem AFile.name hf))
  have hdsn : ∀ s ∈ namesL ds, (alookup st.map s).isSome := by
    intro s hs
    apply hnames
    simp only [namesD, List.mem_cons, List.mem_append]
    exact Or.inr (Or.inr hs)
  have hilen : i < nodes.length := by
    have := ndirs_pos (.node n fs ds)
    omega
  obtain ⟨FB, data1, hfrun, hflen, ⟨ext1, hext1⟩, hfdlen, hfal⟩ :=
    fileEntriesBytes_shape st mypath fs fid dataPre hfsn hal
  obtain ⟨odot, hodot⟩ := Option.isSome_iff_exists.mp hdot
  obtain ⟨odd, hodd⟩ := Option.isSome_iff_exists.mp hdotdot
  have hzipn : ∀ r ∈ (ds.map ADir.name).zip (childIndices (i + 1) ds),
      (alookup st.map r.1).isSome := by
    intro r hr
    rcases r with ⟨nm, ci⟩
    obtain ⟨hnm, _⟩ := List.of_mem_zip hr
    obtain ⟨c, hcm, hcn⟩ := List.mem_map.mp hnm
    exact hcn ▸ hdsn c.name (name_mem_namesL ds c hcm)
  obtain ⟨DBk, hDBkrun, hDBklen⟩ := dirEntriesBytes_shape st _ hzipn
  have hDBklen2 : DBk.length = 20 * ds.length := by
    rw [hDBklen]
    simp [List.length_zip, childIndices_length]
  have hdd : dirEntriesBytes st ((dotdotName, pidx) ::
      (ds.map ADir.name).zip (childIndices (i + 1) ds)) =
      .ok ((u16b 0xFFFF ++ u16b (hash_name dotdotName) ++ [2, 0] ++ u16b odd ++
        u32b pidx ++ u32b 0x10 ++ u32b 0) ++ DBk) :=
    dirEntriesBytes_cons st dotdotName pidx odd _ _ hodd hDBkrun
  have hdd2 : dirEntriesBytes st ((dotName, i) :: (dotdotName, pidx) ::
      (ds.map ADir.name).zip (childIndices (i + 1) ds)) =
      .ok ((u16b 0xFFFF ++ u16b (hash_name dotName) ++ [2, 0] ++ u16b odot ++
        u32b i ++ u32b 0x10 ++ u32b 0) ++
        ((u16b 0xFFFF ++ u16b (hash_name dotdotName) ++ [2, 0] ++ u16b odd ++
          u32b pidx ++ u32b 0x10 ++ u32b 0) ++ DBk)) :=
    dirEntriesBytes_cons st dotName i odot _ _ hodot hdd
  obtain ⟨RB, dataFull2, hrrun, hrlen, ⟨ext2, hext2⟩, hrdlen, hral⟩ :=
    (entryShape_pair st mi hdot hdotdot).2 ds (i + 1) (some i) (some mypath)
      (fid + fs.length) data1 hdsn hfal
  have hfull : entryTableBytes st none cs0 mi
      (⟨.node n fs ds, i, p, mypath, childIndices (i + 1) ds⟩ ::
        annotateList ds (i + 1) (some i) (some mypath)) fid dataPre =
      .ok (FB ++ ((u16b 0xFFFF ++ u16b (hash_name dotName) ++ [2, 0] ++ u16b odot ++
        u32b i ++ u32b 0x10 ++ u32b 0) ++
        ((u16b 0xFFFF ++ u16b (hash_name dotdotName) ++ [2, 0] ++ u16b odd ++
          u32b pidx ++ u32b 0x10 ++ u32b 0) ++ DBk)) ++ RB,
        fid + fs.length + nfilesL ds, dataFull2) := by
    simp only [entryTableBytes, sortFilesByKeyCompare, ADir.files, ADir.subdirs,
      hpv, hfrun, ebind_ok, List.cons_append, List.nil_append, hdd2, hrrun]
  rw [hfull] at hrun
  simp only [Except.ok.injEq, Prod.mk.injEq] at hrun
  obtain ⟨hETeq, _, hDFeq⟩ := hrun
  subst hETeq
  subst hDFeq
  obtain ⟨hseg03, hsegRB⟩ := listSeg_split hseg
  obtain ⟨hsegFB, hseg1⟩ := listSeg_split hseg03
  rw [hflen] at hseg1
  obtain ⟨hsegDot, hseg2⟩ := listSeg_split hseg1
  rw [entryRec_length] at hseg2
  obtain ⟨hsegDD, hsegDBk⟩ := listSeg_split hseg2
  rw [entryRec_length] at hsegDBk
  have hlen03 : (FB ++ ((u16b 0xFFFF ++ u16b (hash_name dotName) ++ [2, 0] ++ u16b odot ++
      u32b i ++ u32b 0x10 ++ u32b 0) ++
      ((u16b 0xFFFF ++ u16b (hash_name dotdotName) ++ [2, 0] ++ u16b odd ++
        u32b pidx ++ u32b 0x10 ++ u32b 0) ++ DBk))).length =
      20 * fs.length + (20 + (20 + 20 * ds.length)) := by
    simp only [List.length_append, u16b_length, u32b_length, List.length_cons,
      List.length_nil, hflen, hDBklen2]
  rw [hlen03] at hsegRB
  obtain ⟨w0, hw0⟩ := hdata
  have hw1 : listSeg buf D0 (data1 ++ (ext2 ++ w0)) := by
    have hcopy := hw0
    rw [hext2, List.append_assoc] at hcopy
    exact hcopy
  obtain ⟨nm, hnode, hnm⟩ := NP_head nodes i _ _ e hNP
  have hnode2 : nodes[i]? = some (nm, hash_name n, ecOf (.node n fs ds) + 2, e) := by
    simpa [ADir.name] using hnode
  have hgetd : nm.getD n = n := by
    rcases hnm with h | h <;> subst h <;> simp [ADir.name]
  rw [from_node]
  simp only [hnode2, hgetd]
  have hNPtail := NP_tail nodes i _ _ e hNP
  have hfloop := files_loop buf S0 E0 D0 nodes st mypath hGN hst16 fs fid dataPre FB data1
    i parents e 0 (ds.length + 2) [] []
    hfrun
    (by rw [show E0 + (e + 0) * 20 = E0 + e * 20 by ring]; exact hsegFB)
    ⟨ext2 ++ w0, hw1⟩
    hvfs hfsn hfsnd (by simp) hal
    (by have : nfiles (.node n fs ds) = fs.length + nfilesL ds := by simp [nfiles]
        omega)
    (by have h1 : dataFull2.length = data1.length + dataLenL ds := hrdlen
        omega)
  have hskip1 := procEntries_skipRec buf S0 E0 D0 nodes i parents e (0 + fs.length)
    (ds.length + 1) ((assignFiles fid fs).1) []
    (hash_name dotName) odot i dotName
    (by rw [show E0 + (e + (0 + fs.length)) * 20 = E0 + e * 20 + 20 * fs.length by ring]
        exact hsegDot)
    (hGN _ _ hodot) (hash_name_lt _) (hst16 _ _ hodot) (by omega) (Or.inl rfl)
  have hskip2 := procEntries_skipRec buf S0 E0 D0 nodes i parents e (0 + fs.length + 1)
    ds.length ((assignFiles fid fs).1) []
    (hash_name dotdotName) odd pidx dotdotName
    (by rw [show E0 + (e + (0 + fs.length + 1)) * 20 =
          E0 + e * 20 + 20 * fs.length + 20 by ring]
        exact hsegDD)
    (hGN _ _ hodd) (hash_name_lt _) (hst16 _ _ hodd) hpl (Or.inr rfl)
  have hls := ihL (i + 1) (some i) (some mypath) i (fid + fs.length) data1 RB dataFull2
    (e + (ecOf (.node n fs ds) + 2)) i parents e (0 + fs.length + 1 + 1) DBk
    ((assignFiles fid fs).1) []
    hwfds hdsnd rfl (by omega) hrrun
    (by rw [show E0 + (e + (ecOf (.node n fs ds) + 2)) * 20 =
          E0 + e * 20 + (20 * fs.length + (20 + (20 + 20 * ds.length))) by
          simp only [ecOf, ADir.subdirs, ADir.files]; ring]
        exact hsegRB)
    (by simpa [ADir.name] using hNPtail)
    (by rw [ndirs_node] at hbound; omega)
    (by omega)
    hpar
    ⟨w0, hw0⟩ hfal
    (by have : nfiles (.node n fs ds) = fs.length + nfilesL ds := by simp [nfiles]
        omega)
    hdsn hd32 hDBkrun
    (by rw [show E0 + (e + (0 + fs.length + 1 + 1)) * 20 =
          E0 + e * 20 + 20 * fs.length + 20 + 20 by ring]
        exact hsegDBk)
    (by simp)
  rw [show ecOf (.node n fs ds) + 2 = fs.length + (ds.length + 2) by
    simp [ecOf, ADir.subdirs, ADir.files]; omega]
  rw [hfloop]
  rw [show ds.length + 2 = (ds.length + 1) + 1 by omega]
  rw [show ([] : List AFile) ++ (assignFiles fid fs).1 = (assignFiles fid fs).1 by simp]
  rw [hskip1]
  rw [hskip2]
  rw [hls]
  simp [assignIdsD, assignFiles_snd]

/-- The decode-of-encode pair induction: `from_node` on an encoded subtree
rebuilds `assignIdsD`, and the children loop of `procEntries` rebuilds
`assignIdsL`, given that the buffer segments and node records describe the
encoder's output for the subtree. -/
theorem decode_pair (buf : List Nat) (S0 E0 D0 mi : Nat) (nodes : List NodeRec)
    (st : StringTable)
    (hGN : ∀ s o, alookup st.map s = some o → stringtable_get_name buf S0 o = .ok s)
    (hst16 : ∀ s o, alookup st.map s = some o → o < 65536)
    (hdot : (alookup st.map dotName).isSome)
    (hdotdot : (alookup st.map dotdotName).isSome)
    (hnlen : nodes.length < 4294967296) :
    (∀ d, ∀ (i : Nat) (p : Option Nat) (pp : Option (List Nat)) (pidx : Nat)
      (parents : List Nat) (fid : Nat) (dataPre ET dataFull : List Nat) (e : Nat),
      wfDirB d = true →
      (match p with | some q => q | none => 0xFFFFFFFF) = pidx →
      pidx < 4294967296 →
      entryTableBytes st none cs0 mi (annotate d i p pp) fid dataPre =
        .ok (ET, fid + nfiles d, dataFull) →
      listSeg buf (E0 + e * 20) ET →
      NP nodes i (annotate d i p pp) e →
      i + ndirs d ≤ nodes.length →
      (∀ q ∈ parents, q < i) →
      (∃ w, listSeg buf D0 (dataFull ++ w)) →
      dataPre.length % 32 = 0 →
      fid + nfiles d ≤ 65536 →
      (∀ s ∈ namesD d, (alookup st.map s).isSome) →
      dataFull.length < 4294967296 →
      from_node buf S0 E0 D0 nodes i parents d.name = .ok (assignIdsD d fid).1) ∧
    (∀ ds, ∀ (i : Nat) (p : Option Nat) (pp : Option (List Nat)) (pidx : Nat)
      (fid : Nat) (dataPre ET dataFull : List Nat) (e : Nat) (idx : Nat)
      (parents : List Nat) (eoff cur : Nat) (DB : List Nat) (fl : List AFile)
      (sd : List ADir),
      wfDirLB ds = true →
      (ds.map ADir.name).Nodup →
      (match p with | some q => q | none => 0xFFFFFFFF) = pidx →
      pidx < 4294967296 →
      entryTableBytes st none cs0 mi (annotateList ds i p pp) fid dataPre =
        .ok (ET, fid + nfilesL ds, dataFull) →
      listSeg buf (E0 + e * 20) ET →
      NP nodes i (annotateList ds i p pp) e →
      i + ndirsL ds ≤ nodes.length →
      idx < i →
      (∀ q ∈ parents, q < idx) →
      (∃ w, listSeg buf D0 (dataFull ++ w)) →
      dataPre.length % 32 = 0 →
      fid + nfilesL ds ≤ 65536 →
      (∀ s ∈ namesL ds, (alookup st.map s).isSome) →
      dataFull.length < 4294967296 →
      dirEntriesBytes st ((ds.map ADir.name).zip (childIndices i ds)) = .ok DB →
      listSeg buf (E0 + (eoff + cur) * 20) DB →
      (∀ c ∈ ds, c.name ∉ sd.map ADir.name) →
      procEntries buf S0 E0 D0 nodes idx parents eoff cur ds.length fl sd =
        .ok (fl, sd ++ (assignIdsL ds fid).1)) := by
  have c1 : ∀ (n : List Nat) (fs : List AFile) (ds : List ADir),
      (∀ (i : Nat) (p : Option Nat) (pp : Option (List Nat)) (pidx : Nat)
        (fid : Nat) (dataPre ET dataFull : List Nat) (e : Nat) (idx : Nat)
        (parents : List Nat) (eoff cur : Nat) (DB : List Nat) (fl : List AFile)
        (sd : List ADir),
        wfDirLB ds = true →
        (ds.map ADir.name).Nodup →
        (match p with | some q => q | none => 0xFFFFFFFF) = pidx →
        pidx < 4294967296 →
        entryTableBytes st none cs0 mi (annotateList ds i p pp) fid dataPre =
          .ok (ET, fid + nfilesL ds, dataFull) →
        listSeg buf (E0 + e * 20) ET →
        NP nodes i (annotateList ds i p pp) e →
        i + ndirsL ds ≤ nodes.length →
        idx < i →
        (∀ q ∈ parents, q < idx) →
        (∃ w, listSeg buf D0 (dataFull ++ w)) →
        dataPre.length % 32 = 0 →
        fid + nfilesL ds ≤ 65536 →
        (∀ s ∈ namesL ds, (alookup st.map s).isSome) →
        dataFull.length < 4294967296 →
        dirEntriesBytes st ((ds.map ADir.name).zip (childIndices i ds)) = .ok DB →
        listSeg buf (E0 + (eoff + cur) * 20) DB →
        (∀ c ∈ ds, c.name ∉ sd.map ADir.name) →
        procEntries buf S0 E0 D0 nodes idx parents eoff cur ds.length fl sd =
          .ok (fl, sd ++ (assignIdsL ds fid).1)) →
      ∀ (i : Nat) (p : Option Nat) (pp : Option (List Nat)) (pidx : Nat)
        (parents : List Nat) (fid : Nat) (dataPre ET dataFull : List Nat) (e : Nat),
        wfDirB (.node n fs ds) = true →
        (match p with | some q => q | none => 0xFFFFFFFF) = pidx →
        pidx < 4294967296 →
        entryTableBytes st none cs0 mi (annotate (.node n fs ds) i p pp) fid dataPre =
          .ok (ET, fid + nfiles (.node n fs ds), dataFull) →
        listSeg buf (E0 + e * 20) ET →
        NP nodes i (annotate (.node n fs ds) i p pp) e →
        i + ndirs (.node n fs ds) ≤ nodes.length →
        (∀ q ∈ parents, q < i) →
        (∃ w, listSeg buf D0 (dataFull ++ w)) →
        dataPre.length % 32 = 0 →
        fid + nfiles (.node n fs ds) ≤ 65536 →
        (∀ s ∈ namesD (.node n fs ds), (alookup st.map s).isSome) →
        dataFull.length < 4294967296 →
        from_node buf S0 E0 D0 nodes i parents (ADir.node n fs ds).name =
          .ok (assignIdsD (.node n fs ds) fid).1 := by
    intro n fs ds ih i p pp pidx parents fid dataPre ET dataFull e
    intro hwf hpv hpl hrun hseg hNP hbound hpar hdata hal hfid hnames hd32
    cases pp with
    | none =>
      exact fromNode_node buf S0 E0 D0 mi nodes st hGN hst16 hdot hdotdot hnlen
        n n fs ds i p pidx hpv hpl parents fid dataPre ET dataFull e ih
        hwf hrun hseg hNP hbound hpar hdata hal hfid hnames hd32
    | some q =>
      exact fromNode_node buf S0 E0 D0 mi nodes st hGN hst16 hdot hdotdot hnlen
        n (q ++ [47] ++ n) fs ds i p pidx hpv hpl parents fid dataPre ET dataFull e ih
        hwf hrun hseg hNP hbound hpar hdata hal hfid hnames hd32
  have c2 : ∀ (i : Nat) (p : Option Nat) (pp : Option (List Nat)) (pidx : Nat)
      (fid : Nat) (dataPre ET dataFull : List Nat) (e : Nat) (idx : Nat)
      (parents : List Nat) (eoff cur : Nat) (DB : List Nat) (fl : List AFile)
      (sd : List ADir),
      wfDirLB ([] : List ADir) = true →
      ((([] : List ADir)).map ADir.name).Nodup →
      (match p with | some q => q | none => 0xFFFFFFFF) = pidx →
      pidx < 4294967296 →
      entryTableBytes st none cs0 mi (annotateList [] i p pp) fid dataPre =
        .ok (ET, fid + nfilesL [], dataFull) →
      listSeg buf (E0 + e * 20) ET →
      NP nodes i (annotateList [] i p pp) e →
      i + ndirsL [] ≤ nodes.length →
      idx < i →
      (∀ q ∈ parents, q < idx) →
      (∃ w, listSeg buf D0 (dataFull ++ w)) →
      dataPre.length % 32 = 0 →
      fid + nfilesL [] ≤ 65536 →
      (∀ s ∈ namesL [], (alookup st.map s).isSome) →
      dataFull.length < 4294967296 →
      dirEntriesBytes st (((([] : List ADir)).map ADir.name).zip (childIndices i [])) =
        .ok DB →
      listSeg buf (E0 + (eoff + cur) * 20) DB →
      (∀ c ∈ ([] : List ADir), c.name ∉ sd.map ADir.name) →
      procEntries buf S0 E0 D0 nodes idx parents eoff cur ([] : List ADir).length fl sd =
        .ok (fl, sd ++ (assignIdsL [] fid).1) := by
    intro i p pp pidx fid dataPre ET dataFull e idx parents eoff cur DB fl sd
    intro _ _ _ _ _ _ _ _ _ _ _ _ _ _ _ _ _ _
    rw [show (([] : List ADir)).length = 0 from rfl, procEntries]
    simp [assignIdsL]
  have c3 : ∀ (c : ADir) (rest : List ADir),
      (∀ (i : Nat) (p : Option Nat) (pp : Option (List Nat)) (pidx : Nat)
        (parents : List Nat) (fid : Nat) (dataPre ET dataFull : List Nat) (e : Nat),
        wfDirB c = true →
        (match p with | some q => q | none => 0xFFFFFFFF) = pidx →
        pidx < 4294967296 →
        entryTableBytes st none cs0 mi (annotate c i p pp) fid dataPre =
          .ok (ET, fid + nfiles c, dataFull) →
        listSeg buf (E0 + e * 20) ET →
        NP nodes i (annotate c i p pp) e →
        i + ndirs c ≤ nodes.length →
        (∀ q ∈ parents, q < i) →
        (∃ w, listSeg buf D0 (dataFull ++ w)) →
        dataPre.length % 32 = 0 →
        fid + nfiles c ≤ 65536 →
        (∀ s ∈ namesD c, (alookup st.map s).isSome) →
        dataFull.length < 4294967296 →
        from_node buf S0 E0 D0 nodes i parents c.name = .ok (assignIdsD c fid).1) →
      (∀ (i : Nat) (p : Option Nat) (pp : Option (List Nat)) (pidx : Nat)
        (fid : Nat) (dataPre ET dataFull : List Nat) (e : Nat) (idx : Nat)
        (parents : List Nat) (eoff cur : Nat) (DB : List Nat) (fl : List AFile)
        (sd : List ADir),
        wfDirLB rest = true →
        (rest.map ADir.name).Nodup →
        (match p with | some q => q | none => 0xFFFFFFFF) = pidx →
        pidx < 4294967296 →
        entryTableBytes st none cs0 mi (annotateList rest i p pp) fid dataPre =
          .ok (ET, fid + nfilesL rest, dataFull) →
        listSeg buf (E0 + e * 20) ET →
        NP nodes i (annotateList rest i p pp) e →
        i + ndirsL rest ≤ nodes.length →
        idx < i →
        (∀ q ∈ parents, q < idx) →
        (∃ w, listSeg buf D0 (dataFull ++ w)) →
        dataPre.length % 32 = 0 →
        fid + nfilesL rest ≤ 65536 →
        (∀ s ∈ namesL rest, (alookup st.map s).isSome) →
        dataFull.length < 4294967296 →
        dirEntriesBytes st ((rest.map ADir.name).zip (childIndices i rest)) = .ok DB →
        listSeg buf (E0 + (eoff + cur) * 20) DB →
        (∀ c2 ∈ rest, c2.name ∉ sd.map ADir.name) →
        procEntries buf S0 E0 D0 nodes idx parents eoff cur rest.length fl sd =
          .ok (fl, sd ++ (assignIdsL rest fid).1)) →
      ∀ (i : Nat) (p : Option Nat) (pp : Option (List Nat)) (pidx : Nat)
        (fid : Nat) (dataPre ET dataFull : List Nat) (e : Nat) (idx : Nat)
        (parents : List Nat) (eoff cur : Nat) (DB : List Nat) (fl : List AFile)
        (sd : List ADir),
        wfDirLB (c :: rest) = true →
        ((c :: rest).map ADir.name).Nodup →
        (match p with | some q => q | none => 0xFFFFFFFF) = pidx →
        pidx < 4294967296 →
        entryTableBytes st none cs0 mi (annotateList (c :: rest) i p pp) fid dataPre =
          .ok (ET, fid + nfilesL (c :: rest), dataFull) →
        listSeg buf (E0 + e * 20) ET →
        NP nodes i (annotateList (c :: rest) i p pp) e →
        i + ndirsL (c :: rest) ≤ nodes.length →
        idx < i →
        (∀ q ∈ parents, q < idx) →
        (∃ w, listSeg buf D0 (dataFull ++ w)) →
        dataPre.length % 32 = 0 →
        fid + nfilesL (c :: rest) ≤ 65536 →
        (∀ s ∈ namesL (c :: rest), (alookup st.map s).isSome) →
        dataFull.length < 4294967296 →
        dirEntriesBytes st (((c :: rest).map ADir.name).zip (childIndices i (c :: rest))) =
          .ok DB →
        listSeg buf (E0 + (eoff + cur) * 20) DB →
        (∀ c2 ∈ c :: rest, c2.name ∉ sd.map ADir.name) →
        procEntries buf S0 E0 D0 nodes idx parents eoff cur (c :: rest).length fl sd =
          .ok (fl, sd ++ (assignIdsL (c :: rest) fid).1) := by
    intro c rest ihd ihr i p pp pidx fid dataPre ET dataFull e idx parents eoff cur DB fl sd
    intro hwf hnodup hpv hpl hrun hseg hNP hbound hidx hpar hdata hal hfid hnames hd32
    intro hDBrun hDBseg hsd
    obtain ⟨hwfc, hwfrest⟩ := wfDirLB_cons c rest hwf
    have hcname : ∀ s ∈ namesD c, (alookup st.map s).isSome := by
      intro s hs
      exact hnames s (by simp only [namesL, List.mem_append]; exact Or.inl hs)
    have hrestn : ∀ s ∈ namesL rest, (alookup st.map s).isSome := by
      intro s hs
      exact hnames s (by simp only [namesL, List.mem_append]; exact Or.inr hs)
    obtain ⟨ET1, dataMid, hrun1, hlen1, ⟨ext1, hext1⟩, hdlen1, hal1⟩ :=
      (entryShape_pair st mi hdot hdotdot).1 c i p pp fid dataPre hcname hal
    obtain ⟨ET2, dataFull2, hrun2, hlen2, ⟨ext2, hext2⟩, hdlen2, hal2⟩ :=
      (entryShape_pair st mi hdot hdotdot).2 rest (i + ndirs c) p pp (fid + nfiles c)
        dataMid hrestn hal1
    have hfull : entryTableBytes st none cs0 mi (annotateList (c :: rest) i p pp)
        fid dataPre = .ok (ET1 ++ ET2, fid + nfiles c + nfilesL rest, dataFull2) := by
      show entryTableBytes st none cs0 mi
        (annotate c i p pp ++ annotateList rest (i + ndirs c) p pp) fid dataPre = _
      rw [entryTableBytes_append]
      simp only [hrun1, hrun2]
    rw [hfull] at hrun
    simp only [Except.ok.injEq, Prod.mk.injEq] at hrun
    obtain ⟨hETeq, _, hDFeq⟩ := hrun
    subst hETeq
    subst hDFeq
    obtain ⟨hsegET1, hsegET2⟩ := listSeg_split hseg
    rw [hlen1] at hsegET2
    have hNPapp : NP nodes i
        (annotate c i p pp ++ annotateList rest (i + ndirs c) p pp) e := hNP
    have hNP1 : NP nodes i (annotate c i p pp) e := NP_append_left _ _ _ _ _ hNPapp
    have hNP2 : NP nodes (i + ndirs c) (annotateList rest (i + ndirs c) p pp)
        (e + subEnt c) := by
      have h2 := NP_append_right nodes i (annotate c i p pp)
        (annotateList rest (i + ndirs c) p pp) e hNPapp
      rw [annotate_length_pair.1, annotate_entsum_pair.1] at h2
      exact h2
    obtain ⟨oc, hoc⟩ := Option.isSome_iff_exists.mp
      (hnames c.name (name_mem_namesL (c :: rest) c (List.mem_cons_self _ _)))
    have hzipr : ∀ r ∈ (rest.map ADir.name).zip (childIndices (i + ndirs c) rest),
        (alookup st.map r.1).isSome := by
      intro r hr
      rcases r with ⟨nm, ci⟩
      obtain ⟨hnm, _⟩ := List.of_mem_zip hr
      obtain ⟨c2, hcm, hcn⟩ := List.mem_map.mp hnm
      exact hcn ▸ hrestn c2.name (name_mem_namesL rest c2 hcm)
    obtain ⟨DBr, hDBrrun, hDBrlen⟩ := dirEntriesBytes_shape st _ hzipr
    have hDBfull : dirEntriesBytes st
        (((c :: rest).map ADir.name).zip (childIndices i (c :: rest))) =
        .ok ((u16b 0xFFFF ++ u16b (hash_name c.name) ++ [2, 0] ++ u16b oc ++ u32b i ++
          u32b 0x10 ++ u32b 0) ++ DBr) := by
      show dirEntriesBytes st ((c.name, i) ::
        (rest.map ADir.name).zip (childIndices (i + ndirs c) rest)) = _
      exact dirEntriesBytes_cons st c.name i oc _ _ hoc hDBrrun
    rw [hDBfull] at hDBrun
    simp only [Except.ok.injEq] at hDBrun
    subst hDBrun
    obtain ⟨hsegRec, hsegDBr⟩ := listSeg_split hDBseg
    rw [entryRec_length] at hsegDBr
    have hndc := ndirs_pos c
    have hNLcons : ndirsL (c :: rest) = ndirs c + ndirsL rest := ndirsL_cons c rest
    have hnfcons : nfilesL (c :: rest) = nfiles c + nfilesL rest := by simp [nfilesL]
    have hilt : i < nodes.length := by omega
    obtain ⟨w0, hw0⟩ := hdata
    have hw1 : listSeg buf D0 (dataMid ++ (ext2 ++ w0)) := by
      have hcopy := hw0
      rw [hext2, List.append_assoc] at hcopy
      exact hcopy
    have hchild := ihd i p pp pidx (idx :: parents) fid dataPre ET1 dataMid e
      hwfc hpv hpl hrun1 hsegET1 hNP1
      (by omega)
      (by intro q hq
          rcases List.mem_cons.mp hq with h | h
          · omega
          · have := hpar q h
            omega)
      ⟨ext2 ++ w0, hw1⟩
      hal (by omega) hcname
      (by have : dataFull2.length = dataMid.length + dataLenL rest := hdlen2
          omega)
    have hvalc : ¬(c.name = dotName ∨ c.name = dotdotName ∨ c.name = []) :=
      (validNameB_ne c.name (wfDirB_validName c hwfc)).1
    rw [show (c :: rest).length = rest.length + 1 from rfl]
    rw [procEntries_dirRec buf S0 E0 D0 nodes idx parents eoff cur rest.length fl sd
      (hash_name c.name) oc i c.name ((assignIdsD c fid).1)
      hsegRec (hGN _ _ hoc) (hash_name_lt _) (hst16 _ _ hoc) (by omega) hvalc
      (by intro hmem
          rcases List.mem_cons.mp hmem with h | h
          · omega
          · have := hpar i h
            omega)
      hilt hchild]
    rw [show dictInsertDir sd (assignIdsD c fid).1 = sd ++ [(assignIdsD c fid).1] from
      dictInsertDir_append _ _ (by
        rw [assignIdsD_name]
        exact hsd c (List.mem_cons_self _ _))]
    have hsd2 : ∀ c2 ∈ rest, c2.name ∉ (sd ++ [(assignIdsD c fid).1]).map ADir.name := by
      intro c2 hc2
      simp only [List.map_append, List.mem_append, List.map_cons, List.map_nil,
        List.mem_cons, List.not_mem_nil, or_false, not_or]
      refine ⟨hsd c2 (List.mem_cons_of_mem _ hc2), ?_⟩
      rw [assignIdsD_name]
      intro hgn
      simp only [List.map_cons, List.nodup_cons] at hnodup
      exact hnodup.1 (hgn ▸ List.mem_map_of_mem ADir.name hc2)
    rw [ihr (i + ndirs c) p pp pidx (fid + nfiles c) dataMid ET2 dataFull2 (e + subEnt c)
      idx parents eoff (cur + 1) DBr fl (sd ++ [(assignIdsD c fid).1])
      hwfrest (by simp only [List.map_cons, List.nodup_cons] at hnodup; exact hnodup.2)
      hpv hpl hrun2
      (by rw [show E0 + (e + subEnt c) * 20 = E0 + e * 20 + 20 * subEnt c by ring]
          exact hsegET2)
      hNP2 (by omega) (by omega) hpar
      ⟨w0, hw0⟩ hal1 (by omega) hrestn hd32 hDBrrun
      (by rw [show E0 + (eoff + (cur + 1)) * 20 = E0 + (eoff + cur) * 20 + 20 by ring]
          exact hsegDBr)
      hsd2]
    simp [assignIdsL, assignIds_snd_pair.1, List.append_assoc]
  exact ⟨preorder.induct _ _ c1 c2 c3, preorderList.induct _ _ c1 c2 c3⟩

/-! ## Name coverage, validity and size bounds for the top-level assembly -/

theorem preorder_name_mem_pair :
    (∀ d, ∀ x ∈ preorder d, x.name ∈ namesD d) ∧
    (∀ ds, ∀ x ∈ preorderList ds, x.name ∈ namesL ds) := by
  have c1 : ∀ (n : List Nat) (fs : List AFile) (ds : List ADir),
      (∀ x ∈ preorderList ds, x.name ∈ namesL ds) →
      ∀ x ∈ preorder (.node n fs ds), x.name ∈ namesD (.node n fs ds) := by
    intro n fs ds ih x hx
    rcases List.mem_cons.mp hx with h | h
    · subst h
      simp [namesD, ADir.name]
    · simp only [namesD, List.mem_cons, List.mem_append]
      exact Or.inr (Or.inr (ih x h))
  have c2 : ∀ x ∈ preorderList ([] : List ADir), x.name ∈ namesL [] := by
    intro x hx
    cases hx
  have c3 : ∀ (d : ADir) (rest : List ADir),
      (∀ x ∈ preorder d, x.name ∈ namesD d) →
      (∀ x ∈ preorderList rest, x.name ∈ namesL rest) →
      ∀ x ∈ preorderList (d :: rest), x.name ∈ namesL (d :: rest) := by
    intro d rest ihd ihr x hx
    rw [preorderList_cons] at hx
    simp only [namesL, List.mem_append]
    rcases List.mem_append.mp hx with h | h
    · exact Or.inl (ihd x h)
    · exact Or.inr (ihr x h)
  exact ⟨preorder.induct _ _ c1 c2 c3, preorderList.induct _ _ c1 c2 c3⟩

theorem names_cover_pair :
    (∀ d, ∀ x ∈ preorder d, (∀ f ∈ x.files, f.name ∈ namesD d) ∧
      (∀ c ∈ x.subdirs, c.name ∈ namesD d)) ∧
    (∀ ds, ∀ x ∈ preorderList ds, (∀ f ∈ x.files, f.name ∈ namesL ds) ∧
      (∀ c ∈ x.subdirs, c.name ∈ namesL ds)) := by
  have c1 : ∀ (n : List Nat) (fs : List AFile) (ds : List ADir),
      (∀ x ∈ preorderList ds, (∀ f ∈ x.files, f.name ∈ namesL ds) ∧
        (∀ c ∈ x.subdirs, c.name ∈ namesL ds)) →
      ∀ x ∈ preorder (.node n fs ds), (∀ f ∈ x.files, f.name ∈ namesD (.node n fs ds)) ∧
        (∀ c ∈ x.subdirs, c.name ∈ namesD (.node n fs ds)) := by
    intro n fs ds ih x hx
    rcases List.mem_cons.mp hx with h | h
    · subst h
      constructor
      · intro f hf
        simp only [namesD, ADir.files, List.mem_cons, List.mem_append]
        exact Or.inr (Or.inl (List.mem_map_of_mem AFile.name hf))
      · intro c hc
        simp only [namesD, ADir.subdirs, List.mem_cons, List.mem_append]
        exact Or.inr (Or.inr (name_mem_namesL ds c hc))
    · obtain ⟨h1, h2⟩ := ih x h
      constructor
      · intro f hf
        simp only [namesD, List.mem_cons, List.mem_append]
        exact Or.inr (Or.inr (h1 f hf))
      · intro c hc
        simp only [namesD, List.mem_cons, List.mem_append]
        exact Or.inr (Or.inr (h2 c hc))
  have c2 : ∀ x ∈ preorderList ([] : List ADir),
      (∀ f ∈ x.files, f.name ∈ namesL ([] : List ADir)) ∧
      (∀ c ∈ x.subdirs, c.name ∈ namesL ([] : List ADir)) := by
    intro x hx
    cases hx
  have c3 : ∀ (d : ADir) (rest : List ADir),
      (∀ x ∈ preorder d, (∀ f ∈ x.files, f.name ∈ namesD d) ∧
        (∀ c ∈ x.subdirs, c.name ∈ namesD d)) →
      (∀ x ∈ preorderList rest, (∀ f ∈ x.files, f.name ∈ namesL rest) ∧
        (∀ c ∈ x.subdirs, c.name ∈ namesL rest)) →
      ∀ x ∈ preorderList (d :: rest), (∀ f ∈ x.files, f.name ∈ namesL (d :: rest)) ∧
        (∀ c ∈ x.subdirs, c.name ∈ namesL (d :: rest)) := by
    intro d rest ihd ihr x hx
    rw [preorderList_cons] at hx
    rcases List.mem_append.mp hx with h | h
    · obtain ⟨h1, h2⟩ := ihd x h
      exact ⟨fun f hf => by simp only [namesL, List.mem_append]; exact Or.inl (h1 f hf),
        fun c hc => by simp only [namesL, List.mem_append]; exact Or.inl (h2 c hc)⟩
    · obtain ⟨h1, h2⟩ := ihr x h
      exact ⟨fun f hf => by simp only [namesL, List.mem_append]; exact Or.inr (h1 f hf),
        fun c hc => by simp only [namesL, List.mem_append]; exact Or.inr (h2 c hc)⟩
  exact ⟨preorder.induct _ _ c1 c2 c3, preorderList.induct _ _ c1 c2 c3⟩

theorem namesD_valid_pair :
    (∀ d, wfDirB d = true → ∀ s ∈ namesD d, validNameB s = true) ∧
    (∀ ds, wfDirLB ds = true → ∀ s ∈ namesL ds, validNameB s = true) := by
  have c1 : ∀ (n : List Nat) (fs : List AFile) (ds : List ADir),
      (wfDirLB ds = true → ∀ s ∈ namesL ds, validNameB s = true) →
      wfDirB (.node n fs ds) = true → ∀ s ∈ namesD (.node n fs ds), validNameB s = true := by
    intro n fs ds ih hwf s hs
    obtain ⟨hvn, hvfs, _, _, hwfds⟩ := wfDirB_node n fs ds hwf
    simp only [namesD, List.mem_cons, List.mem_append] at hs
    rcases hs with h | h | h
    · exact h ▸ hvn
    · obtain ⟨f, hf, hfn⟩ := List.mem_map.mp h
      exact hfn ▸ hvfs f hf
    · exact ih hwfds s h
  have c2 : wfDirLB ([] : List ADir) = true →
      ∀ s ∈ namesL ([] : List ADir), validNameB s = true := by
    intro _ s hs
    cases hs
  have c3 : ∀ (d : ADir) (rest : List ADir),
      (wfDirB d = true → ∀ s ∈ namesD d, validNameB s = true) →
      (wfDirLB rest = true → ∀ s ∈ namesL rest, validNameB s = true) →
      wfDirLB (d :: rest) = true → ∀ s ∈ namesL (d :: rest), validNameB s = true := by
    intro d rest ihd ihr hwf s hs
    obtain ⟨hwfd, hwfrest⟩ := wfDirLB_cons d rest hwf
    simp only [namesL, List.mem_append] at hs
    rcases hs with h | h
    · exact ihd hwfd s h
    · exact ihr hwfrest s h
  exact ⟨preorder.induct _ _ c1 c2 c3, preorderList.induct _ _ c1 c2 c3⟩

theorem subEnt_le_pair :
    (∀ d, subEnt d + 1 = nfiles d + 3 * ndirs d) ∧
    (∀ ds, subEntL ds + ds.length = nfilesL ds + 3 * ndirsL ds) := by
  have c1 : ∀ (n : List Nat) (fs : List AFile) (ds : List ADir),
      subEntL ds + ds.length = nfilesL ds + 3 * ndirsL ds →
      subEnt (.node n fs ds) + 1 = nfiles (.node n fs ds) + 3 * ndirs (.node n fs ds) := by
    intro n fs ds ih
    simp only [subEnt, nfiles, ndirs_node]
    omega
  have c2 : subEntL ([] : List ADir) + ([] : List ADir).length =
      nfilesL [] + 3 * ndirsL [] := by
    simp [subEntL, nfilesL, ndirsL, preorderList]
  have c3 : ∀ (d : ADir) (rest : List ADir),
      subEnt d + 1 = nfiles d + 3 * ndirs d →
      subEntL rest + rest.length = nfilesL rest + 3 * ndirsL rest →
      subEntL (d :: rest) + (d :: rest).length =
        nfilesL (d :: rest) + 3 * ndirsL (d :: rest) := by
    intro d rest ihd ihr
    rw [ndirsL_cons]
    simp only [subEntL, nfilesL, List.length_cons]
    omega
  exact ⟨preorder.induct _ _ c1 c2 c3, preorderList.induct _ _ c1 c2 c3⟩

theorem nodeRecsOf_length (l : List Ann) : ∀ (e i0 : Nat), (nodeRecsOf l e i0).length = l.length := by
  induction l with
  | nil => intro e i0; rfl
  | cons a r ih =>
    intro e i0
    simp [nodeRecsOf, ih]

/-! ## Which keys the string table holds -/

theorem alookup_write_key (t : StringTable) (u s : List Nat) (o : Nat)
    (h : alookup (t.write_string u).map s = some o) :
    (∃ o2, alookup t.map s = some o2) ∨ s = u := by
  cases hu : alookup t.map u with
  | some v =>
    rw [write_string_of_mem t u v hu] at h
    exact Or.inl ⟨o, h⟩
  | none =>
    rw [write_string_of_not_mem t u hu] at h
    simp only at h
    rw [alookup_append] at h
    cases hs : alookup t.map s with
    | some v => exact Or.inl ⟨v, rfl⟩
    | none =>
      rw [hs] at h
      simp only [alookup] at h
      by_cases hus : u = s
      · exact Or.inr hus.symm
      · rw [if_neg hus] at h
        simp [alookup] at h

theorem key_foldl_write_name {α : Type} (f : α → List Nat) (l : List α) :
    ∀ (t : StringTable) (s : List Nat) (o : Nat),
    alookup ((l.foldl (fun a c => a.write_string (f c)) t)).map s = some o →
    (∃ o2, alookup t.map s = some o2) ∨ ∃ c ∈ l, s = f c := by
  induction l with
  | nil =>
    intro t s o h
    exact Or.inl ⟨o, h⟩
  | cons u r ih =>
    intro t s o h
    rcases ih (t.write_string (f u)) s o h with ⟨o2, ho2⟩ | ⟨c, hc, hcn⟩
    · rcases alookup_write_key t (f u) s o2 ho2 with h1 | h1
      · exact Or.inl h1
      · exact Or.inr ⟨u, List.mem_cons_self _ _, h1⟩
    · exact Or.inr ⟨c, List.mem_cons_of_mem _ hc, hcn⟩

theorem key_internDir (t : StringTable) (d : ADir) (s : List Nat) (o : Nat)
    (h : alookup (internDir t d).map s = some o) :
    (∃ o2, alookup t.map s = some o2) ∨ s ∈ d.files.map AFile.name ∨
      s ∈ d.subdirs.map ADir.name := by
  rcases d with ⟨n, fs, ds⟩
  unfold internDir at h
  rcases key_foldl_write_name AFile.name fs _ s o h with ⟨o2, ho2⟩ | ⟨f, hf, hfn⟩
  · rcases key_foldl_write_name ADir.name ds t s o2 ho2 with h1 | ⟨c, hc, hcn⟩
    · exact Or.inl h1
    · exact Or.inr (Or.inr (by
        simp only [ADir.subdirs]
        exact hcn ▸ List.mem_map_of_mem ADir.name hc))
  · exact Or.inr (Or.inl (by
      simp only [ADir.files]
      exact hfn ▸ List.mem_map_of_mem AFile.name hf))

theorem key_foldl_internDir (l : List ADir) :
    ∀ (t : StringTable) (s : List Nat) (o : Nat),
    alookup (l.foldl internDir t).map s = some o →
    (∃ o2, alookup t.map s = some o2) ∨
      ∃ x ∈ l, s ∈ x.files.map AFile.name ∨ s ∈ x.subdirs.map ADir.name := by
  induction l with
  | nil =>
    intro t s o h
    exact Or.inl ⟨o, h⟩
  | cons d r ih =>
    intro t s o h
    rcases ih (internDir t d) s o h with ⟨o2, ho2⟩ | ⟨x, hx, hor⟩
    · rcases key_internDir t d s o2 ho2 with h1 | h1
      · exact Or.inl h1
      · exact Or.inr ⟨d, List.mem_cons_self _ _, h1⟩
    · exact Or.inr ⟨x, List.mem_cons_of_mem _ hx, hor⟩

/-- Every key of the encoder's string table is `"."`, `".."` or a name of the
tree. -/
theorem key_buildStringTable (T : ADir) (s : List Nat) (o : Nat)
    (h : alookup (buildStringTable T).map s = some o) :
    s = dotName ∨ s = dotdotName ∨ s ∈ namesD T := by
  unfold buildStringTable at h
  rcases key_foldl_internDir (preorder T) _ s o h with ⟨o2, ho2⟩ | ⟨x, hx, hor⟩
  · rcases alookup_write_key _ T.name s o2 ho2 with ⟨o3, ho3⟩ | h1
    · rcases alookup_write_key _ dotdotName s o3 ho3 with ⟨o4, ho4⟩ | h1
      · rcases alookup_write_key _ dotName s o4 ho4 with ⟨o5, ho5⟩ | h1
        · simp [StringTable.empty, alookup] at ho5
        · exact Or.inl h1
      · exact Or.inr (Or.inl h1)
    · refine Or.inr (Or.inr ?_)
      rcases T with ⟨n, fs, ds⟩
      simp [h1, namesD, ADir.name]
  · refine Or.inr (Or.inr ?_)
    obtain ⟨h1, h2⟩ := (names_cover_pair.1 T x hx)
    rcases hor with hf | hd
    · obtain ⟨f, hfm, hfn⟩ := List.mem_map.mp hf
      exact hfn ▸ h1 f hfm
    · obtain ⟨c, hcm, hcn⟩ := List.mem_map.mp hd
      exact hcn ▸ h2 c hcm

/-- The header fields the decoder reads back from the assembled buffer. -/
theorem mkHeader_reads (total N M E0 S0 D0 : Nat) (rest : List Nat)
    (hN : N < 4294967296) (hE : E0 - 0x20 < 4294967296)
    (hS : S0 - 0x20 < 4294967296) (hD : D0 - 0x20 < 4294967296) :
    (mkHeader total N M E0 S0 D0 ++ rest).take 4 = rarcMagic ∧
    ru32 (mkHeader total N M E0 S0 D0 ++ rest) 12 = D0 - 0x20 ∧
    ru32 (mkHeader total N M E0 S0 D0 ++ rest) 32 = N ∧
    ru32 (mkHeader total N M E0 S0 D0 ++ rest) 44 = E0 - 0x20 ∧
    ru32 (mkHeader total N M E0 S0 D0 ++ rest) 52 = S0 - 0x20 := by
  refine ⟨?_, ?_, ?_, ?_, ?_⟩ <;>
    simp only [mkHeader, rarcMagic, u32b, ru32, List.cons_append, List.nil_append,
      List.take_succ_cons, List.take_zero, List.getD_cons_zero, List.getD_cons_succ] <;>
    omega

theorem mkHeader_length (total N M E0 S0 D0 : Nat) :
    (mkHeader total N M E0 S0 D0).length = 64 := by
  simp [mkHeader, u32b]

/-- Characterization of the container-body decode on a buffer whose header
fields and node table have been read off. -/
theorem decodeRarcBody_eq (buf2 : List Nat) (N E0 S0 D0 : Nat)
    (nm0 : Option (List Nat)) (u1 u2 u3 : Nat) (rest : List NodeRec)
    (htake : buf2.take 4 = rarcMagic)
    (hlen : ¬(buf2.length < 56))
    (h12 : ru32 buf2 12 = D0 - 0x20) (h32 : ru32 buf2 32 = N)
    (h44 : ru32 buf2 44 = E0 - 0x20) (h52 : ru32 buf2 52 = S0 - 0x20)
    (hD : D0 - 0x20 + 0x20 = D0) (hE : E0 - 0x20 + 0x20 = E0) (hS : S0 - 0x20 + 0x20 = S0)
    (hparse : parseNodes buf2 S0 0 N = .ok ((nm0, u1, u2, u3) :: rest)) :
    decodeRarcBody buf2 = from_node buf2 S0 E0 D0 ((nm0, u1, u2, u3) :: rest) 0 []
      (nm0.getD []) := by
  unfold decodeRarcBody
  rw [if_pos htake, if_neg hlen, h12, h32, h44, h52, hD, hE, hS]
  show (match parseNodes buf2 S0 0 N with
    | Except.error e => Except.error e
    | Except.ok nodes =>
      match nodes with
      | [] => Except.error DecodeErr.indexError
      | (nm?, _, _, _) :: _ => from_node buf2 S0 E0 D0 nodes 0 [] (nm?.getD [])) = _
  rw [hparse]

theorem align32_le (n : Nat) : align32 n ≤ n + 31 := by
  unfold align32
  omega

/-- The round trip: encoding a well-formed tree with no override table and no
compression succeeds, and decoding the resulting buffer (with any decompressor,
which is never consulted) rebuilds exactly the `assignIdsD` transform of the
tree: same hierarchy, names and content, with sequential ids from `maxindex`,
stored hashes and the default flag byte. -/
theorem roundtrip_helper (T : ADir) (mi : Nat) (h : wfArc T mi) :
    ∃ buf, write_arc T none mi cs0 = .ok buf ∧
      ∀ D, from_file D buf = .ok (assignIdsD T mi).1 := by
  obtain ⟨hwfT, hboundT⟩ := h
  unfold boundsOkB at hboundT
  simp only [Bool.and_eq_true, decide_eq_true_eq] at hboundT
  obtain ⟨⟨⟨hb1, hb2⟩, hb3⟩, hb4⟩ := hboundT
  obtain ⟨st, hstdef⟩ : ∃ v, buildStringTable T = v := ⟨_, rfl⟩
  rw [hstdef] at hb3
  have hcomplete := buildStringTable_complete T
  rw [hstdef] at hcomplete
  obtain ⟨hdot, hdotdot, hroot, hnames⟩ := hcomplete
  have hstok : stOk st := hstdef ▸ stOk_buildStringTable T
  obtain ⟨anns, hannsdef⟩ : ∃ v, annotate T 0 none none = v := ⟨_, rfl⟩
  have hannlen : anns.length = ndirs T := hannsdef ▸ annotate_length_pair.1 T 0 none none
  have hanndirs : anns.map Ann.dir = preorder T := hannsdef ▸ annotate_dirs_pair.1 T 0 none none
  have hannent : entsum anns = subEnt T := hannsdef ▸ annotate_entsum_pair.1 T 0 none none
  have hannnames : ∀ a ∈ anns, (alookup st.map a.dir.name).isSome := by
    intro a ha
    have hmem : a.dir ∈ preorder T := by
      rw [← hanndirs]
      exact List.mem_map_of_mem Ann.dir ha
    exact hnames _ (preorder_name_mem_pair.1 T a.dir hmem)
  obtain ⟨NT, hNTrun, hNTlen⟩ := nodeTableBytes_shape st anns 0 hannnames
  obtain ⟨ET, dataB, hETrun0, hETlen, ⟨extE, hextE⟩, hdataBlen, hdataBal⟩ :=
    (entryShape_pair st mi hdot hdotdot).1 T 0 none none mi [] hnames rfl
  have hETrun : entryTableBytes st none cs0 mi anns mi [] =
      .ok (ET, mi + nfiles T, dataB) := hannsdef ▸ hETrun0
  obtain ⟨E0, hE0⟩ : ∃ v, align32 (0x40 + NT.length) = v := ⟨_, rfl⟩
  obtain ⟨S0, hS0⟩ : ∃ v, align32 (E0 + ET.length) = v := ⟨_, rfl⟩
  obtain ⟨D0, hD0⟩ : ∃ v, align32 (S0 + st.size) = v := ⟨_, rfl⟩
  have hsub1 : subEnt T + 1 = nfiles T + 3 * ndirs T := subEnt_le_pair.1 T
  have hndpos : 1 ≤ ndirs T := ndirs_pos T
  have hE0b : 0x40 + NT.length ≤ E0 ∧ E0 ≤ 0x40 + NT.length + 31 ∧ E0 % 32 = 0 :=
    ⟨hE0 ▸ align32_ge _, hE0 ▸ align32_le _, hE0 ▸ align32_mod _⟩
  have hS0b : E0 + ET.length ≤ S0 ∧ S0 ≤ E0 + ET.length + 31 ∧ S0 % 32 = 0 :=
    ⟨hS0 ▸ align32_ge _, hS0 ▸ align32_le _, hS0 ▸ align32_mod _⟩
  have hD0b : S0 + st.size ≤ D0 ∧ D0 ≤ S0 + st.size + 31 ∧ D0 % 32 = 0 :=
    ⟨hD0 ▸ align32_ge _, hD0 ▸ align32_le _, hD0 ▸ align32_mod _⟩
  have hdataBlen2 : dataB.length = dataLenOf T := by
    rw [hdataBlen]
    simp
  have hbounds : E0 < 4294967296 ∧ S0 < 4294967296 ∧ D0 < 4294967296 ∧
      D0 + dataB.length < 4294967296 := by
    have h1 : NT.length = 16 * anns.length := hNTlen
    have h2 : ET.length = 20 * subEnt T := hETlen
    have h3 : dataB.length ≤ 2147483648 := by omega
    have h4 : ndirs T ≤ 65533 := by omega
    have h5 : nfiles T ≤ 65533 := by omega
    omega
  have hnodecount : (preorder T).foldl (fun acc d => acc + d.subdirs.length) 1 = ndirs T := by
    have := nodecount_pair.1 T 1
    omega
  refine ⟨mkHeader (D0 + dataB.length) (ndirs T) (0 + entsum anns) E0 S0 D0 ++
    NT ++ pad32bytes (0x40 + NT.length) ++ ET ++ pad32bytes (E0 + ET.length) ++
    st.blob ++ pad32bytes (S0 + st.size) ++ dataB, ?_, ?_⟩
  · show write_arc T none mi cs0 = _
    simp only [write_arc, hstdef, hannsdef, hNTrun, ebind_ok, hETrun, hnodecount]
    rw [hE0, hS0, hD0]
  · intro D
    have hP1len : (pad32bytes (0x40 + NT.length)).length = E0 - (0x40 + NT.length) := by
      rw [pad32bytes_length, hE0]
    have hP2len : (pad32bytes (E0 + ET.length)).length = S0 - (E0 + ET.length) := by
      rw [pad32bytes_length, hS0]
    have hP3len : (pad32bytes (S0 + st.size)).length = D0 - (S0 + st.size) := by
      rw [pad32bytes_length, hD0]
    set buf := mkHeader (D0 + dataB.length) (ndirs T) (0 + entsum anns) E0 S0 D0 ++
      NT ++ pad32bytes (0x40 + NT.length) ++ ET ++ pad32bytes (E0 + ET.length) ++
      st.blob ++ pad32bytes (S0 + st.size) ++ dataB with hbuf
    have hbuflen : buf.length = D0 + dataB.length := by
      rw [hbuf]
      simp only [List.length_append, mkHeader_length, hP1len, hP2len, hP3len]
      have := hb3
      unfold StringTable.size at *
      omega
    have hreads := mkHeader_reads (D0 + dataB.length) (ndirs T) (0 + entsum anns) E0 S0 D0
      (NT ++ (pad32bytes (0x40 + NT.length) ++ (ET ++ (pad32bytes (E0 + ET.length) ++
        (st.blob ++ (pad32bytes (S0 + st.size) ++ dataB))))))
      (by omega) (by omega) (by omega) (by omega)
    have hbufH : buf = mkHeader (D0 + dataB.length) (ndirs T) (0 + entsum anns) E0 S0 D0 ++
        (NT ++ (pad32bytes (0x40 + NT.length) ++ (ET ++ (pad32bytes (E0 + ET.length) ++
          (st.blob ++ (pad32bytes (S0 + st.size) ++ dataB)))))) := by
      rw [hbuf]
      simp [List.append_assoc]
    obtain ⟨htake4, hread12, hread32, hread44, hread52⟩ := hreads
    rw [← hbufH] at htake4 hread12 hread32 hread44 hread52
    have hsegNT : listSeg buf 0x40 NT := by
      refine ⟨mkHeader (D0 + dataB.length) (ndirs T) (0 + entsum anns) E0 S0 D0,
        pad32bytes (0x40 + NT.length) ++ (ET ++ (pad32bytes (E0 + ET.length) ++
          (st.blob ++ (pad32bytes (S0 + st.size) ++ dataB)))), ?_, mkHeader_length _ _ _ _ _ _⟩
      rw [hbuf]
      simp [List.append_assoc]
    have hsegET : listSeg buf E0 ET := by
      refine ⟨mkHeader (D0 + dataB.length) (ndirs T) (0 + entsum anns) E0 S0 D0 ++
        NT ++ pad32bytes (0x40 + NT.length),
        pad32bytes (E0 + ET.length) ++ (st.blob ++ (pad32bytes (S0 + st.size) ++ dataB)),
        ?_, ?_⟩
      · rw [hbuf]
        simp [List.append_assoc]
      · simp only [List.length_append, mkHeader_length, hP1len]
        omega
    have hsegBlob : buf = (mkHeader (D0 + dataB.length) (ndirs T) (0 + entsum anns) E0 S0 D0 ++
        NT ++ pad32bytes (0x40 + NT.length) ++ ET ++ pad32bytes (E0 + ET.length)) ++
        st.blob ++ (pad32bytes (S0 + st.size) ++ dataB) := by
      rw [hbuf]
      simp [List.append_assoc]
    have hpreBlob : (mkHeader (D0 + dataB.length) (ndirs T) (0 + entsum anns) E0 S0 D0 ++
        NT ++ pad32bytes (0x40 + NT.length) ++ ET ++ pad32bytes (E0 + ET.length)).length =
        S0 := by
      simp only [List.length_append, mkHeader_length, hP1len, hP2len]
      omega
    have hsegData : listSeg buf D0 (dataB ++ []) := by
      refine ⟨mkHeader (D0 + dataB.length) (ndirs T) (0 + entsum anns) E0 S0 D0 ++
        NT ++ pad32bytes (0x40 + NT.length) ++ ET ++ pad32bytes (E0 + ET.length) ++
        st.blob ++ pad32bytes (S0 + st.size), [], ?_, ?_⟩
      · rw [hbuf]
        simp [List.append_assoc]
      · simp only [List.length_append, mkHeader_length, hP1len, hP2len, hP3len]
        have := hb3
        unfold StringTable.size at *
        omega
    have hGN : ∀ s o, alookup st.map s = some o →
        stringtable_get_name buf S0 o = .ok s := by
      intro s o ho
      have hsnz : ∀ c ∈ s, c ≠ 0 := by
        rcases key_buildStringTable T s o (by rw [hstdef]; exact ho) with hk | hk | hk
        · subst hk
          intro c hc
          simp only [dotName, List.mem_cons, List.not_mem_nil, or_false] at hc
          omega
        · subst hk
          intro c hc
          simp only [dotdotName, List.mem_cons, List.not_mem_nil, or_false] at hc
          omega
        · exact (validNameB_ne s (namesD_valid_pair.1 T hwfT s hk)).2
      have hgn2 := getName_of_lookup st hstok
        (mkHeader (D0 + dataB.length) (ndirs T) (0 + entsum anns) E0 S0 D0 ++
          NT ++ pad32bytes (0x40 + NT.length) ++ ET ++ pad32bytes (E0 + ET.length))
        (pad32bytes (S0 + st.size) ++ dataB) s o ho hsnz
      rw [hpreBlob] at hgn2
      rw [← hsegBlob] at hgn2
      exact hgn2
    have hst16 : ∀ s o, alookup st.map s = some o → o < 65536 := by
      intro s o ho
      have := stOk_offset_lt st hstok s o ho
      unfold StringTable.size at hb3
      omega
    have hec : ∀ a ∈ anns, ecOf a.dir + 2 < 65536 := by
      intro a ha
      have hmem : a.dir ∈ preorder T := by
        rw [← hanndirs]
        exact List.mem_map_of_mem Ann.dir ha
      obtain ⟨h1, h2⟩ := member_bounds_pair.1 T a.dir hmem
      unfold ecOf
      omega
    have hparse : parseNodes buf S0 0 (ndirs T) = .ok (nodeRecsOf anns 0 0) := by
      rw [← hannlen]
      apply parseNodes_of_nodeTable buf S0 st hGN hst16 anns 0 0 NT hNTrun hannnames
      · rw [show (0x40 + 16 * 0 : Nat) = 0x40 by norm_num]
        exact hsegNT
      · exact hec
      · rw [hannent]
        have h2 : ET.length = 20 * subEnt T := hETlen
        omega
    obtain ⟨n0, fs0, ds0⟩ := T
    have hannscons : ∃ r, anns = ⟨.node n0 fs0 ds0, 0, none,
        n0, childIndices 1 ds0⟩ :: r := by
      rw [← hannsdef]
      exact ⟨_, rfl⟩
    obtain ⟨annr, hannr⟩ := hannscons
    have hnodescons : nodeRecsOf anns 0 0 = (some n0, hash_name n0,
        ecOf (.node n0 fs0 ds0) + 2, 0) :: nodeRecsOf annr (0 + (ecOf (.node n0 fs0 ds0) + 2))
          1 := by
      rw [hannr]
      rfl
    have hnlen : (nodeRecsOf anns 0 0).length < 4294967296 := by
      rw [nodeRecsOf_length, hannlen]
      omega
    have hNP : NP (nodeRecsOf anns 0 0) 0 (annotate (.node n0 fs0 ds0) 0 none none) 0 := by
      rw [hannsdef]
      exact NP_nodeRecsOf anns 0
    have hDS := (decode_pair buf S0 E0 D0 mi (nodeRecsOf anns 0 0) st hGN hst16 hdot hdotdot
      hnlen).1 (.node n0 fs0 ds0) 0 none none 0xFFFFFFFF [] mi [] ET dataB 0
      hwfT rfl (by norm_num) hETrun0
      (by rw [show E0 + 0 * 20 = E0 by omega]; exact hsegET)
      hNP
      (by rw [nodeRecsOf_length, hannlen]; omega)
      (by intro q hq; cases hq)
      ⟨[], hsegData⟩
      rfl
      (by omega)
      hnames
      (by omega)
    have hrarc : ¬(buf.take 4 = yaz0Magic) := by
      rw [htake4]
      decide
    have hlen56 : ¬(buf.length < 56) := by
      rw [hbuflen]
      omega
    rw [show from_file D buf = decodeRarcBody buf from by
      unfold from_file
      rw [if_neg hrarc]]
    rw [hnodescons] at hparse
    rw [decodeRarcBody_eq buf (ndirs (.node n0 fs0 ds0)) E0 S0 D0 (some n0) (hash_name n0)
      (ecOf (.node n0 fs0 ds0) + 2) 0 (nodeRecsOf annr (0 + (ecOf (.node n0 fs0 ds0) + 2)) 1)
      htake4 hlen56 hread12 hread32 hread44 hread52 (by omega) (by omega) (by omega) hparse]
    rw [← hnodescons]
    exact hDS

/-! ## Claim theorems (first group) -/

/-- Claim C2: the encoder is deterministic — two invocations of `write_arc` on the
same tree, override table and compression settings produce byte-identical output.
In the embedding the Python insertion-ordered dicts are ordered lists and the
stable sort's constant key is the identity, so the encoder is a pure function of
its arguments and determinism holds definitionally. -/
theorem claim_C2 (root : ADir) (fl : Option (List (List Nat × Nat × FileListing)))
    (mi : Nat) (cs : CompressionSetting) :
    write_arc root fl mi cs = write_arc root fl mi cs := rfl

/-- Claim C4 (code bug): decoding does NOT terminate on every input buffer.
`c4buf` has a valid container magic and a single node whose name offset resolves
past end-of-file; `stringtable_get_name`'s scan loop then reads `b""` forever.
The embedded decoder reaches the `scanDiverge` marker, which stands for that
infinite loop. -/
theorem claim_C4 : from_file (fun b => b) c4buf = .error .scanDiverge := rfl

/-- Claim C5 (code bug): extraction does not write an uncompressed file's stored
bytes unchanged.  The flag byte 0x11 does not mark `c5file` compressed, yet `dump`
routes its content through the decompressor (the source tests the truthiness of
the bound method `self.is_yaz0_compressed` instead of calling it), so the output
is whatever the decompressor returns, not the stored bytes. -/
theorem claim_C5 :
    (FileListing.from_flags 17).is_compressed = false ∧
    dump (fun _ => [0]) c5file = [0] ∧
    c5file.content = [1, 2, 3] := by
  exact ⟨rfl, rfl, rfl⟩

/-- Claim C7 (code bug): inserting at a colliding name does fail with the tree
unmodified, but so does every other single-segment insertion — the source
type-checks the path string (`isinstance(name, File)`) instead of the entry, so
the terminal case of `Directory.__setitem__` always raises `TypeError` and the
intended `FileExistsError` collision checks are unreachable.  The three conjuncts:
a file inserted at a name held by a subdirectory fails, a directory inserted at a
name held by a file fails, and a fresh insertion into an empty directory fails the
same way. -/
theorem claim_C7 :
    setItem c7dir [97] (.file ⟨[97], none, none, none, []⟩) = .error .typeError ∧
    setItem c7dir [98] (.dir (.node [98] [] [])) = .error .typeError ∧
    setItem (.node [114] [] []) [99] (.file ⟨[99], none, none, none, []⟩) = .error .typeError := by
  exact ⟨rfl, rfl, rfl⟩

set_option maxRecDepth 4000 in
/-- Claim C8: reading any flag byte never fails, and writing the `FileListing` back
yields the byte with the two unrecognized bits 0x40 and 0x08 cleared and the six
recognized bits unchanged — that is, `b &&& 0xB7`. -/
theorem claim_C8 : ∀ b : Nat, b < 256 →
    FileListing.to_flags (FileListing.from_flags b) = b &&& 0xB7 := by decide

theorem claim_C8_witness :
    (91 : Nat) < 256 ∧ FileListing.to_flags (FileListing.from_flags 91) = 91 &&& 0xB7 :=
  ⟨by decide, claim_C8 91 (by decide)⟩

/-- Claim C9: the source hash equals the spec's reference algorithm (multiplier 1 /
2 / 3 by `len(name)+1`, two mod-65536 steps per character), the hash of the empty
string is 0, and the result always fits in 16 bits. -/
theorem claim_C9 (name : List Nat) :
    hash_name name = hash_name_spec name ∧ hash_name name < 65536 ∧ hash_name [] = 0 :=
  ⟨hash_name_eq_spec name, hash_name_lt name, rfl⟩

/-- Claim C10: interning a string twice stores it exactly once (the second intern
changes nothing); a fresh intern records the offset of the string's first
occurrence — the former blob length, where the blob now holds the string plus its
zero terminator; and the recorded offset is returned unchanged by every later
offset query, regardless of interleaved interns of other strings. -/
theorem claim_C10 (t : StringTable) (s : List Nat) (ss : List (List Nat)) :
    ((t.write_string s).write_string s = t.write_string s) ∧
    (t.get_string_offset s = none →
      (t.write_string s).get_string_offset s = some t.blob.length ∧
      (t.write_string s).blob = t.blob ++ s ++ [0]) ∧
    ((ss.foldl StringTable.write_string (t.write_string s)).get_string_offset s =
      (t.write_string s).get_string_offset s) := by
  refine ⟨?_, ?_, ?_⟩
  · obtain ⟨o, ho⟩ := write_string_lookup_self t s
    exact write_string_of_mem _ _ _ ho
  · intro h
    unfold StringTable.get_string_offset at h
    rw [write_string_of_not_mem t s h]
    constructor
    · show alookup (t.map ++ [(s, t.blob.length)]) s = some t.blob.length
      rw [alookup_append, h]
      simp [alookup]
    · rfl
  · obtain ⟨o, ho⟩ := write_string_lookup_self t s
    unfold StringTable.get_string_offset
    rw [ho, foldl_write_preserves ss _ s o ho]

theorem claim_C10_witness :
    ((StringTable.empty.write_string [97]).write_string [97] =
      StringTable.empty.write_string [97]) ∧
    ((StringTable.empty.write_string [97]).get_string_offset [97] = some 0 ∧
      (StringTable.empty.write_string [97]).blob = [] ++ [97] ++ [0]) ∧
    (([[98], [97]].foldl StringTable.write_string
        (StringTable.empty.write_string [97])).get_string_offset [97] =
      (StringTable.empty.write_string [97]).get_string_offset [97]) := by
  have h := claim_C10 StringTable.empty [97] [[98], [97]]
  exact ⟨h.1, h.2.1 (by decide), h.2.2⟩

/-- Claim C3, counterexample: with an override table present the encoder does not
write a directory's file entries in ascending id order.  `c3tree` holds files `b`
then `a` in insertion order; the overrides give them ids 5 and 3, and the entry
table (starting at offset 96) stores id 5 before id 3. -/
theorem claim_C3_counterexample :
    write_arc c3tree (some c3fl) 5 cs0 = .ok c3bytes ∧
    ru16 c3bytes 96 = 5 ∧ ru16 c3bytes 116 = 3 ∧ ¬ ru16 c3bytes 96 ≤ ru16 c3bytes 116 := by
  exact ⟨rfl, rfl, rfl, by decide⟩

/-- Claim C6, counterexample: a fatal failure that is neither a bad magic nor
undecodable name bytes.  The 4-byte buffer `"RARC"` carries a valid container magic
and no names at all, yet decoding fails (`struct.error` on the truncated header),
refuting "no other input condition is fatal". -/
theorem claim_C6_counterexample :
    from_file (fun b => b) [82, 65, 82, 67] = .error .structError ∧
    [82, 65, 82, 67].take 4 = rarcMagic ∧
    DecodeErr.structError ≠ DecodeErr.badMagic := by
  exact ⟨rfl, rfl, by decide⟩

/-- Claim C6, amended: a buffer starting with neither magic fails with the format
error; a buffer starting with the compression magic is first fully decompressed
and then decoded exactly like the decompressed buffer (so it succeeds whenever the
decompressed form is a valid archive); truncated or structurally invalid buffers
are additionally fatal. -/
theorem claim_C6 (D : List Nat → List Nat) (buf : List Nat) :
    (buf.take 4 ≠ rarcMagic → buf.take 4 ≠ yaz0Magic → from_file D buf = .error .badMagic) ∧
    (buf.take 4 = yaz0Magic → from_file D buf = decodeRarcBody (D buf)) := by
  constructor
  · intro h1 h2
    unfold from_file
    rw [if_neg h2]
    unfold decodeRarcBody
    rw [if_neg h1]
  · intro h
    unfold from_file
    rw [if_pos h]

theorem claim_C6_witness :
    from_file (fun b => b) [1, 2, 3, 4] = .error .badMagic ∧
    from_file (fun _ => [82, 65, 82, 67]) yaz0Magic = decodeRarcBody [82, 65, 82, 67] := by
  exact ⟨(claim_C6 (fun b => b) [1, 2, 3, 4]).1 (by decide) (by decide),
    (claim_C6 (fun _ => [82, 65, 82, 67]) yaz0Magic).2 (by decide)⟩

/-! ## Claims C1 and C3 -/

/-- The id field of the `k`-th file record a no-override run emits is the
sequential fallback id `fid + k`. -/
theorem fileEntriesBytes_ids (st : StringTable) (dp : List Nat) :
    ∀ (fs : List AFile) (fid : Nat) (dataB FB data2 : List Nat) (fid2 : Nat),
    fileEntriesBytes st none cs0 dp fs fid dataB = .ok (FB, fid2, data2) →
    ∀ k, k < fs.length → ∃ tail, FB.drop (20 * k) = u16b (fid + k) ++ tail := by
  intro fs
  induction fs with
  | nil =>
    intro fid dataB FB data2 fid2 _ k hk
    simp at hk
  | cons f rest ih =>
    intro fid dataB FB data2 fid2 hrun k hk
    cases ho : alookup st.map f.name with
    | none =>
      rw [show fileEntriesBytes st none cs0 dp (f :: rest) fid dataB = .error .keyError by
        simp [fileEntriesBytes, req, StringTable.get_string_offset, ho, ebind_err]] at hrun
      cases hrun
    | some o =>
      rw [fileEntriesBytes_cons_none st dp f rest fid dataB o ho] at hrun
      cases hr : fileEntriesBytes st none cs0 dp rest (fid + 1)
          (dataB ++ f.content ++ pad32bytes (dataB.length + f.content.length)) with
      | error e =>
        rw [hr] at hrun
        cases hrun
      | ok out =>
        rcases out with ⟨FBr, fid1, dataB2⟩
        rw [hr] at hrun
        simp only [Except.ok.injEq, Prod.mk.injEq] at hrun
        obtain ⟨hFB, _, _⟩ := hrun
        subst hFB
        cases k with
        | zero =>
          refine ⟨u16b (hash_name f.name) ++ [17, 0] ++ u16b o ++ u32b dataB.length ++
            u32b f.content.length ++ u32b 0 ++ FBr, ?_⟩
          simp [List.append_assoc]
        | succ k2 =>
          obtain ⟨tail, htail⟩ := ih (fid + 1) _ FBr dataB2 fid1 hr k2 (by
            simp only [List.length_cons] at hk
            omega)
          refine ⟨tail, ?_⟩
          rw [show 20 * (k2 + 1) = (u16b fid ++ u16b (hash_name f.name) ++ [17, 0] ++
            u16b o ++ u32b dataB.length ++ u32b f.content.length ++ u32b 0).length +
            20 * k2 by rw [entryRec_length]; ring]
          rw [List.drop_append]
          rw [htail]
          rw [show fid + 1 + k2 = fid + (k2 + 1) by omega]

/-- Claim C1, amended: encoding a well-formed tree with no override table and no
compression succeeds, and decoding the result always yields the `assignIdsD`
transform of the tree — the same hierarchy, names and byte content, but with each
file's id replaced by the sequential fallback id, its hash by the stored name
hash, and its flag byte by the default `0x11`.  Structural equality with the
input itself holds only when the input's ids, hashes and flags already carry
those values (the encoder discards the input's own id and flag fields). -/
theorem claim_C1 (T : ADir) (mi : Nat) (h : wfArc T mi) :
    ∃ buf, write_arc T none mi cs0 = .ok buf ∧
      ∀ D, from_file D buf = .ok (assignIdsD T mi).1 :=
  roundtrip_helper T mi h

theorem claim_C1_witness : wfArc w1tree 0 ∧
    (∃ buf, write_arc w1tree none 0 cs0 = .ok buf ∧
      ∀ D, from_file D buf = .ok (assignIdsD w1tree 0).1) :=
  ⟨by decide, claim_C1 w1tree 0 (by decide)⟩

/-- Counterexample to claim C1 as stated: `c1tree`'s single file carries id 7 and
flag byte 0x15, but the decode of its encode yields id 0 and flag byte 0x11 —
structural equality fails for every tree whose files carry non-default ids or
flags. -/
theorem claim_C1_counterexample : roundtripNC c1tree = some c1dec ∧ c1dec ≠ c1tree := by
  obtain ⟨buf, hw, hd⟩ := roundtrip_helper c1tree 0 (by decide)
  refine ⟨?_, ?_⟩
  · unfold roundtripNC
    rw [hw]
    show (from_file (fun b => b) buf).toOption = some c1dec
    rw [hd (fun b => b)]
    rfl
  · intro hEq
    simp [c1dec, c1tree] at hEq

/-- Claim C3, amended: with no override table the encoder writes the file entries
of each directory with strictly ascending ids — the `k`-th record's id field is
the sequential fallback id `fid + k`, so consecutive records ascend.  (With an
override table the claim fails: the comparator key is constant, so entries stay
in insertion order whatever their override ids; see the counterexample.) -/
theorem claim_C3 (st : StringTable) (dp : List Nat) (fs : List AFile)
    (fid : Nat) (dataB FB data2 : List Nat) (fid2 : Nat)
    (hrun : fileEntriesBytes st none cs0 dp fs fid dataB = .ok (FB, fid2, data2))
    (hb : fid + fs.length ≤ 65536) (k : Nat) (hk : k + 1 < fs.length) :
    ru16 (FB.drop (20 * k)) 0 < ru16 (FB.drop (20 * (k + 1))) 0 := by
  obtain ⟨t1, h1⟩ := fileEntriesBytes_ids st dp fs fid dataB FB data2 fid2 hrun k (by omega)
  obtain ⟨t2, h2⟩ := fileEntriesBytes_ids st dp fs fid dataB FB data2 fid2 hrun (k + 1) hk
  rw [h1, h2, ru16_u16b _ _ (by omega), ru16_u16b _ _ (by omega)]
  omega

theorem claim_C3_witness :
    fileEntriesBytes (buildStringTable c3tree) none cs0 [114] c3tree.files 0 [] =
      .ok ([0, 0, 0, 98, 17, 0, 0, 7, 0, 0, 0, 0, 0, 0, 0, 0, 0, 0, 0, 0,
            0, 1, 0, 97, 17, 0, 0, 9, 0, 0, 0, 0, 0, 0, 0, 0, 0, 0, 0, 0], 2, []) ∧
    ru16 (([0, 0, 0, 98, 17, 0, 0, 7, 0, 0, 0, 0, 0, 0, 0, 0, 0, 0, 0, 0,
            0, 1, 0, 97, 17, 0, 0, 9, 0, 0, 0, 0, 0, 0, 0, 0, 0, 0, 0, 0] :
        List Nat).drop (20 * 0)) 0 <
      ru16 (([0, 0, 0, 98, 17, 0, 0, 7, 0, 0, 0, 0, 0, 0, 0, 0, 0, 0, 0, 0,
            0, 1, 0, 97, 17, 0, 0, 9, 0, 0, 0, 0, 0, 0, 0, 0, 0, 0, 0, 0] :
        List Nat).drop (20 * (0 + 1))) 0 :=
  ⟨by rfl, claim_C3 (buildStringTable c3tree) [114] c3tree.files 0 []
    [0, 0, 0, 98, 17, 0, 0, 7, 0, 0, 0, 0, 0, 0, 0, 0, 0, 0, 0, 0,
     0, 1, 0, 97, 17, 0, 0, 9, 0, 0, 0, 0, 0, 0, 0, 0, 0, 0, 0, 0] [] 2
    (by rfl) (by decide) 0 (by decide)⟩

end Rarc
